import Mathlib

/-!
Verification of the error-code migration utilities
(`convert_exceptions.py`, the "Rewriter", and
`fix_duplicate_biz_exception_codes.py`, the "Resolver").

File contents are modelled as `List Char`; file trees as association lists
from a path (`List Char`) to the list of the file's lines (each a
`List Char`).  All scanning and substitution functions are shallow
embeddings of the Python code, written with a structural fuel argument
(always instantiated with the length of the scanned text, which suffices
because every step consumes at least one character) so that every
definition is kernel-computable on concrete inputs.
-/

/-! ## Generic character-list scanning infrastructure -/

/-- One step of Python's non-overlapping left-to-right literal scan:
number of non-overlapping occurrences of `pat` in `text`, scanning left to
right and jumping over each match, exactly as `re.sub`/`re.findall` do for
a pattern that is a string literal.  `fuel` is structural fuel. -/
def scanCountGo (pat : List Char) : Nat → List Char → Nat
  | 0, _ => 0
  | _, [] => 0
  | fuel + 1, c :: rest =>
    if pat.isPrefixOf (c :: rest) then
      1 + scanCountGo pat fuel (List.drop (pat.length - 1) rest)
    else
      scanCountGo pat fuel rest

/-- Number of non-overlapping occurrences of the literal `pat` in `text`. -/
def scanCount (pat text : List Char) : Nat :=
  scanCountGo pat text.length text

/-- Python's `pat in text` substring test. -/
def containsSub (pat text : List Char) : Bool :=
  text.tails.any fun t => pat.isPrefixOf t

/-- `re.sub` for a literal pattern `pat`, replacement depending on a counter
that increases by one at each match (the Rewriter's code generator).
Returns (new text, new counter, number of replacements). -/
def reSubGo (pat : List Char) (rep : Nat → List Char) :
    Nat → List Char → Nat → List Char × Nat × Nat
  | 0, text, k => (text, k, 0)
  | _, [], k => ([], k, 0)
  | fuel + 1, c :: rest, k =>
    if pat.isPrefixOf (c :: rest) then
      let r := reSubGo pat rep fuel (List.drop (pat.length - 1) rest) (k + 1)
      (rep k ++ r.1, r.2.1, r.2.2 + 1)
    else
      let r := reSubGo pat rep fuel rest k
      (c :: r.1, r.2)

/-- `re.sub` with a counter-consuming replacement, cf. `reSubGo`. -/
def reSub (pat : List Char) (rep : Nat → List Char) (text : List Char)
    (k : Nat) : List Char × Nat × Nat :=
  reSubGo pat rep text.length text k

/-- A mismatch between `pat` and the text fragment `u` within their common
length: guarantees `pat` cannot be a prefix of `u ++ s` for any `s`. -/
def mism (pat u : List Char) : Bool :=
  (pat.zip u).any fun p => p.1 != p.2

/-! ### Basic lemmas about `isPrefixOf`, `mism` and fuel -/

theorem isPrefixOf_nil_left (l : List Char) : List.isPrefixOf [] l = true := by
  cases l <;> rfl

theorem isPrefixOf_cons_cons (a b : Char) (l1 l2 : List Char) :
    List.isPrefixOf (a :: l1) (b :: l2) = (a == b && List.isPrefixOf l1 l2) := rfl

theorem isPrefixOf_append_self (pat s : List Char) :
    List.isPrefixOf pat (pat ++ s) = true := by
  induction pat with
  | nil => exact isPrefixOf_nil_left s
  | cons a l ih => simp [isPrefixOf_cons_cons, ih]

theorem isPrefixOf_false_of_mism (pat u : List Char) (s : List Char)
    (h : mism pat u = true) : List.isPrefixOf pat (u ++ s) = false := by
  induction pat generalizing u with
  | nil => simp [mism] at h
  | cons a l ih =>
    cases u with
    | nil => simp [mism] at h
    | cons b u' =>
      simp only [mism, List.zip_cons_cons, List.any_cons, Bool.or_eq_true] at h
      rcases h with h | h
      · simp only [bne_iff_ne, ne_eq] at h
        simp [isPrefixOf_cons_cons, h]
      · by_cases hab : a = b
        · subst hab
          simp [isPrefixOf_cons_cons, ih u' h]
        · simp [isPrefixOf_cons_cons, hab]

theorem mism_append_right (pat u v : List Char) (h : mism pat u = true) :
    mism pat (u ++ v) = true := by
  induction pat generalizing u with
  | nil => simp [mism] at h
  | cons a l ih =>
    cases u with
    | nil => simp [mism] at h
    | cons b u' =>
      simp only [mism, List.cons_append, List.zip_cons_cons, List.any_cons,
        Bool.or_eq_true] at h ⊢
      rcases h with h | h
      · exact Or.inl h
      · exact Or.inr (ih u' h)

/-- The head-mismatch special case: if every character of `u` differs from
the head of `pat`, every nonempty tail of `u` has a mismatch with `pat`. -/
theorem mism_of_head_ne (a : Char) (pat u : List Char)
    (h : ∀ c ∈ u, c ≠ a) (hu : u ≠ []) : mism (a :: pat) u = true := by
  cases u with
  | nil => exact absurd rfl hu
  | cons b u' =>
    have : b ≠ a := h b (List.mem_cons_self b u')
    simp only [mism, List.zip_cons_cons, List.any_cons, Bool.or_eq_true]
    exact Or.inl (by simp [bne_iff_ne]; exact fun hc => this hc.symm)

/-- The mismatch condition used for "walking a block without matching":
every nonempty tail of `a` has a mismatch with `pat`. -/
def TailsMism (pat a : List Char) : Prop :=
  ∀ y ∈ a.tails, y ≠ [] → mism pat y = true

instance (pat a : List Char) : Decidable (TailsMism pat a) := by
  unfold TailsMism; infer_instance

theorem tailsMism_nil (pat : List Char) : TailsMism pat [] := by
  intro y hy hyne
  rw [List.mem_tails] at hy
  exact absurd (List.suffix_nil.mp hy) hyne

theorem tailsMism_cons (pat : List Char) (c : Char) (a : List Char)
    (h : TailsMism pat (c :: a)) : TailsMism pat a := by
  intro y hy
  rw [List.mem_tails] at hy
  exact h y (by rw [List.mem_tails]; exact hy.trans (List.suffix_cons c a))

theorem tailsMism_head (pat : List Char) (c : Char) (a : List Char)
    (h : TailsMism pat (c :: a)) : mism pat (c :: a) = true :=
  h (c :: a) (by rw [List.mem_tails]) (by simp)

theorem suffix_trans_of_cons (a : Char) (y2 X : List Char)
    (h : (a :: y2).IsSuffix X) : y2.IsSuffix X := by
  rcases h with ⟨w, hw⟩
  exact ⟨w ++ [a], by rw [← hw]; simp⟩

/-- Assemble `TailsMism` for a concatenation: mismatches inside `u` extend
to the right, and tails of `v` are tails of `u ++ v`. -/
theorem tailsMism_append (pat u v : List Char)
    (hu : ∀ y ∈ u.tails, y ≠ [] → mism pat y = true)
    (hv : TailsMism pat v) : TailsMism pat (u ++ v) := by
  induction u with
  | nil => exact hv
  | cons c u' ih =>
    intro y hy hyne
    rw [List.cons_append, List.tails_cons, List.mem_cons] at hy
    rcases hy with hy | hy
    · subst hy
      have hm := hu (c :: u') (by rw [List.mem_tails]) (by simp)
      exact List.cons_append c u' v ▸ mism_append_right pat (c :: u') v hm
    · refine ih (fun z hz hzne => hu z ?_ hzne) y hy hyne
      rw [List.mem_tails] at hz ⊢
      exact hz.trans (List.suffix_cons c u')

/-- Head-character version: a block whose characters all differ from the
head of the pattern satisfies `TailsMism`. -/
theorem tailsMism_of_head_ne (a : Char) (pat u : List Char)
    (h : ∀ c ∈ u, c ≠ a) : TailsMism (a :: pat) u := by
  intro y hy hyne
  rw [List.mem_tails] at hy
  exact mism_of_head_ne a pat y (fun c hc => h c (hy.subset hc)) hyne

/-! ### Fuel irrelevance and canonical unfolding equations -/

theorem scanCountGo_fuel (pat : List Char) :
    ∀ f1 : Nat, ∀ f2 : Nat, ∀ text : List Char, text.length ≤ f1 →
      text.length ≤ f2 → scanCountGo pat f1 text = scanCountGo pat f2 text := by
  intro f1
  induction f1 with
  | zero =>
    intro f2 text h1 _
    have : text = [] := List.eq_nil_of_length_eq_zero (Nat.le_zero.mp h1)
    subst this
    cases f2 <;> rfl
  | succ f ih =>
    intro f2 text h1 h2
    cases text with
    | nil => cases f2 <;> rfl
    | cons c rest =>
      cases f2 with
      | zero => simp at h2
      | succ f2' =>
        simp only [scanCountGo]
        have hr : rest.length ≤ f := by simp at h1; exact h1
        have hr2 : rest.length ≤ f2' := by simp at h2; exact h2
        have hd : (List.drop (pat.length - 1) rest).length ≤ rest.length := by
          rw [List.length_drop]; omega
        by_cases hp : pat.isPrefixOf (c :: rest) = true
        · simp only [hp, if_true]
          rw [ih f2' _ (le_trans hd hr) (le_trans hd hr2)]
        · simp only [Bool.not_eq_true] at hp
          simp only [hp, Bool.false_eq_true, if_false]
          exact ih f2' rest hr hr2

theorem scanCount_nil (pat : List Char) : scanCount pat [] = 0 := rfl

theorem length_drop_le_self (n : Nat) (l : List Char) :
    (List.drop n l).length ≤ l.length := by
  rw [List.length_drop]; omega

theorem scanCount_cons_pos (pat : List Char) (c : Char) (rest : List Char)
    (h : pat.isPrefixOf (c :: rest) = true) :
    scanCount pat (c :: rest) = 1 + scanCount pat (List.drop (pat.length - 1) rest) := by
  have hD : (List.drop (pat.length - 1) rest).length ≤ rest.length :=
    length_drop_le_self _ rest
  unfold scanCount
  simp only [List.length_cons, scanCountGo, h, if_true]
  rw [scanCountGo_fuel pat rest.length (List.drop (pat.length - 1) rest).length _ hD le_rfl]

theorem scanCount_cons_neg (pat : List Char) (c : Char) (rest : List Char)
    (h : pat.isPrefixOf (c :: rest) = false) :
    scanCount pat (c :: rest) = scanCount pat rest := by
  unfold scanCount
  simp only [List.length_cons, scanCountGo, h, Bool.false_eq_true, if_false]

theorem scanCount_append_self (p : Char) (ps s : List Char) :
    scanCount (p :: ps) ((p :: ps) ++ s) = 1 + scanCount (p :: ps) s := by
  have hpre : List.isPrefixOf (p :: ps) (p :: (ps ++ s)) = true := by
    rw [← List.cons_append]; exact isPrefixOf_append_self (p :: ps) s
  rw [List.cons_append, scanCount_cons_pos (p :: ps) p (ps ++ s) hpre]
  congr 1
  have : List.drop ((p :: ps).length - 1) (ps ++ s) = s := by
    simp only [List.length_cons, Nat.add_sub_cancel]
    exact List.drop_left ps s
  rw [this]

theorem scanCount_append_of_tailsMism (pat a s : List Char)
    (h : TailsMism pat a) : scanCount pat (a ++ s) = scanCount pat s := by
  induction a with
  | nil => rfl
  | cons c a' ih =>
    have hm : mism pat (c :: a') = true := tailsMism_head pat c a' h
    have hpf : pat.isPrefixOf ((c :: a') ++ s) = false :=
      isPrefixOf_false_of_mism pat (c :: a') s hm
    rw [List.cons_append] at hpf ⊢
    rw [scanCount_cons_neg pat c (a' ++ s) hpf]
    exact ih (tailsMism_cons pat c a' h)

theorem reSubGo_fuel (pat : List Char) (rep : Nat → List Char) :
    ∀ f1 : Nat, ∀ f2 : Nat, ∀ text : List Char, ∀ k : Nat, text.length ≤ f1 →
      text.length ≤ f2 → reSubGo pat rep f1 text k = reSubGo pat rep f2 text k := by
  intro f1
  induction f1 with
  | zero =>
    intro f2 text k h1 _
    have : text = [] := List.eq_nil_of_length_eq_zero (Nat.le_zero.mp h1)
    subst this
    cases f2 <;> rfl
  | succ f ih =>
    intro f2 text k h1 h2
    cases text with
    | nil => cases f2 <;> rfl
    | cons c rest =>
      cases f2 with
      | zero => simp at h2
      | succ f2p =>
        simp only [reSubGo]
        have hr : rest.length ≤ f := by simp at h1; exact h1
        have hr2 : rest.length ≤ f2p := by simp at h2; exact h2
        have hd : (List.drop (pat.length - 1) rest).length ≤ rest.length :=
          length_drop_le_self _ rest
        by_cases hp : pat.isPrefixOf (c :: rest) = true
        · simp only [hp, if_true]
          rw [ih f2p _ (k + 1) (le_trans hd hr) (le_trans hd hr2)]
        · simp only [Bool.not_eq_true] at hp
          simp only [hp, Bool.false_eq_true, if_false]
          rw [ih f2p rest k hr hr2]

theorem reSub_nil (pat : List Char) (rep : Nat → List Char) (k : Nat) :
    reSub pat rep [] k = ([], k, 0) := rfl

theorem reSub_cons_neg (pat : List Char) (rep : Nat → List Char) (c : Char)
    (rest : List Char) (k : Nat) (h : pat.isPrefixOf (c :: rest) = false) :
    reSub pat rep (c :: rest) k =
      ((c :: (reSub pat rep rest k).1, (reSub pat rep rest k).2)) := by
  unfold reSub
  simp only [List.length_cons, reSubGo, h, Bool.false_eq_true, if_false]

theorem reSub_cons_pos (pat : List Char) (rep : Nat → List Char) (c : Char)
    (rest : List Char) (k : Nat) (h : pat.isPrefixOf (c :: rest) = true) :
    reSub pat rep (c :: rest) k =
      ((rep k ++ (reSub pat rep (List.drop (pat.length - 1) rest) (k + 1)).1,
        (reSub pat rep (List.drop (pat.length - 1) rest) (k + 1)).2.1,
        (reSub pat rep (List.drop (pat.length - 1) rest) (k + 1)).2.2 + 1)) := by
  have hD : (List.drop (pat.length - 1) rest).length ≤ rest.length :=
    length_drop_le_self _ rest
  unfold reSub
  simp only [List.length_cons, reSubGo, h, if_true]
  rw [reSubGo_fuel pat rep rest.length (List.drop (pat.length - 1) rest).length _
    (k + 1) hD le_rfl]

theorem reSub_append_self (p : Char) (ps s : List Char) (rep : Nat → List Char)
    (k : Nat) :
    reSub (p :: ps) rep ((p :: ps) ++ s) k =
      ((rep k ++ (reSub (p :: ps) rep s (k + 1)).1,
        (reSub (p :: ps) rep s (k + 1)).2.1,
        (reSub (p :: ps) rep s (k + 1)).2.2 + 1)) := by
  have hpre : List.isPrefixOf (p :: ps) (p :: (ps ++ s)) = true := by
    rw [← List.cons_append]; exact isPrefixOf_append_self (p :: ps) s
  rw [List.cons_append, reSub_cons_pos (p :: ps) rep p (ps ++ s) k hpre]
  have : List.drop ((p :: ps).length - 1) (ps ++ s) = s := by
    simp only [List.length_cons, Nat.add_sub_cancel]
    exact List.drop_left ps s
  rw [this]

theorem reSub_append_of_tailsMism (pat a s : List Char) (rep : Nat → List Char)
    (k : Nat) (h : TailsMism pat a) :
    reSub pat rep (a ++ s) k =
      ((a ++ (reSub pat rep s k).1, (reSub pat rep s k).2)) := by
  induction a with
  | nil => rfl
  | cons c a' ih =>
    have hm : mism pat (c :: a') = true := tailsMism_head pat c a' h
    have hpf : pat.isPrefixOf ((c :: a') ++ s) = false :=
      isPrefixOf_false_of_mism pat (c :: a') s hm
    rw [List.cons_append] at hpf ⊢
    rw [reSub_cons_neg pat rep c (a' ++ s) k hpf, ih (tailsMism_cons pat c a' h)]
    simp

/-! ### Generic preservation and exhaustion theorems for `reSub`

These are the heart of the Rewriter proofs: substituting a literal
pattern `pat` by replacements `rep k` neither creates nor destroys
occurrences of an unrelated literal `X`, and leaves no occurrence of `pat`
itself, under decidable mismatch side conditions relating the concrete
strings involved. -/

/-- Every nonempty suffix of `X` has a mismatch with `b` (within their
common length), so no occurrence of `X` (or a tail of one) can begin at
the start of a block `b ++ s`. -/
def SufMism (X b : List Char) : Prop :=
  ∀ y, y.IsSuffix X → y ≠ [] → mism y b = true

instance (X b : List Char) : Decidable (SufMism X b) := by
  unfold SufMism
  have : (∀ y ∈ X.tails, y ≠ [] → mism y b = true) ↔
      (∀ y, y.IsSuffix X → y ≠ [] → mism y b = true) := by
    constructor
    · intro h y hy; exact h y ((List.mem_tails y X).mpr hy)
    · intro h y hy; exact h y ((List.mem_tails y X).mp hy)
  exact decidable_of_iff _ this

theorem sufMism_append_right (X b v : List Char) (h : SufMism X b) :
    SufMism X (b ++ v) := fun y hy hyne =>
  mism_append_right y b v (h y hy hyne)

/-- If an occurrence of (a nonempty suffix of) `X` starts somewhere in the
output of `reSub pat rep`, then it already started at the corresponding
place of the input: replacements never manufacture `X`-occurrences.  The
side condition says every nonempty suffix of `X` mismatches every
replacement block. -/
theorem isPrefixOf_of_isPrefixOf_reSub (X pat : List Char) (rep : Nat → List Char)
    (hpat : pat ≠ [])
    (hSufRep : ∀ k, SufMism X (rep k)) :
    ∀ text : List Char, ∀ k : Nat, ∀ y : List Char, y.IsSuffix X → y ≠ [] →
      y.isPrefixOf (reSub pat rep text k).1 = true → y.isPrefixOf text = true := by
  suffices h : ∀ n : Nat, ∀ text : List Char, text.length = n → ∀ k : Nat,
      ∀ y : List Char, y.IsSuffix X → y ≠ [] →
      y.isPrefixOf (reSub pat rep text k).1 = true → y.isPrefixOf text = true by
    intro text
    exact h text.length text rfl
  intro n
  induction n using Nat.strong_induction_on with
  | _ n ih =>
    intro text hlen k y hyX hyne hpre
    cases text with
    | nil =>
      rw [reSub_nil] at hpre
      cases y with
      | nil => exact absurd rfl hyne
      | cons a y2 => simp [List.isPrefixOf] at hpre
    | cons c rest =>
      by_cases hp : pat.isPrefixOf (c :: rest) = true
      · exfalso
        obtain ⟨p, ps, hps⟩ : ∃ p ps, pat = p :: ps := by
          cases pat with
          | nil => exact absurd rfl hpat
          | cons p ps => exact ⟨p, ps, rfl⟩
        subst hps
        rw [reSub_cons_pos _ rep c rest k hp] at hpre
        have := isPrefixOf_false_of_mism y (rep k)
          ((reSub (p :: ps) rep (List.drop ((p :: ps).length - 1) rest) (k + 1)).1)
          (hSufRep k y hyX hyne)
        rw [this] at hpre
        exact Bool.false_ne_true hpre
      · rw [reSub_cons_neg pat rep c rest k
          (Bool.not_eq_true _ ▸ (by simpa using hp))] at hpre
        cases y with
        | nil => exact absurd rfl hyne
        | cons a y2 =>
          rw [isPrefixOf_cons_cons] at hpre ⊢
          rcases Bool.and_eq_true_iff.mp hpre with ⟨hac, hrest⟩
          rw [hac, Bool.true_and]
          cases y2 with
          | nil => exact isPrefixOf_nil_left rest
          | cons b y3 =>
            have hy2X : (b :: y3).IsSuffix X := by
              rcases hyX with ⟨w, hw⟩
              exact ⟨w ++ [a], by rw [← hw]; simp⟩
            subst hlen
            exact ih rest.length (by simp) rest rfl k (b :: y3) hy2X (by simp) hrest

/-- Substitution of `pat` preserves the number of occurrences of an
unrelated nonempty literal `X`.  Hypotheses:
* `hwalkRep` — X never matches starting inside a replacement;
* `hwalkPat` — X never matches starting inside a consumed occurrence of `pat`;
* `hXwalk`  — `pat` never matches starting inside an occurrence of `X`;
* `hSufRep` — no X-occurrence can start at a replacement boundary. -/
theorem scanCount_reSub_eq (X : List Char) (pat : List Char) (rep : Nat → List Char)
    (hXne : X ≠ []) (hpat : pat ≠ [])
    (hwalkRep : ∀ k, TailsMism X (rep k))
    (hwalkPat : TailsMism X pat)
    (hXwalk : TailsMism pat X)
    (hSufRep : ∀ k, SufMism X (rep k)) :
    ∀ text : List Char, ∀ k : Nat,
      scanCount X (reSub pat rep text k).1 = scanCount X text := by
  obtain ⟨p, ps, hps⟩ : ∃ p ps, pat = p :: ps := by
    cases pat with
    | nil => exact absurd rfl hpat
    | cons p ps => exact ⟨p, ps, rfl⟩
  obtain ⟨X0, Xs, hXs⟩ : ∃ X0 Xs, X = X0 :: Xs := by
    cases X with
    | nil => exact absurd rfl hXne
    | cons X0 Xs => exact ⟨X0, Xs, rfl⟩
  subst hps
  suffices h : ∀ n : Nat, ∀ text : List Char, text.length = n → ∀ k : Nat,
      scanCount X (reSub (p :: ps) rep text k).1 = scanCount X text by
    intro text
    exact h text.length text rfl
  intro n
  induction n using Nat.strong_induction_on with
  | _ n ih =>
    intro text hlen k
    cases text with
    | nil => rw [reSub_nil]
    | cons c rest =>
      by_cases hp : (p :: ps).isPrefixOf (c :: rest) = true
      · -- a pat-occurrence is consumed here
        obtain ⟨u, hu⟩ : ∃ u, (p :: ps) ++ u = c :: rest :=
          List.isPrefixOf_iff_prefix.mp hp
        have hco := hu
        rw [List.cons_append] at hco
        have hrest : ps ++ u = rest := (List.cons.inj hco).2
        have hdrop : List.drop ((p :: ps).length - 1) rest = u := by
          rw [← hrest]
          simp only [List.length_cons, Nat.add_sub_cancel]
          exact List.drop_left ps u
        rw [reSub_cons_pos _ rep c rest k hp, hdrop]
        simp only
        rw [scanCount_append_of_tailsMism X (rep k) _ (hwalkRep k)]
        have hulen : u.length < n := by
          subst hlen
          rw [← hrest]
          simp only [List.length_cons, List.length_append]
          omega
        rw [ih u.length hulen u rfl (k + 1)]
        have hstep : scanCount X ((p :: ps) ++ u) = scanCount X u :=
          scanCount_append_of_tailsMism X (p :: ps) u hwalkPat
        rw [hu] at hstep
        rw [hstep]
      · have hneg : (p :: ps).isPrefixOf (c :: rest) = false := Bool.eq_false_iff.mpr hp
        rw [reSub_cons_neg (p :: ps) rep c rest k hneg]
        simp only
        by_cases hX : X.isPrefixOf (c :: rest) = true
        · -- an X-occurrence starts here; the substitution walks through it
          obtain ⟨u, hu⟩ : ∃ u, X ++ u = c :: rest :=
            List.isPrefixOf_iff_prefix.mp hX
          have hsub : reSub (p :: ps) rep (X ++ u) k =
              ((X ++ (reSub (p :: ps) rep u k).1, (reSub (p :: ps) rep u k).2)) :=
            reSub_append_of_tailsMism (p :: ps) X u rep k hXwalk
          rw [hu] at hsub
          rw [reSub_cons_neg (p :: ps) rep c rest k hneg] at hsub
          have hout : c :: (reSub (p :: ps) rep rest k).1 =
              X ++ (reSub (p :: ps) rep u k).1 := congrArg Prod.fst hsub
          rw [hout, hXs, scanCount_append_self X0 Xs _, ← hXs]
          have hulen : u.length < n := by
            subst hlen
            have hl : (X ++ u).length = (c :: rest).length := by rw [hu]
            rw [hXs] at hl
            simp only [List.length_cons, List.length_append] at hl
            simp only [List.length_cons]
            omega
          rw [ih u.length hulen u rfl k]
          have hr : scanCount X (c :: rest) = 1 + scanCount X u := by
            rw [← hu, hXs, scanCount_append_self X0 Xs u]
          rw [hr]
        · -- no X here and no pat here: both scans step one character
          have hXneg : X.isPrefixOf (c :: rest) = false := Bool.eq_false_iff.mpr hX
          have hXout : X.isPrefixOf (c :: (reSub (p :: ps) rep rest k).1) = false := by
            by_contra hcontra
            rw [Bool.not_eq_false] at hcontra
            have hstep : X.isPrefixOf (reSub (p :: ps) rep (c :: rest) k).1 = true := by
              rw [reSub_cons_neg (p :: ps) rep c rest k hneg]
              exact hcontra
            have := isPrefixOf_of_isPrefixOf_reSub X (p :: ps) rep (by simp)
              hSufRep (c :: rest) k X (List.suffix_refl X) hXne hstep
            rw [this] at hXneg
            simp at hXneg
          rw [scanCount_cons_neg X c _ hXout, scanCount_cons_neg X c rest hXneg]
          subst hlen
          exact ih rest.length (by simp) rest rfl k

/-- After substituting `pat` away, no occurrence of `pat` remains (the
Rewriter's replacements contain no new occurrence of the pattern). -/
theorem scanCount_reSub_self_eq_zero (pat : List Char) (rep : Nat → List Char)
    (hpat : pat ≠ [])
    (hwalkRep : ∀ k, TailsMism pat (rep k))
    (hSufRep : ∀ k, SufMism pat (rep k)) :
    ∀ text : List Char, ∀ k : Nat,
      scanCount pat (reSub pat rep text k).1 = 0 := by
  obtain ⟨p, ps, hps⟩ : ∃ p ps, pat = p :: ps := by
    cases pat with
    | nil => exact absurd rfl hpat
    | cons p ps => exact ⟨p, ps, rfl⟩
  subst hps
  suffices h : ∀ n : Nat, ∀ text : List Char, text.length = n → ∀ k : Nat,
      scanCount (p :: ps) (reSub (p :: ps) rep text k).1 = 0 by
    intro text
    exact h text.length text rfl
  intro n
  induction n using Nat.strong_induction_on with
  | _ n ih =>
    intro text hlen k
    cases text with
    | nil => rw [reSub_nil]; rfl
    | cons c rest =>
      by_cases hp : (p :: ps).isPrefixOf (c :: rest) = true
      · obtain ⟨u, hu⟩ : ∃ u, (p :: ps) ++ u = c :: rest :=
          List.isPrefixOf_iff_prefix.mp hp
        have hco := hu
        rw [List.cons_append] at hco
        have hrest : ps ++ u = rest := (List.cons.inj hco).2
        have hdrop : List.drop ((p :: ps).length - 1) rest = u := by
          rw [← hrest]
          simp only [List.length_cons, Nat.add_sub_cancel]
          exact List.drop_left ps u
        rw [reSub_cons_pos _ rep c rest k hp, hdrop]
        simp only
        rw [scanCount_append_of_tailsMism (p :: ps) (rep k) _ (hwalkRep k)]
        have hulen : u.length < n := by
          subst hlen
          rw [← hrest]
          simp only [List.length_cons, List.length_append]
          omega
        exact ih u.length hulen u rfl (k + 1)
      · have hneg : (p :: ps).isPrefixOf (c :: rest) = false := Bool.eq_false_iff.mpr hp
        rw [reSub_cons_neg (p :: ps) rep c rest k hneg]
        simp only
        have hXout : (p :: ps).isPrefixOf (c :: (reSub (p :: ps) rep rest k).1) = false := by
          by_contra hcontra
          rw [Bool.not_eq_false] at hcontra
          have hstep : (p :: ps).isPrefixOf (reSub (p :: ps) rep (c :: rest) k).1 = true := by
            rw [reSub_cons_neg (p :: ps) rep c rest k hneg]
            exact hcontra
          have := isPrefixOf_of_isPrefixOf_reSub (p :: ps) (p :: ps) rep (by simp)
            hSufRep (c :: rest) k (p :: ps) (List.suffix_refl _) (by simp) hstep
          rw [this] at hneg
          simp at hneg
        rw [scanCount_cons_neg _ c _ hXout]
        subst hlen
        exact ih rest.length (by simp) rest rfl k

/-! ## The Rewriter: `convert_exceptions.py` -/

/-- The character for the decimal digit `n` (`n < 10`). -/
def digitChar (n : Nat) : Char := Char.ofNat (48 + n)

/-- Decimal digit string of `n`, most significant digit first, as Python's
`str`/format produce for a nonnegative integer.  Structural fuel. -/
def natDigitsGo : Nat → Nat → List Char
  | 0, _ => []
  | fuel + 1, n =>
    if n < 10 then [digitChar n]
    else natDigitsGo fuel (n / 10) ++ [digitChar (n % 10)]

/-- Decimal digit string of `n`. -/
def natDigits (n : Nat) : List Char := natDigitsGo (n + 1) n

/-- Python's `f"{n:05d}"` for a nonnegative `n`: zero-pad to width 5. -/
def pad5 (n : Nat) : List Char :=
  List.replicate (5 - (natDigits n).length) '0' ++ natDigits n

/-- The literal regex `throw new IllegalArgumentException\(` (a pure
literal once the escapes are removed). -/
def throwPat : List Char := "throw new IllegalArgumentException(".toList

/-- The literal regex `BizException\.badRequest\(`. -/
def badPat : List Char := "BizException.badRequest(".toList

/-- The Rewriter's generated code text `f"{date_prefix}{counter:05d}L"`. -/
def mkCode (dp : List Char) (k : Nat) : List Char := dp ++ pad5 k ++ ['L']

/-- Replacement for a throw-style match: `f"throw BizException.failed({code},"`. -/
def throwRepl (dp : List Char) (k : Nat) : List Char :=
  "throw BizException.failed(".toList ++ mkCode dp k ++ [',']

/-- Replacement for a bad-request match: `f"BizException.failed({code}, "`
(note the single space after the comma). -/
def badRepl (dp : List Char) (k : Nat) : List Char :=
  "BizException.failed(".toList ++ mkCode dp k ++ [',', ' ']

/-- `convert_illegal_argument_exception` from `convert_exceptions.py`:
replace every occurrence of the throw-style literal, consuming one counter
value per match.  Returns (new content, new counter, replacement count). -/
def convert_illegal_argument_exception (content : List Char) (counter : Nat)
    (dp : List Char) : List Char × Nat × Nat :=
  reSub throwPat (throwRepl dp) content counter

/-- `convert_biz_exception_bad_request` from `convert_exceptions.py`. -/
def convert_biz_exception_bad_request (content : List Char) (counter : Nat)
    (dp : List Char) : List Char × Nat × Nat :=
  reSub badPat (badRepl dp) content counter

/-- Python's `\s` character class, restricted to the ASCII whitespace the
sources use (space, tab, newline, carriage return, form feed, vertical
tab); the Unicode-only whitespace code points play no part in the claims. -/
def isPyWS (c : Char) : Bool :=
  c == ' ' || c == '\t' || c == '\n' || c == '\r' ||
    c == Char.ofNat 11 || c == Char.ofNat 12

/-- Try to match the regex `@throws\s+IllegalArgumentException` at the
start of `s`; on success return the remainder after the match.  `\s+` is
greedy, and since `I` is not whitespace the maximal munch is exact. -/
def parseJavadocAt (s : List Char) : Option (List Char) :=
  if "@throws".toList.isPrefixOf s then
    let r1 := List.drop 7 s
    let ws := List.takeWhile isPyWS r1
    if ws.isEmpty then none
    else
      let r2 := List.dropWhile isPyWS r1
      if "IllegalArgumentException".toList.isPrefixOf r2 then
        some (List.drop 24 r2)
      else none
  else none

/-- The fixed replacement text for a `@throws` doc-tag match. -/
def javadocRepl : List Char := "@throws BizException".toList

/-- `re.subn(r'@throws\s+IllegalArgumentException', '@throws BizException', content)`:
returns (new content, number of replacements).  Structural fuel. -/
def javadocSubGo : Nat → List Char → List Char × Nat
  | 0, text => (text, 0)
  | _, [] => ([], 0)
  | fuel + 1, c :: rest =>
    match parseJavadocAt (c :: rest) with
    | some r2 =>
      let r := javadocSubGo fuel r2
      (javadocRepl ++ r.1, r.2 + 1)
    | none =>
      let r := javadocSubGo fuel rest
      (c :: r.1, r.2)

/-- `update_javadoc_throws` from `convert_exceptions.py`. -/
def update_javadoc_throws (content : List Char) : List Char × Nat :=
  javadocSubGo content.length content

/-- `BIZ_EXCEPTION_IMPORT` from `convert_exceptions.py`. -/
def importLine : List Char :=
  "import com.alliance.casino.common.exception.BizException;".toList

/-- `has_biz_exception_import`: a plain substring containment test (the
Python source tests the same literal twice; once is equivalent). -/
def has_biz_exception_import (content : List Char) : Bool :=
  containsSub importLine content

/-- Python's `content.split('\n')`: split at every newline; the result
always has one more part than there are newlines, and no part contains a
newline. -/
def splitNl : List Char → List (List Char)
  | [] => [[]]
  | c :: rest =>
    if c = '\n' then [] :: splitNl rest
    else
      match splitNl rest with
      | [] => [[c]]
      | l :: ls => (c :: l) :: ls

/-- Python's `'\n'.join(lines)`. -/
def joinNl : List (List Char) → List Char
  | [] => []
  | [l] => l
  | l :: ls => l ++ '\n' :: joinNl ls

/-- Python's `list.insert(i, x)` (for `i ≤ len`, which always holds at the
call sites; for larger `i` both append). -/
def pyInsertAt (i : Nat) (x : List Char) (ls : List (List Char)) :
    List (List Char) :=
  List.take i ls ++ x :: List.drop i ls

/-- Index of the last line satisfying `p` (the Python loop keeps
overwriting `last_import_index`, so it ends on the last hit). -/
def lastIdxWith (p : List Char → Bool) : List (List Char) → Option Nat
  | [] => none
  | l :: ls =>
    match lastIdxWith p ls with
    | some i => some (i + 1)
    | none => if p l then some 0 else none

/-- Index of the first line satisfying `p` (the Python loop breaks at the
first hit). -/
def firstIdxWith (p : List Char → Bool) : List (List Char) → Option Nat
  | [] => none
  | l :: ls =>
    if p l then some 0
    else (firstIdxWith p ls).map (· + 1)

/-- A line whose `strip()` is empty: all characters are whitespace. -/
def isBlankLine (l : List Char) : Bool := l.all isPyWS

/-- The `while` loop that skips blank lines after the `package` statement:
starting at index `i`, advance past consecutive blank lines. -/
def skipBlanksFrom (ls : List (List Char)) (i : Nat) : Nat :=
  i + (List.takeWhile isBlankLine (List.drop i ls)).length

/-- `add_import_if_needed` from `convert_exceptions.py`.  Returns
(new content, was_added). -/
def add_import_if_needed (content : List Char) : List Char × Bool :=
  if has_biz_exception_import content then (content, false)
  else
    let lines := splitNl content
    match lastIdxWith (fun l => "import ".toList.isPrefixOf l) lines with
    | some i => (joinNl (pyInsertAt (i + 1) importLine lines), true)
    | none =>
      match firstIdxWith (fun l => "package ".toList.isPrefixOf l) lines with
      | some i =>
        (joinNl (pyInsertAt (skipBlanksFrom lines (i + 1)) importLine lines), true)
      | none => (content, false)

/-- Per-file statistics of `process_file`. -/
structure FileStats where
  illegal_arg : Nat
  bad_request : Nat
  javadoc : Nat
  import_added : Bool
  modified : Bool
  deriving Repr, DecidableEq

/-- `process_file` from `convert_exceptions.py`, minus the file I/O:
takes the file's text, the running counter and the date prefix, and
returns (new text, new counter, stats). -/
def process_file (content : List Char) (counter : Nat) (dp : List Char) :
    List Char × Nat × FileStats :=
  let r1 := convert_illegal_argument_exception content counter dp
  let r2 := convert_biz_exception_bad_request r1.1 r1.2.1 dp
  let r3 := update_javadoc_throws r2.1
  let withImport :=
    if 0 < r1.2.2 ∨ 0 < r2.2.2 then add_import_if_needed r3.1
    else (r3.1, false)
  let finalContent := withImport.1
  (finalContent, r2.2.1,
    { illegal_arg := r1.2.2
      bad_request := r2.2.2
      javadoc := r3.2
      import_added := withImport.2
      modified := decide (finalContent ≠ content) })

/-! ### Concrete mismatch facts for the Rewriter's patterns

`cT`/`cB` are the constant prefixes of the two replacement strings; the
variable part (generated code) consists of digits plus `L`, `,` and a
space, none of which can begin an occurrence of either pattern. -/

/-- Constant prefix of the throw-style replacement. -/
def cT : List Char := "throw BizException.failed(".toList

/-- Constant prefix of the bad-request replacement. -/
def cB : List Char := "BizException.failed(".toList

set_option maxRecDepth 10000

theorem throwRepl_eq (dp : List Char) (k : Nat) :
    throwRepl dp k = cT ++ (mkCode dp k ++ [',']) := by
  unfold throwRepl cT
  simp

theorem badRepl_eq (dp : List Char) (k : Nat) :
    badRepl dp k = cB ++ (mkCode dp k ++ [',', ' ']) := by
  unfold badRepl cB
  simp

theorem badPat_cons : badPat = 'B' :: "izException.badRequest(".toList := rfl

theorem throwPat_cons : throwPat = 't' :: "hrow new IllegalArgumentException(".toList := rfl

theorem tails_cT_badPat : ∀ y ∈ cT.tails, y ≠ [] → mism badPat y = true := by decide

theorem tails_cT_throwPat : ∀ y ∈ cT.tails, y ≠ [] → mism throwPat y = true := by decide

theorem tails_cB_badPat : ∀ y ∈ cB.tails, y ≠ [] → mism badPat y = true := by decide

theorem tails_cB_throwPat : ∀ y ∈ cB.tails, y ≠ [] → mism throwPat y = true := by decide

theorem tailsMism_badPat_throwPat : TailsMism badPat throwPat := by decide

theorem tailsMism_throwPat_badPat : TailsMism throwPat badPat := by decide

theorem sufMism_badPat_cT : SufMism badPat cT := by decide

theorem sufMism_throwPat_cT : SufMism throwPat cT := by decide

theorem sufMism_badPat_cB : SufMism badPat cB := by decide

theorem sufMism_throwPat_cB : SufMism throwPat cB := by decide

/-- Characters of a digit string cannot equal a non-digit character. -/
theorem ne_of_isDigit (c x : Char) (h : c.isDigit = true)
    (hx : x.isDigit = false) : c ≠ x := by
  intro he
  rw [he, hx] at h
  exact Bool.false_ne_true h

theorem digitChar_isDigit : ∀ m : Nat, m < 10 → (digitChar m).isDigit = true := by
  decide

theorem natDigitsGo_isDigit :
    ∀ fuel n : Nat, ∀ c ∈ natDigitsGo fuel n, c.isDigit = true := by
  intro fuel
  induction fuel with
  | zero => intro n c hc; simp [natDigitsGo] at hc
  | succ f ih =>
    intro n c hc
    by_cases hn : n < 10
    · simp only [natDigitsGo, hn, if_true, List.mem_singleton] at hc
      subst hc
      exact digitChar_isDigit n hn
    · simp only [natDigitsGo, hn, if_false, List.mem_append,
        List.mem_singleton] at hc
      rcases hc with hc | hc
      · exact ih (n / 10) c hc
      · subst hc
        exact digitChar_isDigit (n % 10) (Nat.mod_lt n (by omega))

theorem pad5_isDigit (n : Nat) : ∀ c ∈ pad5 n, c.isDigit = true := by
  intro c hc
  unfold pad5 at hc
  rcases List.mem_append.mp hc with hc | hc
  · rw [List.eq_of_mem_replicate hc]
    decide
  · exact natDigitsGo_isDigit _ n c hc

/-- Every character of the generated code text plus trailing punctuation
differs from the fixed character `x`, provided `x` is not a digit, not
`L`, and not one of the punctuation characters. -/
theorem mkCode_append_ne (dp : List Char) (k : Nat) (extra : List Char)
    (x : Char) (hdp : ∀ c ∈ dp, c.isDigit = true) (hx : x.isDigit = false)
    (hxL : x ≠ 'L') (hextra : ∀ c ∈ extra, c ≠ x) :
    ∀ c ∈ mkCode dp k ++ extra, c ≠ x := by
  intro c hc
  rcases List.mem_append.mp hc with hc | hc
  · unfold mkCode at hc
    rcases List.mem_append.mp hc with hc | hc
    · rcases List.mem_append.mp hc with hc | hc
      · exact ne_of_isDigit c x (hdp c hc) hx
      · exact ne_of_isDigit c x (pad5_isDigit k c hc) hx
    · rw [List.mem_singleton.mp hc]
      exact fun he => hxL he.symm
  · exact hextra c hc

theorem tailsMism_badPat_throwRepl (dp : List Char)
    (hdp : ∀ c ∈ dp, c.isDigit = true) (k : Nat) :
    TailsMism badPat (throwRepl dp k) := by
  rw [throwRepl_eq]
  refine tailsMism_append badPat cT _ tails_cT_badPat ?_
  rw [badPat_cons]
  exact tailsMism_of_head_ne 'B' _ _
    (mkCode_append_ne dp k [','] 'B' hdp (by decide) (by decide) (by decide))

theorem tailsMism_throwPat_throwRepl (dp : List Char)
    (hdp : ∀ c ∈ dp, c.isDigit = true) (k : Nat) :
    TailsMism throwPat (throwRepl dp k) := by
  rw [throwRepl_eq]
  refine tailsMism_append throwPat cT _ tails_cT_throwPat ?_
  rw [throwPat_cons]
  exact tailsMism_of_head_ne 't' _ _
    (mkCode_append_ne dp k [','] 't' hdp (by decide) (by decide) (by decide))

theorem tailsMism_badPat_badRepl (dp : List Char)
    (hdp : ∀ c ∈ dp, c.isDigit = true) (k : Nat) :
    TailsMism badPat (badRepl dp k) := by
  rw [badRepl_eq]
  refine tailsMism_append badPat cB _ tails_cB_badPat ?_
  rw [badPat_cons]
  exact tailsMism_of_head_ne 'B' _ _
    (mkCode_append_ne dp k [',', ' '] 'B' hdp (by decide) (by decide) (by decide))

theorem tailsMism_throwPat_badRepl (dp : List Char)
    (hdp : ∀ c ∈ dp, c.isDigit = true) (k : Nat) :
    TailsMism throwPat (badRepl dp k) := by
  rw [badRepl_eq]
  refine tailsMism_append throwPat cB _ tails_cB_throwPat ?_
  rw [throwPat_cons]
  exact tailsMism_of_head_ne 't' _ _
    (mkCode_append_ne dp k [',', ' '] 't' hdp (by decide) (by decide) (by decide))

theorem sufMism_badPat_throwRepl (dp : List Char) (k : Nat) :
    SufMism badPat (throwRepl dp k) := by
  rw [throwRepl_eq]
  exact sufMism_append_right badPat cT _ sufMism_badPat_cT

theorem sufMism_throwPat_throwRepl (dp : List Char) (k : Nat) :
    SufMism throwPat (throwRepl dp k) := by
  rw [throwRepl_eq]
  exact sufMism_append_right throwPat cT _ sufMism_throwPat_cT

theorem sufMism_badPat_badRepl (dp : List Char) (k : Nat) :
    SufMism badPat (badRepl dp k) := by
  rw [badRepl_eq]
  exact sufMism_append_right badPat cB _ sufMism_badPat_cB

theorem sufMism_throwPat_badRepl (dp : List Char) (k : Nat) :
    SufMism throwPat (badRepl dp k) := by
  rw [badRepl_eq]
  exact sufMism_append_right throwPat cB _ sufMism_throwPat_cB

/-! ### The four pattern-interaction corollaries -/

/-- The throw-conversion preserves the number of bad-request occurrences. -/
theorem badPat_count_after_throwSub (dp : List Char)
    (hdp : ∀ c ∈ dp, c.isDigit = true) (text : List Char) (k : Nat) :
    scanCount badPat (convert_illegal_argument_exception text k dp).1 =
      scanCount badPat text :=
  scanCount_reSub_eq badPat throwPat (throwRepl dp) (by decide) (by decide)
    (tailsMism_badPat_throwRepl dp hdp) tailsMism_badPat_throwPat
    tailsMism_throwPat_badPat (sufMism_badPat_throwRepl dp) text k

/-- After the throw-conversion, no throw-style occurrence remains. -/
theorem throwPat_zero_after_throwSub (dp : List Char)
    (hdp : ∀ c ∈ dp, c.isDigit = true) (text : List Char) (k : Nat) :
    scanCount throwPat (convert_illegal_argument_exception text k dp).1 = 0 :=
  scanCount_reSub_self_eq_zero throwPat (throwRepl dp) (by decide)
    (tailsMism_throwPat_throwRepl dp hdp) (sufMism_throwPat_throwRepl dp) text k

/-- After the bad-request conversion, no bad-request occurrence remains. -/
theorem badPat_zero_after_badSub (dp : List Char)
    (hdp : ∀ c ∈ dp, c.isDigit = true) (text : List Char) (k : Nat) :
    scanCount badPat (convert_biz_exception_bad_request text k dp).1 = 0 :=
  scanCount_reSub_self_eq_zero badPat (badRepl dp) (by decide)
    (tailsMism_badPat_badRepl dp hdp) (sufMism_badPat_badRepl dp) text k

/-- The bad-request conversion preserves the number of throw-style
occurrences. -/
theorem throwPat_count_after_badSub (dp : List Char)
    (hdp : ∀ c ∈ dp, c.isDigit = true) (text : List Char) (k : Nat) :
    scanCount throwPat (convert_biz_exception_bad_request text k dp).1 =
      scanCount throwPat text :=
  scanCount_reSub_eq throwPat badPat (badRepl dp) (by decide) (by decide)
    (tailsMism_throwPat_badRepl dp hdp) tailsMism_throwPat_badPat
    tailsMism_badPat_throwPat (sufMism_throwPat_badRepl dp) text k

/-! ### Counter arithmetic and the decomposition of a substitution run -/

/-- If the pattern does not occur, the substitution is the identity and
touches neither the counter nor the count. -/
theorem reSub_of_scanCount_zero (pat : List Char) (rep : Nat → List Char) :
    ∀ text : List Char, ∀ k : Nat, scanCount pat text = 0 →
      reSub pat rep text k = (text, k, 0) := by
  intro text
  induction text with
  | nil => intro k _; exact reSub_nil pat rep k
  | cons c rest ih =>
    intro k h
    by_cases hp : pat.isPrefixOf (c :: rest) = true
    · rw [scanCount_cons_pos pat c rest hp] at h
      omega
    · have hneg : pat.isPrefixOf (c :: rest) = false := Bool.eq_false_iff.mpr hp
      rw [scanCount_cons_neg pat c rest hneg] at h
      rw [reSub_cons_neg pat rep c rest k hneg, ih k h]

/-- The substitution advances the counter by exactly the number of
occurrences, and reports that number. -/
theorem reSub_counter (pat : List Char) (rep : Nat → List Char) :
    ∀ text : List Char, ∀ k : Nat,
      (reSub pat rep text k).2.1 = k + scanCount pat text ∧
      (reSub pat rep text k).2.2 = scanCount pat text := by
  suffices h : ∀ n : Nat, ∀ text : List Char, text.length = n → ∀ k : Nat,
      (reSub pat rep text k).2.1 = k + scanCount pat text ∧
      (reSub pat rep text k).2.2 = scanCount pat text by
    intro text
    exact h text.length text rfl
  intro n
  induction n using Nat.strong_induction_on with
  | _ n ih =>
    intro text hlen k
    cases text with
    | nil => simp [reSub_nil, scanCount_nil]
    | cons c rest =>
      by_cases hp : pat.isPrefixOf (c :: rest) = true
      · rw [reSub_cons_pos pat rep c rest k hp, scanCount_cons_pos pat c rest hp]
        have hlt : (List.drop (pat.length - 1) rest).length < n := by
          subst hlen
          have := length_drop_le_self (pat.length - 1) rest
          simp only [List.length_cons]
          omega
        have := ih _ hlt (List.drop (pat.length - 1) rest) rfl (k + 1)
        simp only
        omega
      · have hneg : pat.isPrefixOf (c :: rest) = false := Bool.eq_false_iff.mpr hp
        rw [reSub_cons_neg pat rep c rest k hneg, scanCount_cons_neg pat c rest hneg]
        have hlt : rest.length < n := by subst hlen; simp
        exact ih _ hlt rest rfl k

/-- The text segments strictly between consecutive pattern occurrences
(with the text before the first and after the last occurrence at the two
ends).  Structural fuel. -/
def chunksGo (pat : List Char) : Nat → List Char → List (List Char)
  | 0, text => [text]
  | _, [] => [[]]
  | fuel + 1, c :: rest =>
    if pat.isPrefixOf (c :: rest) then
      [] :: chunksGo pat fuel (List.drop (pat.length - 1) rest)
    else
      match chunksGo pat fuel rest with
      | [] => [[c]]
      | l :: ls => (c :: l) :: ls

/-- The segments of `text` between occurrences of `pat`. -/
def chunks (pat text : List Char) : List (List Char) :=
  chunksGo pat text.length text

/-- Interleave segments with replacement blocks:
`s₀ ++ r₀ ++ s₁ ++ r₁ ++ ⋯`. -/
def interleave : List (List Char) → List (List Char) → List Char
  | [], _ => []
  | s :: _, [] => s
  | s :: ss, r :: rs => s ++ r ++ interleave ss rs

theorem chunksGo_fuel (pat : List Char) :
    ∀ f1 : Nat, ∀ f2 : Nat, ∀ text : List Char, text.length ≤ f1 →
      text.length ≤ f2 → chunksGo pat f1 text = chunksGo pat f2 text := by
  intro f1
  induction f1 with
  | zero =>
    intro f2 text h1 _
    have : text = [] := List.eq_nil_of_length_eq_zero (Nat.le_zero.mp h1)
    subst this
    cases f2 <;> rfl
  | succ f ih =>
    intro f2 text h1 h2
    cases text with
    | nil => cases f2 <;> rfl
    | cons c rest =>
      cases f2 with
      | zero => simp at h2
      | succ f2p =>
        simp only [chunksGo]
        have hr : rest.length ≤ f := by simp at h1; exact h1
        have hr2 : rest.length ≤ f2p := by simp at h2; exact h2
        have hd : (List.drop (pat.length - 1) rest).length ≤ rest.length := by
          rw [List.length_drop]; omega
        by_cases hp : pat.isPrefixOf (c :: rest) = true
        · simp only [hp, if_true]
          rw [ih f2p _ (le_trans hd hr) (le_trans hd hr2)]
        · simp only [Bool.not_eq_true] at hp
          simp only [hp, Bool.false_eq_true, if_false]
          rw [ih f2p rest hr hr2]

theorem chunks_nil (pat : List Char) : chunks pat [] = [[]] := rfl

theorem chunks_cons_pos (pat : List Char) (c : Char) (rest : List Char)
    (h : pat.isPrefixOf (c :: rest) = true) :
    chunks pat (c :: rest) = [] :: chunks pat (List.drop (pat.length - 1) rest) := by
  unfold chunks
  simp only [List.length_cons, chunksGo, h, if_true]
  rw [chunksGo_fuel pat rest.length (List.drop (pat.length - 1) rest).length _
    (by rw [List.length_drop]; omega) le_rfl]

theorem chunks_cons_neg (pat : List Char) (c : Char) (rest : List Char)
    (h : pat.isPrefixOf (c :: rest) = false) :
    chunks pat (c :: rest) =
      match chunks pat rest with
      | [] => [[c]]
      | l :: ls => (c :: l) :: ls := by
  unfold chunks
  simp only [List.length_cons, chunksGo, h, Bool.false_eq_true, if_false]

theorem chunks_ne_nil (pat : List Char) : ∀ text : List Char, chunks pat text ≠ [] := by
  suffices h : ∀ f : Nat, ∀ text : List Char, chunksGo pat f text ≠ [] by
    intro text
    exact h text.length text
  intro f
  induction f with
  | zero => intro text; simp [chunksGo]
  | succ f ih =>
    intro text
    cases text with
    | nil => simp [chunksGo]
    | cons c rest =>
      simp only [chunksGo]
      by_cases hp : pat.isPrefixOf (c :: rest) = true
      · simp [hp]
      · simp only [Bool.eq_false_iff.mpr hp, Bool.false_eq_true, if_false]
        cases hcg : chunksGo pat f rest with
        | nil => simp
        | cons l ls => simp

/-- Full structural description of a substitution run: the output is the
input's inter-occurrence segments interleaved with the replacement blocks
`rep k, rep (k+1), …` in text order — the counter values are consumed in
top-to-bottom match order. -/
theorem reSub_interleave (pat : List Char) (rep : Nat → List Char) :
    ∀ text : List Char, ∀ k : Nat,
      (reSub pat rep text k).1 =
        interleave (chunks pat text)
          ((List.range' k (scanCount pat text)).map rep) := by
  suffices h : ∀ n : Nat, ∀ text : List Char, text.length = n → ∀ k : Nat,
      (reSub pat rep text k).1 =
        interleave (chunks pat text)
          ((List.range' k (scanCount pat text)).map rep) by
    intro text
    exact h text.length text rfl
  intro n
  induction n using Nat.strong_induction_on with
  | _ n ih =>
    intro text hlen k
    cases text with
    | nil => simp [reSub_nil, chunks_nil, scanCount_nil, interleave]
    | cons c rest =>
      by_cases hp : pat.isPrefixOf (c :: rest) = true
      · rw [reSub_cons_pos pat rep c rest k hp, scanCount_cons_pos pat c rest hp,
          chunks_cons_pos pat c rest hp]
        simp only
        have hlt : (List.drop (pat.length - 1) rest).length < n := by
          subst hlen
          have := length_drop_le_self (pat.length - 1) rest
          simp only [List.length_cons]
          omega
        rw [ih _ hlt _ rfl (k + 1)]
        rw [Nat.add_comm 1 (scanCount pat (List.drop (pat.length - 1) rest)),
          List.range'_succ]
        simp [interleave]
      · have hneg : pat.isPrefixOf (c :: rest) = false := Bool.eq_false_iff.mpr hp
        rw [reSub_cons_neg pat rep c rest k hneg, scanCount_cons_neg pat c rest hneg,
          chunks_cons_neg pat c rest hneg]
        simp only
        have hlt : rest.length < n := by subst hlen; simp
        rw [ih _ hlt rest rfl k]
        cases hcg : chunks pat rest with
        | nil => exact absurd hcg (chunks_ne_nil pat rest)
        | cons l ls =>
          simp only [hcg]
          cases hr : (List.range' k (scanCount pat rest)).map rep with
          | nil => simp [interleave]
          | cons r rs => simp [interleave]

/-! ### File enumeration, whole-run threading, and the date check -/

/-- Total lexicographic order on path strings by code point.  (Python
sorts `pathlib.Path` objects, which compare componentwise; the claims only
use that the traversal follows a fixed total order on paths, so the
concrete total order is irrelevant to every statement proved here.) -/
def strLe : List Char → List Char → Bool
  | [], _ => true
  | _ :: _, [] => false
  | a :: as, b :: bs =>
    if a.toNat < b.toNat then true
    else if b.toNat < a.toNat then false
    else strLe as bs

/-- Stable insertion of `x` into `l`: `x` goes in front of the first
element `y` with `le x y`.  For a total preorder this is the unique
stable-sort insertion, so `pySorted` below computes exactly what Python's
stable `sorted` computes. -/
def sortInsert {α : Type} (le : α → α → Bool) (x : α) : List α → List α
  | [] => [x]
  | y :: ys => if le x y then x :: y :: ys else y :: sortInsert le x ys

/-- Python's `sorted` with comparison `le` (a stable sort; every stable
sort of the same total preorder computes the same list). -/
def pySorted {α : Type} (le : α → α → Bool) : List α → List α
  | [] => []
  | x :: xs => sortInsert le x (pySorted le xs)

theorem sortInsert_perm {α : Type} (le : α → α → Bool) (x : α) :
    ∀ l : List α, (sortInsert le x l).Perm (x :: l) := by
  intro l
  induction l with
  | nil => exact List.Perm.refl _
  | cons y ys ih =>
    by_cases hle : le x y = true
    · simp only [sortInsert, hle, if_true]
      exact List.Perm.refl _
    · simp only [sortInsert, Bool.eq_false_iff.mpr hle, Bool.false_eq_true, if_false]
      exact (List.Perm.cons y ih).trans (List.Perm.swap x y ys)

theorem pySorted_perm {α : Type} (le : α → α → Bool) :
    ∀ l : List α, (pySorted le l).Perm l := by
  intro l
  induction l with
  | nil => exact List.Perm.refl _
  | cons x xs ih =>
    exact (sortInsert_perm le x (pySorted le xs)).trans (List.Perm.cons x ih)

theorem sortInsert_pairwise {α : Type} (le : α → α → Bool)
    (htot : ∀ a b, (le a b || le b a) = true)
    (htrans : ∀ a b c, le a b = true → le b c = true → le a c = true)
    (x : α) :
    ∀ l : List α, List.Pairwise (fun a b => le a b = true) l →
      List.Pairwise (fun a b => le a b = true) (sortInsert le x l) := by
  intro l
  induction l with
  | nil => intro _; simp [sortInsert]
  | cons y ys ih =>
    intro h
    rcases List.pairwise_cons.mp h with ⟨hy, hys⟩
    by_cases hle : le x y = true
    · simp only [sortInsert, hle, if_true]
      refine List.pairwise_cons.mpr ⟨?_, h⟩
      intro z hz
      rcases List.mem_cons.mp hz with hz | hz
      · rw [hz]; exact hle
      · exact htrans x y z hle (hy z hz)
    · simp only [sortInsert, Bool.eq_false_iff.mpr hle, Bool.false_eq_true, if_false]
      refine List.pairwise_cons.mpr ⟨?_, ih hys⟩
      intro z hz
      have hz2 := (sortInsert_perm le x ys).mem_iff.mp hz
      rcases List.mem_cons.mp hz2 with hz2 | hz2
      · rw [hz2]
        rcases Bool.or_eq_true_iff.mp (htot x y) with h2 | h2
        · exact absurd h2 hle
        · exact h2
      · exact hy z hz2

theorem pySorted_pairwise {α : Type} (le : α → α → Bool)
    (htot : ∀ a b, (le a b || le b a) = true)
    (htrans : ∀ a b c, le a b = true → le b c = true → le a c = true) :
    ∀ l : List α, List.Pairwise (fun a b => le a b = true) (pySorted le l) := by
  intro l
  induction l with
  | nil => simp [pySorted]
  | cons x xs ih => exact sortInsert_pairwise le htot htrans x (pySorted le xs) ih

/-- `find_java_files`: enumerate the files under the roots and sort them
by path.  The file tree is modelled as a list of (path, content) pairs.
(Python sorts `pathlib.Path` objects; any total order gives a stable
sorted traversal, and no claim depends on which total order it is.) -/
def find_java_files (files : List (List Char × List Char)) :
    List (List Char × List Char) :=
  pySorted (fun f g => strLe f.1 g.1) files

/-- The Rewriter's per-file loop from `main`: thread the counter through
`process_file` over the given file list, collecting rewritten contents. -/
def run_files : List (List Char × List Char) → Nat → List Char →
    List (List Char × List Char) × Nat
  | [], k, _ => ([], k)
  | (p, c) :: fs, k, dp =>
    let r := process_file c k dp
    let rest := run_files fs r.2.1 dp
    ((p, r.1) :: rest.1, rest.2)

/-- The Rewriter's whole run over a file tree: sorted traversal, threading
the counter. -/
def rewriter_run (files : List (List Char × List Char)) (k : Nat)
    (dp : List Char) : List (List Char × List Char) × Nat :=
  run_files (find_java_files files) k dp

/-- `re.match(r'^\d{8}$', s)` as Python evaluates it: the anchor `$`
matches at the end of the string **or just before a newline at the end of
the string** (Python `re` documentation), so a ninth character is accepted
when it is a trailing `'\n'`.  (`\d` is modelled as an ASCII digit; the
inputs of interest are ASCII.) -/
def pyMatchD8 (s : List Char) : Bool :=
  (s.take 8).length == 8 && (s.take 8).all Char.isDigit &&
    (s.drop 8 == [] || s.drop 8 == ['\n'])

/-- The Rewriter's `main`, reduced to its decision structure: validate the
date before anything else; on failure return exit status 1 with the tree
untouched, otherwise run and return 0. -/
def rewriter_main (date : List Char) (files : List (List Char × List Char))
    (k : Nat) : Nat × List (List Char × List Char) :=
  if pyMatchD8 date then (0, (rewriter_run files k date).1)
  else (1, files)

/-- Counter advance and statistics of `process_file` in terms of the two
pattern counts of the *original* text (the bad-request count is unchanged
by the throw-conversion that precedes it). -/
theorem process_file_counter (dp : List Char)
    (hdp : ∀ c ∈ dp, c.isDigit = true) (content : List Char) (k : Nat) :
    (process_file content k dp).2.1 =
      k + scanCount throwPat content + scanCount badPat content ∧
    (process_file content k dp).2.2.illegal_arg = scanCount throwPat content ∧
    (process_file content k dp).2.2.bad_request = scanCount badPat content := by
  unfold process_file convert_illegal_argument_exception
    convert_biz_exception_bad_request
  simp only
  have h1 := reSub_counter throwPat (throwRepl dp) content k
  have h2 := reSub_counter badPat (badRepl dp)
    (reSub throwPat (throwRepl dp) content k).1
    (reSub throwPat (throwRepl dp) content k).2.1
  have h3 : scanCount badPat (reSub throwPat (throwRepl dp) content k).1 =
      scanCount badPat content :=
    badPat_count_after_throwSub dp hdp content k
  refine ⟨?_, h1.2, ?_⟩
  · rw [h2.1, h3, h1.1]
  · rw [h2.2, h3]

/-- Final counter of a threaded run: the sum of both counts over the files. -/
theorem run_files_counter (dp : List Char)
    (hdp : ∀ c ∈ dp, c.isDigit = true) :
    ∀ fs : List (List Char × List Char), ∀ k : Nat,
      (run_files fs k dp).2 =
        k + (fs.map fun f => scanCount throwPat f.2 + scanCount badPat f.2).sum := by
  intro fs
  induction fs with
  | nil => intro k; simp [run_files]
  | cons f fs ih =>
    intro k
    obtain ⟨p, c⟩ := f
    simp only [run_files, List.map_cons, List.sum_cons]
    rw [ih, (process_file_counter dp hdp c k).1]
    omega

/-- The whole sorted run advances the counter by the total count over the
tree (the sort permutes the files, which leaves the sum unchanged). -/
theorem rewriter_run_counter (dp : List Char)
    (hdp : ∀ c ∈ dp, c.isDigit = true)
    (files : List (List Char × List Char)) (k : Nat) :
    (rewriter_run files k dp).2 =
      k + (files.map fun f => scanCount throwPat f.2 + scanCount badPat f.2).sum := by
  unfold rewriter_run find_java_files
  rw [run_files_counter dp hdp]
  congr 1
  exact List.Perm.sum_eq
    (List.Perm.map _ (pySorted_perm (fun f g => strLe f.1 g.1) files))

/-! ### Newline decomposition and the import-insertion analysis -/

theorem isPrefixOf_append_left (pat a b : List Char)
    (h : pat.isPrefixOf a = true) : pat.isPrefixOf (a ++ b) = true := by
  induction pat generalizing a with
  | nil => exact isPrefixOf_nil_left _
  | cons x xs ih =>
    cases a with
    | nil => simp [List.isPrefixOf] at h
    | cons y a' =>
      rw [isPrefixOf_cons_cons] at h
      rcases Bool.and_eq_true_iff.mp h with ⟨hxy, hr⟩
      rw [List.cons_append, isPrefixOf_cons_cons, hxy, Bool.true_and]
      exact ih a' hr

theorem isPrefixOf_append_of_le (pat a b : List Char)
    (h : pat.length ≤ a.length) :
    pat.isPrefixOf (a ++ b) = pat.isPrefixOf a := by
  induction pat generalizing a with
  | nil => rw [isPrefixOf_nil_left, isPrefixOf_nil_left]
  | cons x xs ih =>
    cases a with
    | nil => simp at h
    | cons y a' =>
      rw [List.cons_append, isPrefixOf_cons_cons, isPrefixOf_cons_cons]
      rw [ih a' (by simpa using h)]

theorem length_le_of_isPrefixOf_append_nl (pat a r : List Char)
    (hnl : '\n' ∉ pat) (h : pat.isPrefixOf (a ++ '\n' :: r) = true) :
    pat.length ≤ a.length := by
  induction pat generalizing a with
  | nil => simp
  | cons x xs ih =>
    cases a with
    | nil =>
      rw [List.nil_append, isPrefixOf_cons_cons] at h
      rcases Bool.and_eq_true_iff.mp h with ⟨hx, _⟩
      have hx2 : x = '\n' := by simpa using hx
      have hmem : '\n' ∈ x :: xs := by rw [hx2]; exact List.mem_cons_self _ _
      exact absurd hmem hnl
    | cons y a' =>
      rw [List.cons_append, isPrefixOf_cons_cons] at h
      rcases Bool.and_eq_true_iff.mp h with ⟨_, hr⟩
      have := ih a' (fun hm => hnl (List.mem_cons_of_mem x hm)) hr
      simpa using this

/-- Scanning for a newline-free pattern distributes over a newline. -/
theorem scanCount_append_nl (pat : List Char) (hne : pat ≠ [])
    (hnl : '\n' ∉ pat) :
    ∀ a r : List Char,
      scanCount pat (a ++ '\n' :: r) = scanCount pat a + scanCount pat r := by
  obtain ⟨p, ps, hps⟩ : ∃ p ps, pat = p :: ps := by
    cases pat with
    | nil => exact absurd rfl hne
    | cons p ps => exact ⟨p, ps, rfl⟩
  subst hps
  suffices h : ∀ n : Nat, ∀ a : List Char, a.length = n → ∀ r : List Char,
      scanCount (p :: ps) (a ++ '\n' :: r) =
        scanCount (p :: ps) a + scanCount (p :: ps) r by
    intro a
    exact h a.length a rfl
  intro n
  induction n using Nat.strong_induction_on with
  | _ n ih =>
    intro a hlen r
    cases a with
    | nil =>
      have hp : (p :: ps).isPrefixOf ('\n' :: r) = false := by
        rw [isPrefixOf_cons_cons]
        have hpn : p ≠ '\n' := fun hc => hnl (hc ▸ List.mem_cons_self p ps)
        simp [hpn]
      rw [List.nil_append, scanCount_cons_neg _ '\n' r hp, scanCount_nil]
      omega
    | cons c a' =>
      by_cases hp : (p :: ps).isPrefixOf (c :: a') = true
      · have hlong : (p :: ps).isPrefixOf ((c :: a') ++ '\n' :: r) = true :=
          isPrefixOf_append_left _ _ _ hp
        have hle : (p :: ps).length ≤ (c :: a').length :=
          length_le_of_isPrefixOf_append_nl _ _ r hnl hlong
        rw [List.cons_append] at hlong
        rw [List.cons_append, scanCount_cons_pos _ c (a' ++ '\n' :: r) hlong,
          scanCount_cons_pos _ c a' hp]
        have hlen2 : (p :: ps).length - 1 ≤ a'.length := by
          simp only [List.length_cons] at hle ⊢
          omega
        rw [List.drop_append_of_le_length hlen2]
        have hlt : (List.drop ((p :: ps).length - 1) a').length < n := by
          subst hlen
          have h5 := length_drop_le_self ((p :: ps).length - 1) a'
          simp only [List.length_cons] at h5 ⊢
          omega
        rw [ih _ hlt _ rfl r]
        omega
      · have hneg : (p :: ps).isPrefixOf (c :: a') = false := Bool.eq_false_iff.mpr hp
        have hneg2 : (p :: ps).isPrefixOf (c :: (a' ++ '\n' :: r)) = false := by
          by_contra hcontra
          rw [Bool.not_eq_false] at hcontra
          have hle : (p :: ps).length ≤ (c :: a').length :=
            length_le_of_isPrefixOf_append_nl _ (c :: a') r hnl
              (by rw [List.cons_append]; exact hcontra)
          rw [show c :: (a' ++ '\n' :: r) = (c :: a') ++ '\n' :: r from rfl,
            isPrefixOf_append_of_le _ _ _ hle] at hcontra
          rw [hcontra] at hneg
          simp at hneg
        rw [List.cons_append, scanCount_cons_neg _ c _ hneg2,
          scanCount_cons_neg _ c a' hneg]
        have hlt : a'.length < n := by subst hlen; simp
        exact ih _ hlt a' rfl r

/-- Scanning a newline-free pattern over a joined line list sums the
per-line counts. -/
theorem scanCount_joinNl (pat : List Char) (hne : pat ≠ [])
    (hnl : '\n' ∉ pat) :
    ∀ ls : List (List Char),
      scanCount pat (joinNl ls) = (ls.map (scanCount pat)).sum := by
  intro ls
  induction ls with
  | nil => simp [joinNl, scanCount_nil]
  | cons l ls ih =>
    cases ls with
    | nil => simp [joinNl]
    | cons l2 ls2 =>
      rw [show joinNl (l :: l2 :: ls2) = l ++ '\n' :: joinNl (l2 :: ls2) from rfl]
      rw [scanCount_append_nl pat hne hnl l _, ih]
      simp

theorem joinNl_splitNl : ∀ c : List Char, joinNl (splitNl c) = c := by
  intro c
  induction c with
  | nil => rfl
  | cons x rest ih =>
    by_cases hx : x = '\n'
    · subst hx
      rw [show splitNl ('\n' :: rest) = [] :: splitNl rest from by
        simp [splitNl]]
      cases hs : splitNl rest with
      | nil =>
        exfalso
        rw [hs] at ih
        simp [joinNl] at ih
        subst ih
        simp [splitNl] at hs
      | cons l ls =>
        rw [← hs]
        rw [show joinNl ([] :: splitNl rest) =
          [] ++ '\n' :: joinNl (splitNl rest) from by rw [hs]; rfl]
        rw [ih]
        rfl
    · rw [show splitNl (x :: rest) =
        (match splitNl rest with
          | [] => [[x]]
          | l :: ls => (x :: l) :: ls) from by simp [splitNl, hx]]
      cases hs : splitNl rest with
      | nil =>
        exfalso
        rw [hs] at ih
        simp [joinNl] at ih
        subst ih
        simp [splitNl] at hs
      | cons l ls =>
        rw [hs] at ih
        cases ls with
        | nil =>
          simp only [joinNl] at ih ⊢
          rw [← ih]
        | cons l2 ls2 =>
          simp only [joinNl] at ih ⊢
          rw [List.cons_append, ih]

theorem splitNl_ne_nil : ∀ c : List Char, splitNl c ≠ [] := by
  intro c
  cases c with
  | nil => simp [splitNl]
  | cons x rest =>
    by_cases hx : x = '\n'
    · subst hx; simp [splitNl]
    · simp only [splitNl, hx, if_false]
      cases splitNl rest <;> simp

theorem lastIdxWith_isSome_iff (p : List Char → Bool) :
    ∀ ls : List (List Char), (lastIdxWith p ls).isSome = ls.any p := by
  intro ls
  induction ls with
  | nil => rfl
  | cons l ls ih =>
    simp only [lastIdxWith, List.any_cons]
    cases hl : lastIdxWith p ls with
    | some i =>
      rw [hl] at ih
      simp only [Option.isSome_some] at ih
      simp [← ih]
    | none =>
      rw [hl] at ih
      simp only [Option.isSome_none] at ih
      by_cases hp : p l = true
      · simp [hp]
      · simp [Bool.eq_false_iff.mpr hp, ← ih]

theorem firstIdxWith_isSome_iff (p : List Char → Bool) :
    ∀ ls : List (List Char), (firstIdxWith p ls).isSome = ls.any p := by
  intro ls
  induction ls with
  | nil => rfl
  | cons l ls ih =>
    simp only [firstIdxWith, List.any_cons]
    by_cases hp : p l = true
    · simp [hp]
    · simp only [Bool.eq_false_iff.mpr hp, if_false, Bool.false_or]
      rw [← ih]
      cases firstIdxWith p ls <;> simp

/-- The file offers an insertion anchor: an existing `import ` line or a
`package ` line. -/
def hasAnchor (c : List Char) : Bool :=
  (splitNl c).any (fun l => "import ".toList.isPrefixOf l) ||
    (splitNl c).any (fun l => "package ".toList.isPrefixOf l)

/-- `add_import_if_needed` reports an addition exactly when the import was
absent and an anchor exists. -/
theorem add_import_added_iff (c : List Char) :
    (add_import_if_needed c).2 = true ↔
      (has_biz_exception_import c = false ∧ hasAnchor c = true) := by
  by_cases hb : has_biz_exception_import c = true
  · unfold add_import_if_needed
    rw [hb]
    simp [hb]
  · have hb2 : has_biz_exception_import c = false := Bool.eq_false_iff.mpr hb
    have himp := lastIdxWith_isSome_iff (fun l => "import ".toList.isPrefixOf l) (splitNl c)
    have hpkg := firstIdxWith_isSome_iff (fun l => "package ".toList.isPrefixOf l) (splitNl c)
    unfold add_import_if_needed
    rw [hb2]
    simp only [Bool.false_eq_true, if_false]
    unfold hasAnchor
    cases hli : lastIdxWith (fun l => "import ".toList.isPrefixOf l) (splitNl c) with
    | some i =>
      rw [hli] at himp
      simp only [Option.isSome_some] at himp
      constructor
      · intro _
        refine ⟨by simp, ?_⟩
        rw [← himp]
        simp
      · intro _
        rfl
    | none =>
      rw [hli] at himp
      simp only [Option.isSome_none] at himp
      cases hfi : firstIdxWith (fun l => "package ".toList.isPrefixOf l) (splitNl c) with
      | some i =>
        rw [hfi] at hpkg
        simp only [Option.isSome_some] at hpkg
        constructor
        · intro _
          refine ⟨by simp, ?_⟩
          rw [← hpkg]
          simp
        · intro _
          rfl
      | none =>
        rw [hfi] at hpkg
        simp only [Option.isSome_none] at hpkg
        constructor
        · intro hcon
          simp at hcon
        · rintro ⟨_, hanchor⟩
          rw [← himp, ← hpkg] at hanchor
          simp at hanchor

theorem scanCount_eq_zero_of_not_contains (pat : List Char) :
    ∀ text : List Char, containsSub pat text = false → scanCount pat text = 0 := by
  intro text
  induction text with
  | nil => intro _; rfl
  | cons c rest ih =>
    intro h
    unfold containsSub at h
    rw [List.tails_cons, List.any_cons] at h
    rcases Bool.or_eq_false_iff.mp h with ⟨h1, h2⟩
    rw [scanCount_cons_neg pat c rest h1]
    exact ih h2

theorem scanCount_self_one (p : Char) (ps : List Char) :
    scanCount (p :: ps) (p :: ps) = 1 := by
  have := scanCount_append_self p ps []
  rw [List.append_nil] at this
  rw [this, scanCount_nil]

theorem sum_map_pyInsertAt (f : List Char → Nat) (i : Nat) (x : List Char)
    (ls : List (List Char)) :
    ((pyInsertAt i x ls).map f).sum = f x + (ls.map f).sum := by
  unfold pyInsertAt
  rw [List.map_append, List.sum_append, List.map_cons, List.sum_cons]
  have h2 : ((List.take i ls).map f).sum + ((List.drop i ls).map f).sum =
      (ls.map f).sum := by
    rw [← List.sum_append, ← List.map_append, List.take_append_drop]
  omega

/-- Whenever `add_import_if_needed` adds the import line, the result
contains exactly one occurrence of it. -/
theorem add_import_count_one (c : List Char)
    (h : (add_import_if_needed c).2 = true) :
    scanCount importLine (add_import_if_needed c).1 = 1 := by
  have hiff := add_import_added_iff c
  rcases hiff.mp h with ⟨hb, _⟩
  have himpne : importLine ≠ [] := by decide
  have himpnl : '\n' ∉ importLine := by decide
  have hsum : ((splitNl c).map (scanCount importLine)).sum = 0 := by
    have hj := scanCount_joinNl importLine himpne himpnl (splitNl c)
    rw [joinNl_splitNl] at hj
    have hzero : scanCount importLine c = 0 :=
      scanCount_eq_zero_of_not_contains importLine c
        (by unfold has_biz_exception_import at hb; exact hb)
    omega
  have hself : scanCount importLine importLine = 1 := by
    have hdec : importLine =
        'i' :: "mport com.alliance.casino.common.exception.BizException;".toList := rfl
    rw [hdec, scanCount_self_one]
  have hcount : ∀ i : Nat,
      scanCount importLine (joinNl (pyInsertAt i importLine (splitNl c))) = 1 := by
    intro i
    rw [scanCount_joinNl importLine himpne himpnl,
      sum_map_pyInsertAt (scanCount importLine) i importLine (splitNl c), hself, hsum]
  unfold add_import_if_needed at h ⊢
  rw [hb] at h ⊢
  simp only [Bool.false_eq_true, if_false] at h ⊢
  cases hli : lastIdxWith (fun l => "import ".toList.isPrefixOf l) (splitNl c) with
  | some i =>
    exact hcount (i + 1)
  | none =>
    cases hfi : firstIdxWith (fun l => "package ".toList.isPrefixOf l) (splitNl c) with
    | some i =>
      exact hcount _
    | none =>
      rw [hli, hfi] at h
      simp at h

/-! ## Claim theorems for the Rewriter -/

/-- Claim C4: for every file containing `N` matches of the throw-style
pattern and `M` matches of the bad-request pattern, processing the file
consumes exactly `N + M` consecutive counter values — the throw-style
matches receive `k, …, k+N-1` in top-to-bottom text order and the
bad-request matches receive `k+N, …, k+N+M-1` in top-to-bottom text order
— the reported statistics are `N` and `M`, the returned counter is
`k + N + M`, and a whole run over a tree (processed in sorted path order)
advances the counter by the total of `N + M` over all files. -/
theorem claim_C4 (dp content : List Char) (k : Nat)
    (files : List (List Char × List Char))
    (hdp : ∀ c ∈ dp, c.isDigit = true) :
    (process_file content k dp).2.1 =
      k + scanCount throwPat content + scanCount badPat content ∧
    (process_file content k dp).2.2.illegal_arg = scanCount throwPat content ∧
    (process_file content k dp).2.2.bad_request = scanCount badPat content ∧
    (convert_illegal_argument_exception content k dp).1 =
      interleave (chunks throwPat content)
        ((List.range' k (scanCount throwPat content)).map (throwRepl dp)) ∧
    (convert_biz_exception_bad_request
        (convert_illegal_argument_exception content k dp).1
        (k + scanCount throwPat content) dp).1 =
      interleave (chunks badPat (convert_illegal_argument_exception content k dp).1)
        ((List.range' (k + scanCount throwPat content)
          (scanCount badPat content)).map (badRepl dp)) ∧
    (rewriter_run files k dp).2 =
      k + (files.map fun f => scanCount throwPat f.2 + scanCount badPat f.2).sum := by
  obtain ⟨h1, h2, h3⟩ := process_file_counter dp hdp content k
  refine ⟨h1, h2, h3, ?_, ?_, rewriter_run_counter dp hdp files k⟩
  · exact reSub_interleave throwPat (throwRepl dp) content k
  · have := reSub_interleave badPat (badRepl dp)
      (convert_illegal_argument_exception content k dp).1
      (k + scanCount throwPat content)
    rw [badPat_count_after_throwSub dp hdp content k] at this
    exact this

/-- Instantiation of `claim_C4` on the spec's worked example. -/
theorem claim_C4_witness :
    (∀ c ∈ "20251218".toList, c.isDigit = true) ∧
    (process_file
        ("throw new IllegalArgumentException(\"bad\");\nBizException.badRequest(\"nope\")").toList
        1 "20251218".toList).2.1 =
      1 + scanCount throwPat
        ("throw new IllegalArgumentException(\"bad\");\nBizException.badRequest(\"nope\")").toList
        + scanCount badPat
        ("throw new IllegalArgumentException(\"bad\");\nBizException.badRequest(\"nope\")").toList :=
  ⟨by decide,
    (claim_C4 "20251218".toList
      ("throw new IllegalArgumentException(\"bad\");\nBizException.badRequest(\"nope\")").toList
      1 [] (by decide)).1⟩

/-- Claim C5: applying the throw-conversion and the bad-request
conversion a second time to the output of a first application performs
zero substitutions, returns the text unchanged, and leaves the counter
unchanged — the originating patterns no longer match at all. -/
theorem claim_C5 (dp content : List Char) (k1 k2 k3 k4 : Nat)
    (hdp : ∀ c ∈ dp, c.isDigit = true) :
    scanCount throwPat
      (convert_biz_exception_bad_request
        (convert_illegal_argument_exception content k1 dp).1 k2 dp).1 = 0 ∧
    scanCount badPat
      (convert_biz_exception_bad_request
        (convert_illegal_argument_exception content k1 dp).1 k2 dp).1 = 0 ∧
    convert_illegal_argument_exception
      (convert_biz_exception_bad_request
        (convert_illegal_argument_exception content k1 dp).1 k2 dp).1 k3 dp =
      ((convert_biz_exception_bad_request
        (convert_illegal_argument_exception content k1 dp).1 k2 dp).1, k3, 0) ∧
    convert_biz_exception_bad_request
      (convert_biz_exception_bad_request
        (convert_illegal_argument_exception content k1 dp).1 k2 dp).1 k4 dp =
      ((convert_biz_exception_bad_request
        (convert_illegal_argument_exception content k1 dp).1 k2 dp).1, k4, 0) := by
  have hthrow1 : scanCount throwPat
      (convert_illegal_argument_exception content k1 dp).1 = 0 :=
    throwPat_zero_after_throwSub dp hdp content k1
  have hthrow2 : scanCount throwPat
      (convert_biz_exception_bad_request
        (convert_illegal_argument_exception content k1 dp).1 k2 dp).1 = 0 := by
    rw [throwPat_count_after_badSub dp hdp _ k2]
    exact hthrow1
  have hbad2 : scanCount badPat
      (convert_biz_exception_bad_request
        (convert_illegal_argument_exception content k1 dp).1 k2 dp).1 = 0 :=
    badPat_zero_after_badSub dp hdp _ k2
  exact ⟨hthrow2, hbad2,
    reSub_of_scanCount_zero throwPat (throwRepl dp) _ k3 hthrow2,
    reSub_of_scanCount_zero badPat (badRepl dp) _ k4 hbad2⟩

/-- Instantiation of `claim_C5` on a concrete converted file. -/
theorem claim_C5_witness :
    (∀ c ∈ "20251218".toList, c.isDigit = true) ∧
    scanCount throwPat
      (convert_biz_exception_bad_request
        (convert_illegal_argument_exception
          ("throw new IllegalArgumentException(x); BizException.badRequest(y)").toList
          1 "20251218".toList).1 7 "20251218".toList).1 = 0 :=
  ⟨by decide,
    (claim_C5 "20251218".toList
      ("throw new IllegalArgumentException(x); BizException.badRequest(y)").toList
      1 7 9 11 (by decide)).1⟩

/-- The text to which the import step applies: the file content after the
throw-conversion, the bad-request conversion, and the doc-tag update. -/
def import_step_input (content : List Char) (k : Nat) (dp : List Char) :
    List Char :=
  (update_javadoc_throws
    (convert_biz_exception_bad_request
      (convert_illegal_argument_exception content k dp).1
      (convert_illegal_argument_exception content k dp).2.1 dp).1).1

/-- Claim C6 counterexample: a file consisting of a single throw-style
statement, with no import and no package line.  A substitution occurs and
the import line is absent (both before and after processing), yet
no import is added — there is no insertion point — so the claimed
"if and only if" fails in the only-if-absent direction. -/
theorem claim_C6_counterexample :
    (process_file ("throw new IllegalArgumentException(x);").toList 1
      "20251218".toList).2.2.illegal_arg = 1 ∧
    has_biz_exception_import ("throw new IllegalArgumentException(x);").toList = false ∧
    has_biz_exception_import (process_file
      ("throw new IllegalArgumentException(x);").toList 1 "20251218".toList).1 = false ∧
    (process_file ("throw new IllegalArgumentException(x);").toList 1
      "20251218".toList).2.2.import_added = false := by decide

/-- Claim C6 (amended): the import line is added if and only if at least
one throw-style or bad-request substitution occurred and, in the text
the import step receives, the import line is not already present and an
insertion anchor (an existing `import ` line or a `package ` line) exists;
moreover, whenever the import is added the resulting file contains exactly
one occurrence of the import line, so re-running can never produce a
second copy. -/
theorem claim_C6_amended (content : List Char) (k : Nat) (dp : List Char) :
    ((process_file content k dp).2.2.import_added = true ↔
      ((0 < (process_file content k dp).2.2.illegal_arg ∨
        0 < (process_file content k dp).2.2.bad_request) ∧
       has_biz_exception_import (import_step_input content k dp) = false ∧
       hasAnchor (import_step_input content k dp) = true)) ∧
    ((process_file content k dp).2.2.import_added = true →
      scanCount importLine (process_file content k dp).1 = 1) := by
  unfold process_file import_step_input
  by_cases hc : 0 < (convert_illegal_argument_exception content k dp).2.2 ∨
      0 < (convert_biz_exception_bad_request
        (convert_illegal_argument_exception content k dp).1
        (convert_illegal_argument_exception content k dp).2.1 dp).2.2
  · simp only [hc, if_true, true_and]
    constructor
    · exact add_import_added_iff _
    · exact fun h => add_import_count_one _ h
  · simp only [hc, if_false]
    constructor
    · simp [hc]
    · intro h
      simp at h

/-- Instantiation of `claim_C6_amended`: a file with a package line gets
the import added, and the output contains exactly one copy of it. -/
theorem claim_C6_witness :
    (process_file ("package a.b;\n\nthrow new IllegalArgumentException(y);").toList
      1 "20251218".toList).2.2.import_added = true ∧
    scanCount importLine (process_file
      ("package a.b;\n\nthrow new IllegalArgumentException(y);").toList
      1 "20251218".toList).1 = 1 :=
  ⟨by decide,
    (claim_C6_amended ("package a.b;\n\nthrow new IllegalArgumentException(y);").toList
      1 "20251218".toList).2 (by decide)⟩

/-- Claim C8 counterexample: occurrences of the two calls written with a
different whitespace convention (a doubled space inside the throw phrase;
a space before the parenthesis of `badRequest`) are **not** replaced —
both conversions leave the text unchanged and perform zero substitutions,
refuting "regardless of the whitespace convention … the Rewriter replaces
it". -/
theorem claim_C8_counterexample :
    convert_illegal_argument_exception
      ("throw  new IllegalArgumentException(x);").toList 1 "20251218".toList =
      (("throw  new IllegalArgumentException(x);").toList, 1, 0) ∧
    convert_biz_exception_bad_request
      ("BizException.badRequest (x)").toList 1 "20251218".toList =
      (("BizException.badRequest (x)").toList, 1, 0) := by decide

/-- Claim C8 (amended): the Rewriter replaces exactly the occurrences of
the literal opening tokens `throw new IllegalArgumentException(` and
`BizException.badRequest(` (written with precisely this spacing); each
throw-style occurrence becomes exactly
`throw BizException.failed(` ++ code ++ `,` and each bad-request
occurrence becomes exactly `BizException.failed(` ++ code ++ `,` followed
by a single space, and no occurrence of either originating token remains
afterwards. -/
theorem claim_C8_amended (dp content : List Char) (k : Nat)
    (hdp : ∀ c ∈ dp, c.isDigit = true) :
    (convert_illegal_argument_exception content k dp).1 =
      interleave (chunks throwPat content)
        ((List.range' k (scanCount throwPat content)).map fun i =>
          "throw BizException.failed(".toList ++ (dp ++ pad5 i ++ ['L']) ++ [',']) ∧
    scanCount throwPat (convert_illegal_argument_exception content k dp).1 = 0 ∧
    (convert_biz_exception_bad_request content k dp).1 =
      interleave (chunks badPat content)
        ((List.range' k (scanCount badPat content)).map fun i =>
          "BizException.failed(".toList ++ (dp ++ pad5 i ++ ['L']) ++ [',', ' ']) ∧
    scanCount badPat (convert_biz_exception_bad_request content k dp).1 = 0 := by
  refine ⟨?_, throwPat_zero_after_throwSub dp hdp content k, ?_,
    badPat_zero_after_badSub dp hdp content k⟩
  · exact reSub_interleave throwPat (throwRepl dp) content k
  · exact reSub_interleave badPat (badRepl dp) content k

/-- Instantiation of `claim_C8_amended` on a concrete file. -/
theorem claim_C8_witness :
    (∀ c ∈ "20251218".toList, c.isDigit = true) ∧
    scanCount throwPat (convert_illegal_argument_exception
      ("a; throw new IllegalArgumentException(x); b").toList 3
      "20251218".toList).1 = 0 :=
  ⟨by decide,
    (claim_C8_amended "20251218".toList
      ("a; throw new IllegalArgumentException(x); b").toList 3 (by decide)).2.1⟩

/-- Claim C9 (code-bug evidence): Python's `$` anchor also matches just
before a trailing newline, so `re.match(r'^\d{8}$', '12345678\n')`
succeeds.  The Rewriter therefore accepts the nine-character date
`"12345678\n"`, which is not eight decimal digits, and finishes with exit
status 0 instead of rejecting it with status 1; a genuinely malformed
date (`"2025-12-18"`) is rejected with status 1 and the tree untouched,
as the claim describes. -/
theorem claim_C9_bug :
    pyMatchD8 ("12345678\n").toList = true ∧
    ¬(("12345678\n").toList.length = 8 ∧
      ∀ c ∈ ("12345678\n").toList, c.isDigit = true) ∧
    rewriter_main ("12345678\n").toList [] 1 = (0, []) ∧
    rewriter_main ("2025-12-18").toList [(("A.java").toList, ("x").toList)] 1 =
      (1, [(("A.java").toList, ("x").toList)]) := by decide

/-! ## The Resolver: `fix_duplicate_biz_exception_codes.py` -/

/-- `ErrorCodeLocation` from the Resolver. -/
structure ErrorCodeLocation where
  file_path : List Char
  line_num : Nat
  line_content : List Char
  constant_name : Option (List Char)
  is_constant_def : Bool
  deriving Repr, DecidableEq

/-- Python's `\w` (ASCII part): letters, digits, underscore. -/
def wordChar (c : Char) : Bool := c.isAlpha || c.isDigit || c == '_'

/-- `str.strip()`: remove leading and trailing whitespace. -/
def pyStrip (l : List Char) : List Char :=
  ((l.dropWhile isPyWS).reverse.dropWhile isPyWS).reverse

/-- Consume an exact literal. -/
def expectLit (lit s : List Char) : Option (List Char) :=
  if lit.isPrefixOf s then some (List.drop lit.length s) else none

/-- Consume `\s+` (at least one whitespace character, maximal munch;
exact because every continuation in the Resolver's patterns starts with a
non-whitespace character). -/
def expectWS1 (s : List Char) : Option (List Char) :=
  if (List.takeWhile isPyWS s).isEmpty then none
  else some (List.dropWhile isPyWS s)

/-- Try to match
`private\s+static\s+final\s+long\s+(ERROR_\w+)\s*=\s*(\d+)L?\s*;`
at the start of `s`.  On success, return (constant name, code, rest after
the match).  The pattern is deterministic: maximal munch needs no
backtracking because `\w`, `\s`, digits and the literal characters that
follow each repetition are pairwise disjoint. -/
def parseConstAt (s : List Char) : Option (List Char × List Char × List Char) :=
  match expectLit "private".toList s with
  | none => none
  | some s1 =>
    match expectWS1 s1 with
    | none => none
    | some s2 =>
      match expectLit "static".toList s2 with
      | none => none
      | some s3 =>
        match expectWS1 s3 with
        | none => none
        | some s4 =>
          match expectLit "final".toList s4 with
          | none => none
          | some s5 =>
            match expectWS1 s5 with
            | none => none
            | some s6 =>
              match expectLit "long".toList s6 with
              | none => none
              | some s7 =>
                match expectWS1 s7 with
                | none => none
                | some s8 =>
                  match expectLit "ERROR_".toList s8 with
                  | none => none
                  | some s9 =>
                    let nm := List.takeWhile wordChar s9
                    if nm.isEmpty then none
                    else
                      let s10 := List.dropWhile wordChar s9
                      let s11 := List.dropWhile isPyWS s10
                      match expectLit "=".toList s11 with
                      | none => none
                      | some s12 =>
                        let s13 := List.dropWhile isPyWS s12
                        let ds := List.takeWhile Char.isDigit s13
                        if ds.isEmpty then none
                        else
                          let s14 := List.dropWhile Char.isDigit s13
                          let s15 := match s14 with
                            | 'L' :: r => r
                            | _ => s14
                          let s16 := List.dropWhile isPyWS s15
                          match expectLit ";".toList s16 with
                          | none => none
                          | some s17 =>
                            some ("ERROR_".toList ++ nm, ds, s17)

/-- Try to match `BizException\.failed\s*\(\s*(\d+)L?\s*,` at the start of
`s`; on success return (code, rest after the match). -/
def parseInlineAt (s : List Char) : Option (List Char × List Char) :=
  match expectLit "BizException.failed".toList s with
  | none => none
  | some s1 =>
    let s2 := List.dropWhile isPyWS s1
    match expectLit "(".toList s2 with
    | none => none
    | some s3 =>
      let s4 := List.dropWhile isPyWS s3
      let ds := List.takeWhile Char.isDigit s4
      if ds.isEmpty then none
      else
        let s5 := List.dropWhile Char.isDigit s4
        let s6 := if s5.head? = some 'L' then s5.tail else s5
        let s7 := List.dropWhile isPyWS s6
        match expectLit ",".toList s7 with
        | none => none
        | some s8 => some (ds, s8)

/-- Does `BizException\.failed\s*\(\s*ERROR_` match at the start of `s`? -/
def parseRefAt (s : List Char) : Bool :=
  match expectLit "BizException.failed".toList s with
  | none => false
  | some s1 =>
    let s2 := List.dropWhile isPyWS s1
    match expectLit "(".toList s2 with
    | none => false
    | some s3 =>
      let s4 := List.dropWhile isPyWS s3
      "ERROR_".toList.isPrefixOf s4

/-- `re.search(r'BizException\.failed\s*\(\s*ERROR_', line)`. -/
def hasFailedErrorRef (line : List Char) : Bool :=
  line.tails.any parseRefAt

/-- `re.findall` with the constant-definition pattern: non-overlapping
matches left to right, continuing after each match's end. -/
def findConstGo : Nat → List Char → List (List Char × List Char)
  | 0, _ => []
  | _, [] => []
  | fuel + 1, c :: rest =>
    match parseConstAt (c :: rest) with
    | some (nm, code, r) => (nm, code) :: findConstGo fuel r
    | none => findConstGo fuel rest

/-- All constant-pattern matches of a line. -/
def findConst (line : List Char) : List (List Char × List Char) :=
  findConstGo line.length line

/-- `re.findall` with the inline-call pattern. -/
def findInlineGo : Nat → List Char → List (List Char)
  | 0, _ => []
  | _, [] => []
  | fuel + 1, c :: rest =>
    match parseInlineAt (c :: rest) with
    | some (code, r) => code :: findInlineGo fuel r
    | none => findInlineGo fuel rest

/-- All inline-pattern matches of a line. -/
def findInline (line : List Char) : List (List Char) :=
  findInlineGo line.length line

/-- The occurrences one scanned line contributes to the Code Index, in the
order the Python loops append them: constant definitions first, then —
only when the line contains a `BizException.failed(` call and does not
reference an `ERROR_` constant as its argument — the inline literal
matches. -/
def lineOccurrences (fp : List Char) (n : Nat) (line : List Char) :
    List (List Char × ErrorCodeLocation) :=
  ((findConst line).map fun m =>
    (m.2, ⟨fp, n, pyStrip line, some m.1, true⟩)) ++
  (if containsSub "BizException.failed(".toList line then
    (if hasFailedErrorRef line then []
     else (findInline line).map fun code => (code, ⟨fp, n, pyStrip line, none, false⟩))
   else [])

/-- Pairs `(n, x)` for the elements of a list, numbering from `n0`
(Python's `enumerate(lines, 1)`). -/
def enumFrom {α : Type} : Nat → List α → List (Nat × α)
  | _, [] => []
  | n, x :: xs => (n, x) :: enumFrom (n + 1) xs

/-- The Code Index: an association list from code to its occurrence list,
in first-seen order (Python dictionaries preserve insertion order). -/
abbrev Index : Type := List (List Char × List ErrorCodeLocation)

/-- Append one occurrence under its code: extend an existing entry or
append a new entry at the end (`defaultdict(list)` behaviour). -/
def addOcc (idx : Index) (e : List Char × ErrorCodeLocation) : Index :=
  if idx.any (fun p => p.1 == e.1) then
    idx.map fun p => if p.1 == e.1 then (p.1, p.2 ++ [e.2]) else p
  else idx ++ [(e.1, [e.2])]

/-- All occurrences of a tree in traversal order: files in the order the
directory enumeration produced them (the Python code does **not** sort),
lines in increasing order within each file, constants before inline calls
within one line. -/
def occList (files : List (List Char × List (List Char))) :
    List (List Char × ErrorCodeLocation) :=
  files.flatMap fun f =>
    (enumFrom 1 f.2).flatMap fun nl => lineOccurrences f.1 nl.1 nl.2

/-- `find_all_error_codes`: scan every file line by line and build the
Code Index. -/
def find_all_error_codes (files : List (List Char × List (List Char))) : Index :=
  (occList files).foldl addOcc []

/-- `find_duplicates`: the sub-index of codes with more than one
occurrence, in index order. -/
def find_duplicates (idx : Index) : Index :=
  idx.filter fun p => 1 < p.2.length

/-- `get_all_existing_codes` (a Python `set`, used only for membership). -/
def get_all_existing_codes (idx : Index) : List (List Char) :=
  idx.map fun p => p.1

/-- Occurrence list of one code in the index (empty if absent): the
first entry with the code's key (keys are unique by construction). -/
def lookupOccs : Index → List Char → List ErrorCodeLocation
  | [], _ => []
  | p :: idx, code => if p.1 == code then p.2 else lookupOccs idx code

/-- Python's `f"{n:04d}"`. -/
def pad4 (n : Nat) : List Char :=
  List.replicate (4 - (natDigits n).length) '0' ++ natDigits n

/-- Python's `f"{n:06d}"`. -/
def pad6 (n : Nat) : List Char :=
  List.replicate (6 - (natDigits n).length) '0' ++ natDigits n

/-- `generate_new_code`: starting at 1, return the first
`date-prefix ++ 4-digit sequence` not among the known codes; past 9999,
also try the 6-digit form.  The Python loop always terminates because the
candidate stream is eventually injective and the known set is finite;
`fuel` makes the recursion structural, and all theorems are stated for
runs in which generation succeeded. -/
def generate_new_code (existing : List (List Char)) (rdp : List Char) :
    Nat → Nat → Option (List Char)
  | 0, _ => none
  | fuel + 1, counter =>
    let c4 := rdp ++ pad4 counter
    if existing.contains c4 then
      let c2 := counter + 1
      if 9999 < c2 then
        let c6 := rdp ++ pad6 c2
        if existing.contains c6 then generate_new_code existing rdp fuel c2
        else some c6
      else generate_new_code existing rdp fuel c2
    else some c4

/-- A Change Record, cf. the tuples `fix_duplicates` appends to `changes`. -/
structure Change where
  file_path : List Char
  line_num : Nat
  old_code : List Char
  new_code : List Char
  constant_name : Option (List Char)
  is_constant_def : Bool
  line_content : List Char
  deriving Repr, DecidableEq

/-- The location data a change record carries. -/
def chLoc (ch : Change) : ErrorCodeLocation :=
  ⟨ch.file_path, ch.line_num, ch.line_content, ch.constant_name, ch.is_constant_def⟩

/-- The change record for reassigning one occurrence. -/
def mkChange (code : List Char) (loc : ErrorCodeLocation) (nc : List Char) : Change :=
  ⟨loc.file_path, loc.line_num, code, nc, loc.constant_name, loc.is_constant_def,
    loc.line_content⟩

/-- Strict lexicographic comparison of strings by code point. -/
def strLt : List Char → List Char → Bool
  | [], [] => false
  | [], _ :: _ => true
  | _ :: _, [] => false
  | a :: as, b :: bs =>
    if a.toNat < b.toNat then true
    else if b.toNat < a.toNat then false
    else strLt as bs

/-- The sort key comparison `(file_path, line_num) ≤ (file_path, line_num)`
(Python tuple comparison, as `sorted(..., key=...)` uses). -/
def keyLe (a b : ErrorCodeLocation) : Bool :=
  strLt a.file_path b.file_path ||
    (a.file_path == b.file_path && Nat.ble a.line_num b.line_num)

/-- Reassign every occurrence of `code` in `locs` (the non-kept tail of a
sorted duplicate group): generate a fresh code for each, adding it to the
known set as generated. -/
def fixGroup (rdp : List Char) (fuel : Nat) (code : List Char) :
    List ErrorCodeLocation → List (List Char) →
      Option (List Change × List (List Char))
  | [], all => some ([], all)
  | loc :: rest, all =>
    match generate_new_code all rdp fuel 1 with
    | none => none
    | some nc =>
      match fixGroup rdp fuel code rest (all ++ [nc]) with
      | none => none
      | some (chs, all2) => some (mkChange code loc nc :: chs, all2)

/-- Process every duplicate group in index order: sort its occurrences by
(file path, line number), keep the first, reassign the rest. -/
def fixAll (rdp : List Char) (fuel : Nat) :
    Index → List (List Char) → Option (List Change × List (List Char))
  | [], all => some ([], all)
  | (code, locs) :: groups, all =>
    match fixGroup rdp fuel code (pySorted keyLe locs).tail all with
    | none => none
    | some (chs, all2) =>
      match fixAll rdp fuel groups all2 with
      | none => none
      | some (chs2, all3) => some (chs ++ chs2, all3)

/-- The change-computation part of `fix_duplicates` (also what a dry run
returns). -/
def fix_duplicates_changes (dups : Index) (existing : List (List Char))
    (rdp : List Char) (fuel : Nat) : Option (List Change) :=
  (fixAll rdp fuel dups existing).map fun r => r.1

/-- Python's `s.replace(old, new, 1)`: replace the first occurrence of
`old` (leave `s` unchanged if absent). -/
def replaceFirstGo (old new : List Char) : Nat → List Char → List Char
  | 0, s => s
  | _, [] => []
  | fuel + 1, c :: rest =>
    if old.isPrefixOf (c :: rest) then new ++ List.drop (old.length - 1) rest
    else c :: replaceFirstGo old new fuel rest

/-- Python's `s.replace(old, new, 1)`. -/
def pyReplaceFirst (old new s : List Char) : List Char :=
  replaceFirstGo old new s.length s

/-- The per-line patch of `fix_duplicates` (lines 212–228 of the source):
constant definitions replace `oldL` by `newL`; inline calls replace the
exact call text, falling back to the suffix-free form (normalising the
suffix on write). -/
def patchLine (line : List Char) (old nc : List Char)
    (constName : Option (List Char)) (isConst : Bool) : List Char :=
  if isConst && (match constName with
      | some nm => !nm.isEmpty
      | none => false) then
    pyReplaceFirst (old ++ ['L']) (nc ++ ['L']) line
  else
    let oldp := "BizException.failed(".toList ++ old ++ "L,".toList
    if containsSub oldp line then
      pyReplaceFirst oldp ("BizException.failed(".toList ++ nc ++ "L,".toList) line
    else
      pyReplaceFirst ("BizException.failed(".toList ++ old ++ [','])
        ("BizException.failed(".toList ++ nc ++ "L,".toList) line

/-- Apply a file's change list to its lines, one record at a time (the
Python loop reads and overwrites `lines[line_num - 1]` sequentially). -/
def applyChangesToLines (lines : List (List Char)) (chs : List Change) :
    List (List Char) :=
  chs.foldl
    (fun ls ch =>
      ls.set (ch.line_num - 1)
        (patchLine (ls.getD (ch.line_num - 1) []) ch.old_code ch.new_code
          ch.constant_name ch.is_constant_def))
    lines

/-- Apply all changes to the tree: changes are grouped by file and each
file is rewritten from its patched line list. -/
def fix_duplicates_apply (files : List (List Char × List (List Char)))
    (chs : List Change) : List (List Char × List (List Char)) :=
  files.map fun f =>
    (f.1, applyChangesToLines f.2 (chs.filter fun ch => ch.file_path == f.1))

/-- The Resolver's fix-mode pipeline: build the index, find duplicates,
compute the changes, patch the tree. -/
def resolver_fix_run (files : List (List Char × List (List Char)))
    (rdp : List Char) (fuel : Nat) :
    Option (List Change × List (List Char × List (List Char))) :=
  let idx := find_all_error_codes files
  (fix_duplicates_changes (find_duplicates idx) (get_all_existing_codes idx)
      rdp fuel).map
    fun chs => (chs, fix_duplicates_apply files chs)

/-- The Resolver `main`'s exit status: 0 when no duplicates were found,
1 otherwise (in check-only mode and in fix mode alike). -/
def resolver_main_status (files : List (List Char × List (List Char))) : Nat :=
  if (find_duplicates (find_all_error_codes files)).isEmpty then 0 else 1

/-! ### Freshness of generated codes (C2) -/

theorem generate_new_code_fresh (existing : List (List Char)) (rdp : List Char) :
    ∀ fuel ctr c, generate_new_code existing rdp fuel ctr = some c →
      existing.contains c = false := by
  intro fuel
  induction fuel with
  | zero => intro ctr c h; simp [generate_new_code] at h
  | succ f ih =>
    intro ctr c h
    unfold generate_new_code at h
    by_cases h4 : existing.contains (rdp ++ pad4 ctr) = true
    · simp only [h4, if_true] at h
      by_cases h99 : 9999 < ctr + 1
      · simp only [h99, if_true] at h
        by_cases h6 : existing.contains (rdp ++ pad6 (ctr + 1)) = true
        · simp only [h6, if_true] at h
          exact ih (ctr + 1) c h
        · simp only [Bool.eq_false_iff.mpr h6, Bool.false_eq_true, if_false,
            Option.some.injEq] at h
          subst h
          exact Bool.eq_false_iff.mpr h6
      · simp only [h99, if_false] at h
        exact ih (ctr + 1) c h
    · simp only [Bool.eq_false_iff.mpr h4, Bool.false_eq_true, if_false,
        Option.some.injEq] at h
      subst h
      exact Bool.eq_false_iff.mpr h4

theorem chLoc_mkChange (code : List Char) (loc : ErrorCodeLocation)
    (nc : List Char) : chLoc (mkChange code loc nc) = loc := rfl

theorem contains_append_eq (a b : List (List Char)) (c : List Char) :
    (a ++ b).contains c = (a.contains c || b.contains c) := by
  simp [List.contains_eq_any_beq]

theorem contains_false_not_mem (l : List (List Char)) (c : List Char)
    (h : l.contains c = false) : c ∉ l := by
  intro hm
  have : l.contains c = true := by
    rw [List.contains_eq_any_beq]
    exact List.any_eq_true.mpr ⟨c, hm, by simp⟩
  rw [this] at h
  simp at h

/-- Specification of `fixGroup`: the changes carry exactly the given
locations and code, the final known-code set is the input set extended by
the fresh codes, and the fresh codes are pairwise distinct and disjoint
from the input set. -/
theorem fixGroup_spec (rdp : List Char) (fuel : Nat) (code : List Char) :
    ∀ locs : List ErrorCodeLocation, ∀ all : List (List Char),
      ∀ chs : List Change, ∀ all2 : List (List Char),
      fixGroup rdp fuel code locs all = some (chs, all2) →
      all2 = all ++ chs.map (fun ch => ch.new_code) ∧
      (∀ c ∈ chs.map (fun ch => ch.new_code), all.contains c = false) ∧
      (chs.map (fun ch => ch.new_code)).Nodup ∧
      chs.map chLoc = locs ∧
      (∀ ch ∈ chs, ch.old_code = code) := by
  intro locs
  induction locs with
  | nil =>
    intro all chs all2 h
    simp only [fixGroup, Option.some.injEq, Prod.mk.injEq] at h
    obtain ⟨h1, h2⟩ := h
    subst h1
    subst h2
    simp
  | cons loc rest ih =>
    intro all chs all2 h
    unfold fixGroup at h
    cases hg : generate_new_code all rdp fuel 1 with
    | none => rw [hg] at h; simp at h
    | some nc =>
      rw [hg] at h
      simp only at h
      cases hf : fixGroup rdp fuel code rest (all ++ [nc]) with
      | none => rw [hf] at h; simp at h
      | some r =>
        obtain ⟨chs1, all1⟩ := r
        rw [hf] at h
        simp only [Option.some.injEq, Prod.mk.injEq] at h
        obtain ⟨h1, h2⟩ := h
        subst h1
        subst h2
        obtain ⟨i1, i2, i3, i4, i5⟩ := ih (all ++ [nc]) chs1 all1 hf
        have hfresh : all.contains nc = false :=
          generate_new_code_fresh all rdp fuel 1 nc hg
        refine ⟨?_, ?_, ?_, ?_, ?_⟩
        · rw [List.map_cons, i1, mkChange]
          simp
        · intro c hc
          rw [List.map_cons] at hc
          rcases List.mem_cons.mp hc with hc | hc
          · rw [hc]; exact hfresh
          · have := i2 c hc
            rw [contains_append_eq] at this
            exact (Bool.or_eq_false_iff.mp this).1
        · rw [List.map_cons]
          refine List.nodup_cons.mpr ⟨?_, i3⟩
          intro hmem
          have hcon := i2 _ hmem
          rw [contains_append_eq] at hcon
          have h2 := (Bool.or_eq_false_iff.mp hcon).2
          exact contains_false_not_mem [nc] _ h2 (by simp [mkChange])
        · rw [List.map_cons, chLoc_mkChange, i4]
        · intro ch hch
          rcases List.mem_cons.mp hch with hch | hch
          · rw [hch]; rfl
          · exact i5 ch hch

/-- Specification of `fixAll`: accumulates `fixGroup` over the duplicate
groups in index order. -/
theorem fixAll_spec (rdp : List Char) (fuel : Nat) :
    ∀ groups : Index, ∀ all : List (List Char),
      ∀ chs : List Change, ∀ all2 : List (List Char),
      fixAll rdp fuel groups all = some (chs, all2) →
      all2 = all ++ chs.map (fun ch => ch.new_code) ∧
      (∀ c ∈ chs.map (fun ch => ch.new_code), all.contains c = false) ∧
      (chs.map (fun ch => ch.new_code)).Nodup ∧
      chs.map (fun ch => (ch.old_code, chLoc ch)) =
        groups.flatMap (fun g => ((pySorted keyLe g.2).tail).map (fun l => (g.1, l))) := by
  intro groups
  induction groups with
  | nil =>
    intro all chs all2 h
    simp only [fixAll, Option.some.injEq, Prod.mk.injEq] at h
    obtain ⟨h1, h2⟩ := h
    subst h1
    subst h2
    simp
  | cons g groups ih =>
    intro all chs all2 h
    obtain ⟨code, locs⟩ := g
    unfold fixAll at h
    cases hg : fixGroup rdp fuel code (pySorted keyLe locs).tail all with
    | none => rw [hg] at h; simp at h
    | some r1 =>
      obtain ⟨chs1, all1⟩ := r1
      rw [hg] at h
      simp only at h
      cases hrest : fixAll rdp fuel groups all1 with
      | none => rw [hrest] at h; simp at h
      | some r2 =>
        obtain ⟨chs2, all3⟩ := r2
        rw [hrest] at h
        simp only [Option.some.injEq, Prod.mk.injEq] at h
        obtain ⟨h1, h2⟩ := h
        subst h1
        subst h2
        obtain ⟨g1, g2, g3, g4, g5⟩ := fixGroup_spec rdp fuel code _ all chs1 all1 hg
        obtain ⟨i1, i2, i3, i4⟩ := ih all1 chs2 all3 hrest
        constructor
        · rw [i1, g1, List.map_append]
          simp [List.append_assoc]
        constructor
        · intro c hc
          rw [List.map_append] at hc
          rcases List.mem_append.mp hc with hc | hc
          · exact g2 c hc
          · have := i2 c hc
            rw [g1, contains_append_eq] at this
            exact (Bool.or_eq_false_iff.mp this).1
        constructor
        · rw [List.map_append]
          refine List.Nodup.append g3 i3 ?_
          intro c hc1 hc2
          have := i2 c hc2
          rw [g1, contains_append_eq] at this
          exact contains_false_not_mem _ _ (Bool.or_eq_false_iff.mp this).2 hc1
        · rw [List.map_append, i4, List.flatMap_cons]
          congr 1
          calc chs1.map (fun ch => (ch.old_code, chLoc ch))
              = chs1.map (fun ch => (code, chLoc ch)) := by
                apply List.map_congr_left
                intro ch hch
                rw [g5 ch hch]
            _ = (chs1.map chLoc).map (fun l => (code, l)) := by
                rw [List.map_map]
                rfl
            _ = ((pySorted keyLe locs).tail).map (fun l => (code, l)) := by rw [g4]

/-- Claim C2: in a resolution pass over a tree, every replacement code the
generator produces is distinct from every code present in the pre-run
index and from every replacement code generated earlier in the same pass,
and the candidate set handed to the generator ends up extended by exactly
the generated codes. -/
theorem claim_C2 (files : List (List Char × List (List Char)))
    (rdp : List Char) (fuel : Nat) (chs : List Change)
    (all2 : List (List Char))
    (h : fixAll rdp fuel (find_duplicates (find_all_error_codes files))
      (get_all_existing_codes (find_all_error_codes files)) = some (chs, all2)) :
    (∀ ch ∈ chs, ch.new_code ∉ get_all_existing_codes (find_all_error_codes files)) ∧
    (chs.map (fun ch => ch.new_code)).Nodup ∧
    all2 = get_all_existing_codes (find_all_error_codes files) ++
      chs.map (fun ch => ch.new_code) := by
  obtain ⟨h1, h2, h3, _⟩ := fixAll_spec rdp fuel _ _ chs all2 h
  refine ⟨?_, h3, h1⟩
  intro ch hch
  exact contains_false_not_mem _ _
    (h2 ch.new_code (List.mem_map.mpr ⟨ch, hch, rfl⟩))

/-- A concrete two-file tree with one duplicated code, for witnesses. -/
def c2tree : List (List Char × List (List Char)) :=
  [("A.java".toList, [("private static final long ERROR_X = 11L;").toList]),
   ("B.java".toList, [("private static final long ERROR_Y = 11;").toList])]

/-- The change list and final code set `fixAll` computes on `c2tree`. -/
def c2res : List Change × List (List Char) :=
  ([⟨"B.java".toList, 1, "11".toList, "202512180001".toList,
     some "ERROR_Y".toList, true,
     ("private static final long ERROR_Y = 11;").toList⟩],
   ["11".toList, "202512180001".toList])

/-- Instantiation of `claim_C2` on a concrete tree with one duplicated
constant. -/
theorem claim_C2_witness :
    (fixAll "20251218".toList 30
      (find_duplicates (find_all_error_codes c2tree))
      (get_all_existing_codes (find_all_error_codes c2tree)) = some c2res) ∧
    ∀ ch ∈ c2res.1,
      ch.new_code ∉ get_all_existing_codes (find_all_error_codes c2tree) :=
  ⟨by decide,
    (claim_C2 c2tree "20251218".toList 30 c2res.1 c2res.2 (by decide)).1⟩

/-! ### The kept occurrence is the (file, line)-minimum (C3) -/

theorem char_eq_of_toNat_eq (a b : Char) (h : a.toNat = b.toNat) : a = b :=
  Char.eq_of_val_eq (UInt32.ext h)

theorem strLt_trans : ∀ a b c : List Char, strLt a b = true →
    strLt b c = true → strLt a c = true := by
  intro a
  induction a with
  | nil =>
    intro b c hab hbc
    cases b with
    | nil => simp [strLt] at hab
    | cons y bs =>
      cases c with
      | nil => simp [strLt] at hbc
      | cons z cs => simp [strLt]
  | cons x as ih =>
    intro b c hab hbc
    cases b with
    | nil => simp [strLt] at hab
    | cons y bs =>
      cases c with
      | nil => simp [strLt] at hbc
      | cons z cs =>
        simp only [strLt] at hab hbc ⊢
        by_cases hxy : x.toNat < y.toNat
        · by_cases hyz : y.toNat < z.toNat
          · simp [show x.toNat < z.toNat from by omega]
          · simp only [hyz, if_false] at hbc
            by_cases hzy : z.toNat < y.toNat
            · simp [hzy] at hbc
            · simp [show x.toNat < z.toNat from by omega]
        · simp only [hxy, if_false] at hab
          by_cases hyx : y.toNat < x.toNat
          · simp [hyx] at hab
          · have hxyeq : x.toNat = y.toNat := by omega
            by_cases hyz : y.toNat < z.toNat
            · simp [show x.toNat < z.toNat from by omega]
            · simp only [hyz, if_false] at hbc
              by_cases hzy : z.toNat < y.toNat
              · simp [hzy] at hbc
              · have hyzeq : y.toNat = z.toNat := by omega
                simp only [show ¬x.toNat < z.toNat from by omega, if_false,
                  show ¬z.toNat < x.toNat from by omega]
                simp only [hxy, if_false, hyx] at hab
                simp only [hyz, if_false, hzy] at hbc
                exact ih bs cs hab hbc

theorem eq_of_strLt_false (a b : List Char) (hab : strLt a b = false)
    (hba : strLt b a = false) : a = b := by
  induction a generalizing b with
  | nil =>
    cases b with
    | nil => rfl
    | cons y bs => simp [strLt] at hab
  | cons x as ih =>
    cases b with
    | nil => simp [strLt] at hba
    | cons y bs =>
      simp only [strLt] at hab hba
      by_cases hxy : x.toNat < y.toNat
      · simp [hxy] at hab
      · by_cases hyx : y.toNat < x.toNat
        · simp [hyx] at hba
        · simp only [hxy, if_false, hyx] at hab hba
          have hx : x = y := char_eq_of_toNat_eq x y (by omega)
          rw [hx, ih bs hab (by simpa [hx] using hba)]

theorem keyLe_refl (a : ErrorCodeLocation) : keyLe a a = true := by
  unfold keyLe
  simp [Nat.ble_eq]

theorem keyLe_total (a b : ErrorCodeLocation) : (keyLe a b || keyLe b a) = true := by
  unfold keyLe
  by_cases h1 : strLt a.file_path b.file_path = true
  · simp [h1]
  · by_cases h2 : strLt b.file_path a.file_path = true
    · simp [h2]
    · have he : a.file_path = b.file_path :=
        eq_of_strLt_false _ _ (Bool.eq_false_iff.mpr h1) (Bool.eq_false_iff.mpr h2)
      simp only [he, beq_self_eq_true, Bool.true_and]
      simp [Nat.ble_eq]
      omega

theorem keyLe_trans (a b c : ErrorCodeLocation) (hab : keyLe a b = true)
    (hbc : keyLe b c = true) : keyLe a c = true := by
  unfold keyLe at hab hbc ⊢
  rcases Bool.or_eq_true_iff.mp hab with h1 | h1 <;>
    rcases Bool.or_eq_true_iff.mp hbc with h2 | h2
  · exact Bool.or_eq_true_iff.mpr (Or.inl (strLt_trans _ _ _ h1 h2))
  · rcases Bool.and_eq_true_iff.mp h2 with ⟨h2a, _⟩
    have : b.file_path = c.file_path := by simpa using h2a
    exact Bool.or_eq_true_iff.mpr (Or.inl (this ▸ h1))
  · rcases Bool.and_eq_true_iff.mp h1 with ⟨h1a, _⟩
    have : a.file_path = b.file_path := by simpa using h1a
    exact Bool.or_eq_true_iff.mpr (Or.inl (this ▸ h2))
  · rcases Bool.and_eq_true_iff.mp h1 with ⟨h1a, h1b⟩
    rcases Bool.and_eq_true_iff.mp h2 with ⟨h2a, h2b⟩
    have e1 : a.file_path = b.file_path := by simpa using h1a
    have e2 : b.file_path = c.file_path := by simpa using h2a
    refine Bool.or_eq_true_iff.mpr (Or.inr (Bool.and_eq_true_iff.mpr ⟨?_, ?_⟩))
    · simp [e1, e2]
    · rw [Nat.ble_eq] at h1b h2b ⊢
      omega

/-- Keys of the index after one insertion. -/
theorem keys_addOcc (idx : Index) (e : List Char × ErrorCodeLocation) :
    get_all_existing_codes (addOcc idx e) =
      if idx.any (fun p => p.1 == e.1) then get_all_existing_codes idx
      else get_all_existing_codes idx ++ [e.1] := by
  unfold addOcc get_all_existing_codes
  by_cases h : idx.any (fun p => p.1 == e.1) = true
  · simp only [h, if_true, List.map_map]
    apply List.map_congr_left
    intro p _
    simp only [Function.comp]
    split <;> rfl
  · simp [Bool.eq_false_iff.mpr h]

theorem keys_nodup_addOcc (idx : Index) (e : List Char × ErrorCodeLocation)
    (h : (get_all_existing_codes idx).Nodup) :
    (get_all_existing_codes (addOcc idx e)).Nodup := by
  rw [keys_addOcc]
  cases hany : idx.any (fun p => p.1 == e.1) with
  | true => simpa using h
  | false =>
    simp only [Bool.false_eq_true, if_false]
    rw [List.nodup_append]
    refine ⟨h, List.nodup_singleton _, ?_⟩
    intro a hmem hb
    rcases List.mem_singleton.mp hb with rfl
    rcases List.mem_map.mp hmem with ⟨p, hp, hpe⟩
    have hfalse : ¬(p.1 == e.1) = true := by
      intro hc
      rw [List.any_eq_true.mpr ⟨p, hp, hc⟩] at hany
      simp at hany
    exact hfalse (by simp [hpe])

theorem find_all_keys_nodup (files : List (List Char × List (List Char))) :
    (get_all_existing_codes (find_all_error_codes files)).Nodup := by
  unfold find_all_error_codes
  generalize occList files = es
  have main : ∀ es : List (List Char × ErrorCodeLocation), ∀ idx : Index,
      (get_all_existing_codes idx).Nodup →
      (get_all_existing_codes (es.foldl addOcc idx)).Nodup := by
    intro es
    induction es with
    | nil => intro idx h; exact h
    | cons e es ih =>
      intro idx h
      exact ih (addOcc idx e) (keys_nodup_addOcc idx e h)
  exact main es [] (by simp [get_all_existing_codes])

theorem find_duplicates_keys_nodup (idx : Index)
    (h : (get_all_existing_codes idx).Nodup) :
    (get_all_existing_codes (find_duplicates idx)).Nodup := by
  unfold find_duplicates
  unfold get_all_existing_codes at h ⊢
  exact List.Nodup.sublist (List.Sublist.map _ (List.filter_sublist idx)) h

/-- Filtering the change list on one duplicated code recovers exactly the
non-kept tail of that code's sorted occurrence group. -/
theorem changes_filter_of_groups (chs : List Change) :
    ∀ groups : Index, (get_all_existing_codes groups).Nodup →
      ∀ code locs, (code, locs) ∈ groups →
      chs.map (fun ch => (ch.old_code, chLoc ch)) =
        groups.flatMap (fun g => ((pySorted keyLe g.2).tail).map (fun l => (g.1, l))) →
      (chs.filter (fun ch => ch.old_code == code)).map chLoc =
        (pySorted keyLe locs).tail := by
  have pairseq : ∀ chs2 : List Change, ∀ code : List Char,
      (chs2.filter (fun ch => ch.old_code == code)).map chLoc =
        ((chs2.map (fun ch => (ch.old_code, chLoc ch))).filter
          (fun q => q.1 == code)).map (fun q => q.2) := by
    intro chs2 code
    induction chs2 with
    | nil => rfl
    | cons ch chs2 ih =>
      by_cases hc : (ch.old_code == code) = true
      · simp only [List.map_cons, List.filter_cons, hc, if_true, List.map_cons]
        rw [ih]
      · have hcf : (ch.old_code == code) = false := Bool.eq_false_iff.mpr hc
        simp only [List.map_cons, List.filter_cons, hcf, Bool.false_eq_true, if_false]
        exact ih
  intro groups hnodup code locs hmem heq
  rw [pairseq chs code, heq]
  clear heq pairseq
  induction groups with
  | nil => simp at hmem
  | cons g groups ih =>
    obtain ⟨gcode, glocs⟩ := g
    rw [List.flatMap_cons, List.filter_append, List.map_append]
    unfold get_all_existing_codes at hnodup
    rw [List.map_cons, List.nodup_cons] at hnodup
    obtain ⟨hnotin, hnodup2⟩ := hnodup
    rcases List.mem_cons.mp hmem with hthis | hrest
    · injection hthis with hgc hgl
      subst hgc
      subst hgl
      have hblock : (((pySorted keyLe locs).tail.map (fun l => (code, l))).filter
          (fun q => q.1 == code)).map (fun q => q.2) = (pySorted keyLe locs).tail := by
        rw [List.filter_map, List.map_map]
        simp [Function.comp]
      rw [hblock]
      have hzero : ((groups.flatMap (fun g => ((pySorted keyLe g.2).tail).map
          (fun l => (g.1, l)))).filter (fun q => q.1 == code)).map (fun q => q.2) = [] := by
        rw [List.map_eq_nil_iff, List.filter_eq_nil_iff]
        intro q hq
        rcases List.mem_flatMap.mp hq with ⟨g2, hg2, hq2⟩
        rcases List.mem_map.mp hq2 with ⟨l, _, hl⟩
        have hq1 : q.1 = g2.1 := by rw [← hl]
        rw [hq1]
        intro hcontra
        apply hnotin
        exact List.mem_map.mpr ⟨g2, hg2, by simpa using hcontra⟩
      rw [hzero, List.append_nil]
    · have hblock : (((pySorted keyLe glocs).tail.map (fun l => (gcode, l))).filter
          (fun q => q.1 == code)).map (fun q => q.2) = [] := by
        rw [List.map_eq_nil_iff, List.filter_eq_nil_iff]
        intro q hq
        rcases List.mem_map.mp hq with ⟨l, _, hl⟩
        have hq1 : q.1 = gcode := by rw [← hl]
        rw [hq1]
        intro hcontra
        apply hnotin
        have hce : gcode = code := by simpa using hcontra
        exact List.mem_map.mpr ⟨(code, locs), hrest, by simp [hce]⟩
      rw [hblock, List.nil_append]
      exact ih hnodup2 hrest

/-- Claim C3: for every duplicated code, the occurrence the Resolver
keeps is the head of the group sorted by (file path, line number) — its
key is less than or equal to every occurrence's key in the group — and
the change records for that code cover exactly all the other occurrences
of the group, in sorted order. -/
theorem claim_C3 (files : List (List Char × List (List Char)))
    (rdp : List Char) (fuel : Nat) (chs : List Change)
    (all2 : List (List Char)) (code : List Char)
    (locs : List ErrorCodeLocation)
    (hmem : (code, locs) ∈ find_duplicates (find_all_error_codes files))
    (h : fixAll rdp fuel (find_duplicates (find_all_error_codes files))
      (get_all_existing_codes (find_all_error_codes files)) = some (chs, all2)) :
    ∃ kept : ErrorCodeLocation, ∃ tl : List ErrorCodeLocation,
      pySorted keyLe locs = kept :: tl ∧
      (∀ l ∈ locs, keyLe kept l = true) ∧
      (chs.filter (fun ch => ch.old_code == code)).map chLoc = tl := by
  obtain ⟨_, _, _, heq⟩ := fixAll_spec rdp fuel _ _ chs all2 h
  have hdupnodup : (get_all_existing_codes
      (find_duplicates (find_all_error_codes files))).Nodup :=
    find_duplicates_keys_nodup _ (find_all_keys_nodup files)
  have hfilter := changes_filter_of_groups chs _ hdupnodup code locs hmem heq
  have hlen : 1 < locs.length := by
    unfold find_duplicates at hmem
    have := (List.mem_filter.mp hmem).2
    simpa using this
  have hperm := pySorted_perm keyLe locs
  have hslen : 1 < (pySorted keyLe locs).length := by
    rw [hperm.length_eq]
    exact hlen
  obtain ⟨kept, tl, hs⟩ : ∃ kept tl, pySorted keyLe locs = kept :: tl := by
    cases hsort : pySorted keyLe locs with
    | nil => rw [hsort] at hslen; simp at hslen
    | cons kept tl => exact ⟨kept, tl, rfl⟩
  refine ⟨kept, tl, hs, ?_, by rw [hfilter, hs]; rfl⟩
  intro l hl
  have hpair := pySorted_pairwise keyLe keyLe_total keyLe_trans locs
  rw [hs] at hpair
  have hlmem : l ∈ kept :: tl := by
    rw [← hs]
    exact hperm.mem_iff.mpr hl
  rcases List.mem_cons.mp hlmem with hl2 | hl2
  · rw [hl2]
    exact keyLe_refl kept
  · exact (List.pairwise_cons.mp hpair).1 l hl2

/-- Instantiation of `claim_C3` on `c2tree`. -/
theorem claim_C3_witness :
    ∃ kept : ErrorCodeLocation, ∃ tl : List ErrorCodeLocation,
      pySorted keyLe (lookupOccs (find_all_error_codes c2tree) "11".toList) =
        kept :: tl ∧
      (∀ l ∈ lookupOccs (find_all_error_codes c2tree) "11".toList,
        keyLe kept l = true) ∧
      (c2res.1.filter (fun ch => ch.old_code == "11".toList)).map chLoc = tl :=
  claim_C3 c2tree "20251218".toList 30 c2res.1 c2res.2 "11".toList
    (lookupOccs (find_all_error_codes c2tree) "11".toList)
    (by decide) (by decide)

/-! ### Ordering of occurrence lists in the index (C7) -/

theorem lookupOccs_nil (code : List Char) : lookupOccs [] code = [] := rfl

theorem lookupOccs_cons (p : List Char × List ErrorCodeLocation) (idx : Index)
    (code : List Char) :
    lookupOccs (p :: idx) code =
      if p.1 == code then p.2 else lookupOccs idx code := rfl

/-- Extending the entry of a key different from `code` leaves the lookup
of `code` unchanged. -/
theorem lookupOccs_map_extend (e : List Char × ErrorCodeLocation)
    (code : List Char) (hne : (e.1 == code) = false) :
    ∀ idx : Index,
      lookupOccs (idx.map fun q => if q.1 == e.1 then (q.1, q.2 ++ [e.2]) else q)
        code = lookupOccs idx code := by
  intro idx
  induction idx with
  | nil => rfl
  | cons p idx ih =>
    rw [List.map_cons]
    by_cases hpe : (p.1 == e.1) = true
    · simp only [hpe, if_true]
      rw [lookupOccs_cons, lookupOccs_cons]
      by_cases hpc : (p.1 == code) = true
      · exfalso
        have h1 : p.1 = e.1 := by simpa using hpe
        have h2 : p.1 = code := by simpa using hpc
        have : (e.1 == code) = true := by simp [← h1, h2]
        rw [this] at hne
        simp at hne
      · have hpcf : (p.1 == code) = false := Bool.eq_false_iff.mpr hpc
        simp only [hpcf, Bool.false_eq_true, if_false]
        exact ih
    · have hpef : (p.1 == e.1) = false := Bool.eq_false_iff.mpr hpe
      simp only [hpef, Bool.false_eq_true, if_false]
      rw [lookupOccs_cons, lookupOccs_cons]
      by_cases hpc : (p.1 == code) = true
      · simp [hpc]
      · have hpcf : (p.1 == code) = false := Bool.eq_false_iff.mpr hpc
        simp only [hpcf, Bool.false_eq_true, if_false]
        exact ih

theorem lookupOccs_addOcc (idx : Index) (e : List Char × ErrorCodeLocation)
    (code : List Char) :
    lookupOccs (addOcc idx e) code =
      lookupOccs idx code ++ (if e.1 == code then [e.2] else []) := by
  induction idx with
  | nil =>
    unfold addOcc
    simp only [List.any_nil, Bool.false_eq_true, if_false, List.nil_append]
    rw [lookupOccs_cons]
    by_cases hc : (e.1 == code) = true
    · simp [hc, lookupOccs_nil]
    · simp [Bool.eq_false_iff.mpr hc, lookupOccs_nil]
  | cons p idx ih =>
    by_cases hpe : (p.1 == e.1) = true
    · -- head entry carries the key: the map mode fires
      have hany : ((p :: idx).any fun q => q.1 == e.1) = true := by
        rw [List.any_cons, hpe, Bool.true_or]
      unfold addOcc
      rw [hany]
      simp only [if_true, List.map_cons, hpe]
      rw [lookupOccs_cons, lookupOccs_cons]
      by_cases hpc : (p.1 == code) = true
      · have hec : (e.1 == code) = true := by
          have h1 : p.1 = e.1 := by simpa using hpe
          have h2 : p.1 = code := by simpa using hpc
          simp [← h1, h2]
        simp [hpc, hec]
      · have hpcf : (p.1 == code) = false := Bool.eq_false_iff.mpr hpc
        have hec : (e.1 == code) = false := by
          rw [Bool.eq_false_iff]
          intro hcon
          have h1 : p.1 = e.1 := by simpa using hpe
          have h2 : e.1 = code := by simpa using hcon
          rw [Bool.eq_false_iff] at hpcf
          exact hpcf (by simp [h1, h2])
        simp only [hpcf, Bool.false_eq_true, if_false, hec, List.append_nil]
        exact lookupOccs_map_extend e code hec idx
    · have hpef : (p.1 == e.1) = false := Bool.eq_false_iff.mpr hpe
      by_cases hanyt : (idx.any fun q => q.1 == e.1) = true
      · -- the key occurs in the tail: map mode, head unchanged
        have hany : ((p :: idx).any fun q => q.1 == e.1) = true := by
          rw [List.any_cons, hanyt, Bool.or_true]
        unfold addOcc
        rw [hany]
        simp only [if_true, List.map_cons, hpef, Bool.false_eq_true, if_false]
        rw [lookupOccs_cons, lookupOccs_cons]
        by_cases hpc : (p.1 == code) = true
        · have hec : (e.1 == code) = false := by
            rw [Bool.eq_false_iff]
            intro hcon
            rw [Bool.eq_false_iff] at hpef
            have h2 : e.1 = code := by simpa using hcon
            have h3 : p.1 = code := by simpa using hpc
            exact hpef (by simp [h2, h3])
          simp only [hpc, if_true, hec, Bool.false_eq_true, if_false,
            List.append_nil]
        · have hpcf : (p.1 == code) = false := Bool.eq_false_iff.mpr hpc
          simp only [hpcf, Bool.false_eq_true, if_false]
          have hstep := ih
          unfold addOcc at hstep
          rw [hanyt] at hstep
          simp only [if_true] at hstep
          exact hstep
      · -- the key is new: append mode
        have hanytf : (idx.any fun q => q.1 == e.1) = false := Bool.eq_false_iff.mpr hanyt
        have hany : ((p :: idx).any fun q => q.1 == e.1) = false := by
          rw [List.any_cons, hpef, hanytf]
          rfl
        unfold addOcc
        rw [hany]
        simp only [Bool.false_eq_true, if_false, List.cons_append]
        rw [lookupOccs_cons, lookupOccs_cons]
        by_cases hpc : (p.1 == code) = true
        · have hec : (e.1 == code) = false := by
            rw [Bool.eq_false_iff]
            intro hcon
            rw [Bool.eq_false_iff] at hpef
            have h2 : e.1 = code := by simpa using hcon
            have h3 : p.1 = code := by simpa using hpc
            exact hpef (by simp [h2, h3])
          simp only [hpc, if_true, hec, Bool.false_eq_true, if_false,
            List.append_nil]
        · have hpcf : (p.1 == code) = false := Bool.eq_false_iff.mpr hpc
          simp only [hpcf, Bool.false_eq_true, if_false]
          have hstep := ih
          unfold addOcc at hstep
          rw [hanytf] at hstep
          simp only [Bool.false_eq_true, if_false] at hstep
          exact hstep

/-- Lookup after folding the whole occurrence stream: the entries of a
code appear exactly in stream order. -/
theorem lookupOccs_foldl (code : List Char) :
    ∀ es : List (List Char × ErrorCodeLocation), ∀ idx : Index,
      lookupOccs (es.foldl addOcc idx) code =
        lookupOccs idx code ++ (es.filter (fun q => q.1 == code)).map (fun q => q.2) := by
  intro es
  induction es with
  | nil => intro idx; simp
  | cons e es ih =>
    intro idx
    rw [List.foldl_cons, ih (addOcc idx e), lookupOccs_addOcc]
    by_cases hc : (e.1 == code) = true
    · simp [List.filter_cons, hc]
    · simp [List.filter_cons, Bool.eq_false_iff.mpr hc]

theorem filter_map_flatMap {α β γ : Type} (l : List α) (g : α → List β)
    (p : β → Bool) (f : β → γ) :
    ((l.flatMap g).filter p).map f =
      l.flatMap fun x => ((g x).filter p).map f := by
  induction l with
  | nil => rfl
  | cons x l ih =>
    rw [List.flatMap_cons, List.filter_append, List.map_append, ih,
      List.flatMap_cons]

/-- The occurrences of `code` contributed by one file, in scan order. -/
def occsOfFile (code : List Char) (f : List Char × List (List Char)) :
    List ErrorCodeLocation :=
  (enumFrom 1 f.2).flatMap fun nl =>
    ((lineOccurrences f.1 nl.1 nl.2).filter (fun q => q.1 == code)).map
      (fun q => q.2)

theorem lineOccurrences_fields (fp : List Char) (n : Nat) (line : List Char) :
    ∀ q ∈ lineOccurrences fp n line, q.2.line_num = n ∧ q.2.file_path = fp := by
  intro q hq
  unfold lineOccurrences at hq
  rcases List.mem_append.mp hq with hq | hq
  · rcases List.mem_map.mp hq with ⟨m, _, hm⟩
    rw [← hm]
    exact ⟨rfl, rfl⟩
  · by_cases h1 : containsSub "BizException.failed(".toList line = true
    · rw [h1] at hq
      simp only [if_true] at hq
      by_cases h2 : hasFailedErrorRef line = true
      · rw [h2] at hq
        simp at hq
      · rw [Bool.eq_false_iff.mpr h2] at hq
        simp only [Bool.false_eq_true, if_false] at hq
        rcases List.mem_map.mp hq with ⟨m, _, hm⟩
        rw [← hm]
        exact ⟨rfl, rfl⟩
    · rw [Bool.eq_false_iff.mpr h1] at hq
      simp at hq

theorem occsOfFile_line_ge (code : List Char) (fp : List Char) :
    ∀ lines : List (List Char), ∀ n0 : Nat,
      ∀ l ∈ (enumFrom n0 lines).flatMap (fun nl =>
        ((lineOccurrences fp nl.1 nl.2).filter (fun q => q.1 == code)).map
          (fun q => q.2)),
        n0 ≤ l.line_num := by
  intro lines
  induction lines with
  | nil => intro n0 l hl; simp [enumFrom] at hl
  | cons line lines ih =>
    intro n0 l hl
    rw [show enumFrom n0 (line :: lines) = (n0, line) :: enumFrom (n0 + 1) lines
      from rfl, List.flatMap_cons] at hl
    rcases List.mem_append.mp hl with hl | hl
    · rcases List.mem_map.mp hl with ⟨q, hq, hql⟩
      have := (lineOccurrences_fields fp n0 line q (List.mem_of_mem_filter hq)).1
      rw [← hql, this]
    · exact Nat.le_of_succ_le (ih (n0 + 1) l hl)

theorem occsOfFile_pairwise_aux (code : List Char) (fp : List Char) :
    ∀ lines : List (List Char), ∀ n0 : Nat,
      List.Pairwise (fun a b => a.line_num ≤ b.line_num)
        ((enumFrom n0 lines).flatMap (fun nl =>
          ((lineOccurrences fp nl.1 nl.2).filter (fun q => q.1 == code)).map
            (fun q => q.2))) := by
  intro lines
  induction lines with
  | nil => intro n0; simp [enumFrom]
  | cons line lines ih =>
    intro n0
    rw [show enumFrom n0 (line :: lines) = (n0, line) :: enumFrom (n0 + 1) lines
      from rfl, List.flatMap_cons]
    rw [List.pairwise_append]
    refine ⟨?_, ih (n0 + 1), ?_⟩
    · refine List.pairwise_of_forall_mem_list ?_
      intro a ha b hb
      rcases List.mem_map.mp ha with ⟨qa, hqa, hqa2⟩
      rcases List.mem_map.mp hb with ⟨qb, hqb, hqb2⟩
      have ha2 := (lineOccurrences_fields fp n0 line qa
        (List.mem_of_mem_filter hqa)).1
      have hb2 := (lineOccurrences_fields fp n0 line qb
        (List.mem_of_mem_filter hqb)).1
      rw [← hqa2, ← hqb2, ha2, hb2]
    · intro a ha b hb
      rcases List.mem_map.mp ha with ⟨qa, hqa, hqa2⟩
      have ha2 := (lineOccurrences_fields fp n0 line qa
        (List.mem_of_mem_filter hqa)).1
      have hb2 := occsOfFile_line_ge code fp lines (n0 + 1) b hb
      rw [← hqa2, ha2]
      omega

/-- Claim C7 counterexample: the Resolver does **not** traverse files in
sorted path order — the target directories are visited in their
configured list order and the glob enumeration is unsorted — so an
occurrence from a lexicographically smaller path can appear *after* one
from a larger path in a code's occurrence list, refuting the claimed
sortedness.  Here the enumeration returns `b.java` before `a.java` and
the index keeps that order. -/
theorem claim_C7_counterexample :
    ((lookupOccs (find_all_error_codes
        [("b.java".toList, [("BizException.failed(7L, x);").toList]),
         ("a.java".toList, [("BizException.failed(7L, x);").toList])])
      "7".toList).map (fun l => l.file_path)) =
      ["b.java".toList, "a.java".toList] ∧
    strLt "a.java".toList "b.java".toList = true := by decide

/-- Claim C7 (amended): a code's occurrence list follows the traversal
order of the file enumeration (which is not guaranteed sorted): it is the
concatenation, file by file in enumeration order, of that file's
occurrences; within a single file the occurrences appear in nondecreasing
line order, and each carries its file's path. -/
theorem claim_C7_amended (files : List (List Char × List (List Char)))
    (code : List Char) :
    lookupOccs (find_all_error_codes files) code =
      files.flatMap (occsOfFile code) ∧
    (∀ f ∈ files, List.Pairwise (fun a b => a.line_num ≤ b.line_num)
      (occsOfFile code f)) ∧
    (∀ f ∈ files, ∀ l ∈ occsOfFile code f, l.file_path = f.1) := by
  refine ⟨?_, ?_, ?_⟩
  · unfold find_all_error_codes
    rw [lookupOccs_foldl code (occList files) [], lookupOccs_nil,
      List.nil_append]
    unfold occList
    rw [filter_map_flatMap]
    unfold occsOfFile
    apply List.flatMap_congr
    intro f _
    exact filter_map_flatMap (enumFrom 1 f.2) (fun nl => lineOccurrences f.1 nl.1 nl.2) _ _
  · intro f _
    exact occsOfFile_pairwise_aux code f.1 f.2 1
  · intro f _ l hl
    unfold occsOfFile at hl
    rcases List.mem_flatMap.mp hl with ⟨nl, _, hl2⟩
    rcases List.mem_map.mp hl2 with ⟨q, hq, hql⟩
    rw [← hql]
    exact (lineOccurrences_fields f.1 nl.1 nl.2 q (List.mem_of_mem_filter hq)).2

/-- Instantiation of `claim_C7_amended` on a concrete two-file tree. -/
theorem claim_C7_witness :
    lookupOccs (find_all_error_codes
      [("b.java".toList, [("BizException.failed(9L, x);").toList]),
       ("a.java".toList, [("BizException.failed(9L, y);").toList])]) "9".toList =
      [("b.java".toList, [("BizException.failed(9L, x);").toList]),
       ("a.java".toList, [("BizException.failed(9L, y);").toList])].flatMap
        (occsOfFile "9".toList) :=
  (claim_C7_amended
    [("b.java".toList, [("BizException.failed(9L, x);").toList]),
     ("a.java".toList, [("BizException.failed(9L, y);").toList])] "9".toList).1

/- ### Soundness of the inline-call parser (C10) -/

theorem expectLit_eq (lit s r : List Char) (h : expectLit lit s = some r) :
    s = lit ++ r := by
  unfold expectLit at h
  split at h
  · injection h with h
    subst h
    rename_i hp
    obtain ⟨t, ht⟩ := List.isPrefixOf_iff_prefix.mp hp
    rw [← ht, List.drop_left]
  · exact absurd h (by simp)

theorem parseInlineAt_sound (s code r : List Char)
    (h : parseInlineAt s = some (code, r)) :
    code ≠ [] ∧ (∀ c ∈ code, c.isDigit = true) ∧
    ∃ ws1 ws2 optL ws3,
      (∀ c ∈ ws1, isPyWS c = true) ∧ (∀ c ∈ ws2, isPyWS c = true) ∧
      (optL = [] ∨ optL = ['L']) ∧ (∀ c ∈ ws3, isPyWS c = true) ∧
      s = "BizException.failed".toList ++ ws1 ++ ['('] ++ ws2 ++
        code ++ optL ++ ws3 ++ [','] ++ r := by
  unfold parseInlineAt at h
  split at h
  · exact absurd h (by simp)
  · rename_i s1 h1
    simp only [] at h
    split at h
    · exact absurd h (by simp)
    · rename_i s3 h3
      split at h
      · exact absurd h (by simp)
      · rename_i hds
        split at h
        · exact absurd h (by simp)
        · rename_i s8 h8
          injection h with h
          injection h with hcode hr
          subst hcode
          subst hr
          refine ⟨by simpa using hds, fun c hc => List.mem_takeWhile_imp hc, ?_⟩
          have e1 : s = "BizException.failed".toList ++ s1 :=
            expectLit_eq _ _ _ h1
          have e2 : List.dropWhile isPyWS s1 = ['('] ++ s3 :=
            expectLit_eq _ _ _ h3
          by_cases hL :
              (List.dropWhile Char.isDigit (List.dropWhile isPyWS s3)).head? =
                some 'L'
          · rw [if_pos hL] at h8
            have e8 : List.dropWhile isPyWS
                (List.dropWhile Char.isDigit (List.dropWhile isPyWS s3)).tail =
                [','] ++ s8 := expectLit_eq _ _ _ h8
            refine ⟨List.takeWhile isPyWS s1, List.takeWhile isPyWS s3, ['L'],
              List.takeWhile isPyWS
                (List.dropWhile Char.isDigit (List.dropWhile isPyWS s3)).tail,
              fun c hc => List.mem_takeWhile_imp hc,
              fun c hc => List.mem_takeWhile_imp hc, Or.inr rfl,
              fun c hc => List.mem_takeWhile_imp hc, ?_⟩
            have t7 :
                (List.dropWhile Char.isDigit (List.dropWhile isPyWS s3)).tail =
                  List.takeWhile isPyWS
                    (List.dropWhile Char.isDigit
                      (List.dropWhile isPyWS s3)).tail ++ ([','] ++ s8) := by
              rw [← e8]
              exact (List.takeWhile_append_dropWhile isPyWS _).symm
            have e5 : List.dropWhile Char.isDigit (List.dropWhile isPyWS s3) =
                'L' :: (List.dropWhile Char.isDigit
                  (List.dropWhile isPyWS s3)).tail := by
              cases h5 : List.dropWhile Char.isDigit (List.dropWhile isPyWS s3) with
              | nil => rw [h5] at hL; simp at hL
              | cons a t =>
                rw [h5] at hL
                simp at hL
                rw [hL]
                rfl
            have t6 : List.dropWhile Char.isDigit (List.dropWhile isPyWS s3) =
                'L' :: (List.takeWhile isPyWS
                  (List.dropWhile Char.isDigit
                    (List.dropWhile isPyWS s3)).tail ++ ([','] ++ s8)) := by
              rw [← t7]
              exact e5
            have t5 : List.dropWhile isPyWS s3 =
                List.takeWhile Char.isDigit (List.dropWhile isPyWS s3) ++
                  ('L' :: (List.takeWhile isPyWS
                    (List.dropWhile Char.isDigit
                      (List.dropWhile isPyWS s3)).tail ++ ([','] ++ s8))) := by
              rw [← t6]
              exact (List.takeWhile_append_dropWhile Char.isDigit _).symm
            have t4 : s3 = List.takeWhile isPyWS s3 ++
                (List.takeWhile Char.isDigit (List.dropWhile isPyWS s3) ++
                  ('L' :: (List.takeWhile isPyWS
                    (List.dropWhile Char.isDigit
                      (List.dropWhile isPyWS s3)).tail ++ ([','] ++ s8)))) := by
              rw [← t5]
              exact (List.takeWhile_append_dropWhile isPyWS _).symm
            have t3 : List.dropWhile isPyWS s1 = ['('] ++
                (List.takeWhile isPyWS s3 ++
                  (List.takeWhile Char.isDigit (List.dropWhile isPyWS s3) ++
                    ('L' :: (List.takeWhile isPyWS
                      (List.dropWhile Char.isDigit
                        (List.dropWhile isPyWS s3)).tail ++ ([','] ++ s8))))) := by
              rw [← t4]
              exact e2
            have t2 : s1 = List.takeWhile isPyWS s1 ++ (['('] ++
                (List.takeWhile isPyWS s3 ++
                  (List.takeWhile Char.isDigit (List.dropWhile isPyWS s3) ++
                    ('L' :: (List.takeWhile isPyWS
                      (List.dropWhile Char.isDigit
                        (List.dropWhile isPyWS s3)).tail ++ ([','] ++ s8)))))) := by
              rw [← t3]
              exact (List.takeWhile_append_dropWhile isPyWS _).symm
            have t1 : s = "BizException.failed".toList ++
                (List.takeWhile isPyWS s1 ++ (['('] ++
                  (List.takeWhile isPyWS s3 ++
                    (List.takeWhile Char.isDigit (List.dropWhile isPyWS s3) ++
                      ('L' :: (List.takeWhile isPyWS
                        (List.dropWhile Char.isDigit
                          (List.dropWhile isPyWS s3)).tail ++ ([','] ++ s8))))))) := by
              rw [← t2]
              exact e1
            simpa [List.append_assoc] using t1
          · rw [if_neg hL] at h8
            have e8 : List.dropWhile isPyWS
                (List.dropWhile Char.isDigit (List.dropWhile isPyWS s3)) =
                [','] ++ s8 := expectLit_eq _ _ _ h8
            refine ⟨List.takeWhile isPyWS s1, List.takeWhile isPyWS s3, [],
              List.takeWhile isPyWS
                (List.dropWhile Char.isDigit (List.dropWhile isPyWS s3)),
              fun c hc => List.mem_takeWhile_imp hc,
              fun c hc => List.mem_takeWhile_imp hc, Or.inl rfl,
              fun c hc => List.mem_takeWhile_imp hc, ?_⟩
            have t6 : List.dropWhile Char.isDigit (List.dropWhile isPyWS s3) =
                List.takeWhile isPyWS
                  (List.dropWhile Char.isDigit (List.dropWhile isPyWS s3)) ++
                  ([','] ++ s8) := by
              rw [← e8]
              exact (List.takeWhile_append_dropWhile isPyWS _).symm
            have t5 : List.dropWhile isPyWS s3 =
                List.takeWhile Char.isDigit (List.dropWhile isPyWS s3) ++
                  (List.takeWhile isPyWS
                    (List.dropWhile Char.isDigit (List.dropWhile isPyWS s3)) ++
                    ([','] ++ s8)) := by
              rw [← t6]
              exact (List.takeWhile_append_dropWhile Char.isDigit _).symm
            have t4 : s3 = List.takeWhile isPyWS s3 ++
                (List.takeWhile Char.isDigit (List.dropWhile isPyWS s3) ++
                  (List.takeWhile isPyWS
                    (List.dropWhile Char.isDigit (List.dropWhile isPyWS s3)) ++
                    ([','] ++ s8))) := by
              rw [← t5]
              exact (List.takeWhile_append_dropWhile isPyWS _).symm
            have t3 : List.dropWhile isPyWS s1 = ['('] ++
                (List.takeWhile isPyWS s3 ++
                  (List.takeWhile Char.isDigit (List.dropWhile isPyWS s3) ++
                    (List.takeWhile isPyWS
                      (List.dropWhile Char.isDigit (List.dropWhile isPyWS s3)) ++
                      ([','] ++ s8)))) := by
              rw [← t4]
              exact e2
            have t2 : s1 = List.takeWhile isPyWS s1 ++ (['('] ++
                (List.takeWhile isPyWS s3 ++
                  (List.takeWhile Char.isDigit (List.dropWhile isPyWS s3) ++
                    (List.takeWhile isPyWS
                      (List.dropWhile Char.isDigit (List.dropWhile isPyWS s3)) ++
                      ([','] ++ s8))))) := by
              rw [← t3]
              exact (List.takeWhile_append_dropWhile isPyWS _).symm
            have t1 : s = "BizException.failed".toList ++
                (List.takeWhile isPyWS s1 ++ (['('] ++
                  (List.takeWhile isPyWS s3 ++
                    (List.takeWhile Char.isDigit (List.dropWhile isPyWS s3) ++
                      (List.takeWhile isPyWS
                        (List.dropWhile Char.isDigit (List.dropWhile isPyWS s3)) ++
                        ([','] ++ s8)))))) := by
              rw [← t2]
              exact e1
            simpa [List.append_assoc] using t1

theorem findInlineGo_sound (code : List Char) :
    ∀ fuel s, code ∈ findInlineGo fuel s →
      ∃ u t r, s = u ++ t ∧ parseInlineAt t = some (code, r) := by
  intro fuel
  induction fuel with
  | zero => intro s h; simp [findInlineGo] at h
  | succ fuel ih =>
    intro s h
    match s with
    | [] => simp [findInlineGo] at h
    | c :: rest =>
      rcases hp : parseInlineAt (c :: rest) with _ | ⟨code0, r0⟩
      · rw [findInlineGo, hp] at h
        obtain ⟨u, t, r, hsplit, hparse⟩ := ih rest h
        exact ⟨c :: u, t, r, by rw [hsplit]; rfl, hparse⟩
      · rw [findInlineGo, hp] at h
        rcases List.mem_cons.mp h with h | h
        · subst h
          exact ⟨[], c :: rest, r0, by simp, hp⟩
        · obtain ⟨u, t, r, hsplit, hparse⟩ := ih r0 h
          obtain ⟨-, -, ws1, ws2, optL, ws3, -, -, -, -, hs⟩ :=
            parseInlineAt_sound _ _ _ hp
          refine ⟨("BizException.failed".toList ++ ws1 ++ ['('] ++ ws2 ++
            code0 ++ optL ++ ws3 ++ [',']) ++ u, t, r, ?_, hparse⟩
          rw [hs, hsplit]
          simp [List.append_assoc]

/-- Claim C10: a `BizException.failed(` call whose first argument is an
`ERROR_` constant reference contributes no inline occurrence — in fact a
line matched by the constant-reference guard contributes only
constant-definition occurrences — and every inline occurrence recorded
for a line is a bare nonempty numeric literal that appears in the line as
the first argument of a `BizException.failed(` call, optionally suffixed
with `L`. -/
theorem claim_C10 (fp : List Char) (n : Nat) (line : List Char) :
    (hasFailedErrorRef line = true →
      ∀ q ∈ lineOccurrences fp n line, q.2.is_constant_def = true) ∧
    (∀ q ∈ lineOccurrences fp n line, q.2.is_constant_def = false →
      q.1 ≠ [] ∧ (∀ c ∈ q.1, c.isDigit = true) ∧
      ∃ u ws1 ws2 optL ws3 v,
        (∀ c ∈ ws1, isPyWS c = true) ∧ (∀ c ∈ ws2, isPyWS c = true) ∧
        (optL = [] ∨ optL = ['L']) ∧ (∀ c ∈ ws3, isPyWS c = true) ∧
        line = u ++ "BizException.failed".toList ++ ws1 ++ ['('] ++ ws2 ++
          q.1 ++ optL ++ ws3 ++ [','] ++ v) := by
  constructor
  · intro href q hq
    unfold lineOccurrences at hq
    rw [href] at hq
    rcases List.mem_append.mp hq with hq | hq
    · rcases List.mem_map.mp hq with ⟨m, _, hm⟩
      rw [← hm]
    · split at hq <;> simp at hq
  · intro q hq hdef
    unfold lineOccurrences at hq
    rcases List.mem_append.mp hq with hq | hq
    · rcases List.mem_map.mp hq with ⟨m, _, hm⟩
      rw [← hm] at hdef
      simp at hdef
    · by_cases h1 : containsSub "BizException.failed(".toList line = true
      · rw [h1] at hq
        simp only [if_true] at hq
        by_cases h2 : hasFailedErrorRef line = true
        · rw [h2] at hq
          simp at hq
        · rw [Bool.eq_false_iff.mpr h2] at hq
          simp only [Bool.false_eq_true, if_false] at hq
          rcases List.mem_map.mp hq with ⟨code, hcode, hm⟩
          obtain ⟨u, t, r, hsplit, hparse⟩ :=
            findInlineGo_sound code line.length line hcode
          obtain ⟨hne, hdig, ws1, ws2, optL, ws3, hw1, hw2, hopt, hw3, hdec⟩ :=
            parseInlineAt_sound t code r hparse
          have hq1 : q.1 = code := by rw [← hm]
          rw [hq1]
          refine ⟨hne, hdig, u, ws1, ws2, optL, ws3, r,
            hw1, hw2, hopt, hw3, ?_⟩
          rw [hsplit, hdec]
          simp [List.append_assoc]
      · rw [Bool.eq_false_iff.mpr h1] at hq
        simp at hq

/-- Instantiation of `claim_C10` on a line that passes its first argument
as an `ERROR_` constant reference: nothing inline is recorded, every
occurrence of the line is a constant definition (here: none at all). -/
theorem claim_C10_witness :
    hasFailedErrorRef "throw BizException.failed(ERROR_X, m);".toList = true ∧
    ∀ q ∈ lineOccurrences "A.java".toList 1
        "throw BizException.failed(ERROR_X, m);".toList,
      q.2.is_constant_def = true :=
  ⟨by decide,
    (claim_C10 "A.java".toList 1
      "throw BizException.failed(ERROR_X, m);".toList).1 (by decide)⟩

/-! ### Fix-mode completeness (C1) -/

/-- A one-file tree with a duplicated inline code whose second occurrence
is written with a space after the opening parenthesis. -/
def c1tree : List (List Char × List (List Char)) :=
  [("A.java".toList,
    [("throw BizException.failed(5L, a);").toList,
     ("throw BizException.failed( 5L, b);").toList])]

/-- Claim C1 counterexample: the scanner's inline regex accepts optional
whitespace (`\s*`) inside the call, but the patcher replaces only the
exact texts `BizException.failed(code L,` / `BizException.failed(code,`.
On `c1tree` the second occurrence of code 5 is matched by the scan, a
change is produced for it, yet the patch leaves the line untouched, so
the re-built index still shows two occurrences — refuting "after fix
mode every code has occurrence count exactly 1". -/
theorem claim_C1_counterexample :
    (lookupOccs (find_all_error_codes c1tree) "5".toList).length = 2 ∧
    (resolver_fix_run c1tree "20251218".toList 20).map
      (fun r => (lookupOccs (find_all_error_codes r.2) "5".toList).length) =
      some 2 := by decide

/-- Canonical line shapes for which the Resolver's scan and patch agree:
a line free of both patterns, an `ERROR_` constant definition, or an
inline call in exact (whitespace-free) form. -/
inductive LineSpec where
  | inertL (s : List Char)
  | constL (nm code : List Char)
  | inlineL (pre code post : List Char)
  deriving Repr, DecidableEq

/-- The actual text of a canonical line. -/
def renderLine : LineSpec → List Char
  | .inertL s => s
  | .constL nm code =>
      "private static final long ERROR_".toList ++ nm ++ " = ".toList ++
        code ++ "L;".toList
  | .inlineL pre code post =>
      pre ++ "BizException.failed(".toList ++ code ++ "L,".toList ++ post

/-- Well-formedness of a canonical line: an inert line matches neither
pattern; a constant definition has an uppercase/underscore name suffix
and an all-digit code; an inline call has an all-digit code and context
free of `B` (no other call can start there) and `v` (no constant
definition can occur). -/
def lineOK : LineSpec → Bool
  | .inertL s => (findConst s == []) && (findInline s == [])
  | .constL nm code =>
      !nm.isEmpty && nm.all (fun c => wordChar c && !c.isDigit && !(c == '.')) &&
      !code.isEmpty && code.all Char.isDigit
  | .inlineL pre code post =>
      !code.isEmpty && code.all Char.isDigit &&
      pre.all (fun c => !(c == 'B') && !(c == 'v')) &&
      post.all (fun c => !(c == 'B') && !(c == 'v'))

/-- The error code carried by a canonical line, if any. -/
def specCode : LineSpec → Option (List Char)
  | .inertL _ => none
  | .constL _ code => some code
  | .inlineL _ code _ => some code

/-- Replace the code of a canonical line (no-op on inert lines). -/
def withCode : LineSpec → List Char → LineSpec
  | .inertL s, _ => .inertL s
  | .constL nm _, nc => .constL nm nc
  | .inlineL pre _ post, nc => .inlineL pre nc post

/-- The occurrences the scanner extracts from a canonical line. -/
def specOcc (fp : List Char) (n : Nat) : LineSpec → List (List Char × ErrorCodeLocation)
  | .inertL _ => []
  | .constL nm code =>
      [(code, ⟨fp, n, pyStrip (renderLine (.constL nm code)),
        some ("ERROR_".toList ++ nm), true⟩)]
  | .inlineL pre code post =>
      [(code, ⟨fp, n, pyStrip (renderLine (.inlineL pre code post)), none, false⟩)]

/-- The codes contributed by a canonical line (at most one). -/
def lineCode : LineSpec → List (List Char)
  | .inertL _ => []
  | .constL _ code => [code]
  | .inlineL _ code _ => [code]

/-! ### Canonical-tree analysis of fix mode (C1, amended) -/

theorem expectLit_self (lit r : List Char) : expectLit lit (lit ++ r) = some r := by
  simp [expectLit, isPrefixOf_append_self, List.drop_left]

theorem takeWhile_append_cons (p : Char → Bool) (a : List Char) (c : Char)
    (t : List Char) (ha : ∀ x ∈ a, p x = true) (hc : p c = false) :
    List.takeWhile p (a ++ c :: t) = a := by
  induction a with
  | nil => simp [List.takeWhile_cons, hc]
  | cons x a ih =>
    rw [List.cons_append, List.takeWhile_cons, ha x (List.mem_cons_self x a)]
    simp only [if_true]
    rw [ih (fun y hy => ha y (List.mem_cons_of_mem x hy))]

theorem dropWhile_append_cons (p : Char → Bool) (a : List Char) (c : Char)
    (t : List Char) (ha : ∀ x ∈ a, p x = true) (hc : p c = false) :
    List.dropWhile p (a ++ c :: t) = c :: t := by
  induction a with
  | nil => simp [List.dropWhile_cons, hc]
  | cons x a ih =>
    rw [List.cons_append, List.dropWhile_cons, ha x (List.mem_cons_self x a)]
    simp only [if_true]
    exact ih (fun y hy => ha y (List.mem_cons_of_mem x hy))

theorem isPyWS_false_of_isDigit (c : Char) (h : c.isDigit = true) :
    isPyWS c = false := by
  have h1 : c ≠ ' ' := ne_of_isDigit c ' ' h (by decide)
  have h2 : c ≠ '\t' := ne_of_isDigit c '\t' h (by decide)
  have h3 : c ≠ '\n' := ne_of_isDigit c '\n' h (by decide)
  have h4 : c ≠ '\r' := ne_of_isDigit c '\r' h (by decide)
  have h5 : c ≠ Char.ofNat 11 := ne_of_isDigit c (Char.ofNat 11) h (by decide)
  have h6 : c ≠ Char.ofNat 12 := ne_of_isDigit c (Char.ofNat 12) h (by decide)
  simp [isPyWS, h1, h2, h3, h4, h5, h6]

theorem parseInlineAt_render (code post : List Char) (hne : code ≠ [])
    (hdig : ∀ c ∈ code, c.isDigit = true) :
    parseInlineAt ("BizException.failed(".toList ++
      (code ++ ("L,".toList ++ post))) = some (code, post) := by
  cases code with
  | nil => exact absurd rfl hne
  | cons d code' =>
    have hd : d.isDigit = true := hdig d (List.mem_cons_self _ _)
    unfold parseInlineAt
    rw [show "BizException.failed(".toList ++ ((d :: code') ++ ("L,".toList ++ post)) =
      "BizException.failed".toList ++ ('(' :: ((d :: code') ++ ('L' :: ',' :: post)))
      from rfl]
    rw [expectLit_self]
    simp only []
    rw [show List.dropWhile isPyWS ('(' :: ((d :: code') ++ ('L' :: ',' :: post))) =
      '(' :: ((d :: code') ++ ('L' :: ',' :: post)) from rfl]
    rw [show ('(' :: ((d :: code') ++ ('L' :: ',' :: post))) =
      "(".toList ++ ((d :: code') ++ ('L' :: ',' :: post)) from rfl]
    rw [expectLit_self]
    simp only []
    rw [show List.dropWhile isPyWS ((d :: code') ++ ('L' :: ',' :: post)) =
      List.dropWhile isPyWS (d :: (code' ++ ('L' :: ',' :: post))) from rfl]
    rw [List.dropWhile_cons, isPyWS_false_of_isDigit d hd]
    simp only [Bool.false_eq_true, if_false]
    rw [show (d :: (code' ++ ('L' :: ',' :: post))) =
      ((d :: code') ++ ('L' :: ',' :: post)) from rfl]
    rw [takeWhile_append_cons Char.isDigit (d :: code') 'L' (',' :: post) hdig
      (by decide)]
    rw [dropWhile_append_cons Char.isDigit (d :: code') 'L' (',' :: post) hdig
      (by decide)]
    simp only [List.isEmpty_cons, Bool.false_eq_true, if_false]
    rw [show (if ('L' :: ',' :: post).head? = some 'L' then ('L' :: ',' :: post).tail
        else 'L' :: ',' :: post) = ',' :: post from by simp]
    rw [show List.dropWhile isPyWS (',' :: post) = ",".toList ++ post from rfl]
    rw [expectLit_self]

theorem parseRefAt_render_false (code X : List Char) (hne : code ≠ [])
    (hdig : ∀ c ∈ code, c.isDigit = true) :
    parseRefAt ("BizException.failed(".toList ++ (code ++ X)) = false := by
  cases code with
  | nil => exact absurd rfl hne
  | cons d code' =>
    have hd : d.isDigit = true := hdig d (List.mem_cons_self _ _)
    unfold parseRefAt
    rw [show "BizException.failed(".toList ++ ((d :: code') ++ X) =
      "BizException.failed".toList ++ ('(' :: ((d :: code') ++ X)) from rfl]
    rw [expectLit_self]
    simp only []
    rw [show List.dropWhile isPyWS ('(' :: ((d :: code') ++ X)) =
      "(".toList ++ ((d :: code') ++ X) from rfl]
    rw [expectLit_self]
    simp only []
    rw [show List.dropWhile isPyWS ((d :: code') ++ X) =
      List.dropWhile isPyWS (d :: (code' ++ X)) from rfl]
    rw [List.dropWhile_cons, isPyWS_false_of_isDigit d hd]
    simp only [Bool.false_eq_true, if_false]
    rw [show "ERROR_".toList = 'E' :: "RROR_".toList from rfl]
    rw [isPrefixOf_cons_cons]
    have : ('E' == d) = false := by
      have hne2 : 'E' ≠ d := Ne.symm (ne_of_isDigit d 'E' hd (by decide))
      exact beq_eq_false_iff_ne.mpr hne2
    rw [this]
    simp

theorem parseConstAt_render (nm code : List Char) (hnm : nm ≠ [])
    (hword : ∀ c ∈ nm, wordChar c = true)
    (hcode : code ≠ []) (hdig : ∀ c ∈ code, c.isDigit = true) :
    parseConstAt ("private static final long ERROR_".toList ++
      (nm ++ (" = ".toList ++ (code ++ "L;".toList)))) =
      some ("ERROR_".toList ++ nm, code, []) := by
  cases nm with
  | nil => exact absurd rfl hnm
  | cons a nm' =>
  cases code with
  | nil => exact absurd rfl hcode
  | cons d code' =>
  unfold parseConstAt
  rw [show "private static final long ERROR_".toList ++
      ((a :: nm') ++ (" = ".toList ++ ((d :: code') ++ "L;".toList))) =
    ("private".toList ++ (' ' :: ("static".toList ++ (' ' :: ("final".toList ++ (' ' :: ("long".toList ++ (' ' :: ("ERROR_".toList ++ ((a :: nm') ++ (' ' :: '=' :: ' ' :: ((d :: code') ++ ('L' :: [';']))))))))))))) from rfl]
  rw [expectLit_self]
  simp only []
  rw [show expectWS1 (' ' :: ("static".toList ++ (' ' :: ("final".toList ++ (' ' :: ("long".toList ++ (' ' :: ("ERROR_".toList ++ ((a :: nm') ++ (' ' :: '=' :: ' ' :: ((d :: code') ++ ('L' :: [';'])))))))))))) = some ("static".toList ++ (' ' :: ("final".toList ++ (' ' :: ("long".toList ++ (' ' :: ("ERROR_".toList ++ ((a :: nm') ++ (' ' :: '=' :: ' ' :: ((d :: code') ++ ('L' :: [';']))))))))))) from rfl]
  simp only []
  rw [expectLit_self]
  simp only []
  rw [show expectWS1 (' ' :: ("final".toList ++ (' ' :: ("long".toList ++ (' ' :: ("ERROR_".toList ++ ((a :: nm') ++ (' ' :: '=' :: ' ' :: ((d :: code') ++ ('L' :: [';'])))))))))) = some ("final".toList ++ (' ' :: ("long".toList ++ (' ' :: ("ERROR_".toList ++ ((a :: nm') ++ (' ' :: '=' :: ' ' :: ((d :: code') ++ ('L' :: [';']))))))))) from rfl]
  simp only []
  rw [expectLit_self]
  simp only []
  rw [show expectWS1 (' ' :: ("long".toList ++ (' ' :: ("ERROR_".toList ++ ((a :: nm') ++ (' ' :: '=' :: ' ' :: ((d :: code') ++ ('L' :: [';'])))))))) = some ("long".toList ++ (' ' :: ("ERROR_".toList ++ ((a :: nm') ++ (' ' :: '=' :: ' ' :: ((d :: code') ++ ('L' :: [';']))))))) from rfl]
  simp only []
  rw [expectLit_self]
  simp only []
  rw [show expectWS1 (' ' :: ("ERROR_".toList ++ ((a :: nm') ++ (' ' :: '=' :: ' ' :: ((d :: code') ++ ('L' :: [';'])))))) = some ("ERROR_".toList ++ ((a :: nm') ++ (' ' :: '=' :: ' ' :: ((d :: code') ++ ('L' :: [';']))))) from rfl]
  simp only []
  rw [expectLit_self]
  simp only []
  rw [takeWhile_append_cons wordChar (a :: nm') ' '
    ('=' :: ' ' :: ((d :: code') ++ ('L' :: [';']))) hword (by decide)]
  rw [dropWhile_append_cons wordChar (a :: nm') ' '
    ('=' :: ' ' :: ((d :: code') ++ ('L' :: [';']))) hword (by decide)]
  simp only [List.isEmpty_cons, Bool.false_eq_true, if_false]
  rw [show List.dropWhile isPyWS (' ' :: '=' :: ' ' :: ((d :: code') ++ ('L' :: [';']))) =
    "=".toList ++ (' ' :: ((d :: code') ++ ('L' :: [';']))) from rfl]
  rw [expectLit_self]
  simp only []
  rw [show List.dropWhile isPyWS (' ' :: ((d :: code') ++ ('L' :: [';']))) =
    List.dropWhile isPyWS (d :: (code' ++ ('L' :: [';']))) from rfl]
  rw [List.dropWhile_cons, isPyWS_false_of_isDigit d (hdig d (List.mem_cons_self _ _))]
  simp only [Bool.false_eq_true, if_false]
  rw [show (d :: (code' ++ ('L' :: [';']))) = ((d :: code') ++ ('L' :: [';'])) from rfl]
  rw [takeWhile_append_cons Char.isDigit (d :: code') 'L' [';'] hdig (by decide)]
  rw [dropWhile_append_cons Char.isDigit (d :: code') 'L' [';'] hdig (by decide)]
  simp only [List.isEmpty_cons, Bool.false_eq_true, if_false]
  rw [show List.dropWhile isPyWS [';'] = ";".toList ++ ([] : List Char) from rfl]
  rw [expectLit_self]

theorem parseInlineAt_missing (s : List Char) (pr : List Char × List Char)
    (x : Char) (hx : x ∈ "BizException.failed".toList)
    (h : parseInlineAt s = some pr) : x ∈ s := by
  unfold parseInlineAt at h
  split at h
  · exact absurd h (by simp)
  · rename_i s1 h1
    rw [expectLit_eq _ _ _ h1]
    exact List.mem_append.mpr (Or.inl hx)

theorem parseInlineAt_head (c : Char) (t : List Char)
    (pr : List Char × List Char) (h : parseInlineAt (c :: t) = some pr) :
    c = 'B' := by
  have := parseInlineAt_missing (c :: t) pr 'B' (by decide) h
  unfold parseInlineAt at h
  split at h
  · exact absurd h (by simp)
  · rename_i s1 h1
    have he := expectLit_eq _ _ _ h1
    rw [show "BizException.failed".toList = 'B' :: "izException.failed".toList
      from rfl] at he
    rw [List.cons_append] at he
    exact (List.cons.injEq _ _ _ _ ▸ he).1

theorem parseConstAt_missing (s : List Char)
    (pr : List Char × List Char × List Char) (x : Char)
    (hx : x ∈ "private".toList) (h : parseConstAt s = some pr) : x ∈ s := by
  unfold parseConstAt at h
  split at h
  · exact absurd h (by simp)
  · rename_i s1 h1
    rw [expectLit_eq _ _ _ h1]
    exact List.mem_append.mpr (Or.inl hx)

theorem parseRefAt_head (c : Char) (t : List Char)
    (h : parseRefAt (c :: t) = true) : c = 'B' := by
  unfold parseRefAt at h
  split at h
  · exact absurd h (by simp)
  · rename_i s1 h1
    have he := expectLit_eq _ _ _ h1
    rw [show "BizException.failed".toList = 'B' :: "izException.failed".toList
      from rfl] at he
    rw [List.cons_append] at he
    exact (List.cons.injEq _ _ _ _ ▸ he).1

theorem findInlineGo_eq_nil (x : Char) (hx : x ∈ "BizException.failed".toList) :
    ∀ fuel s, (∀ c ∈ s, c ≠ x) → findInlineGo fuel s = [] := by
  intro fuel
  induction fuel with
  | zero => intro s h; cases s <;> rfl
  | succ f ih =>
    intro s h
    match s with
    | [] => rfl
    | c :: rest =>
      rw [findInlineGo]
      cases hp : parseInlineAt (c :: rest) with
      | some pr =>
        exact absurd (parseInlineAt_missing _ _ x hx hp)
          (fun hm => h x hm rfl)
      | none =>
        exact ih rest (fun c2 hc2 => h c2 (List.mem_cons_of_mem c hc2))

theorem findInline_eq_nil (x : Char) (hx : x ∈ "BizException.failed".toList)
    (s : List Char) (h : ∀ c ∈ s, c ≠ x) : findInline s = [] :=
  findInlineGo_eq_nil x hx s.length s h

theorem findConstGo_eq_nil (x : Char) (hx : x ∈ "private".toList) :
    ∀ fuel s, (∀ c ∈ s, c ≠ x) → findConstGo fuel s = [] := by
  intro fuel
  induction fuel with
  | zero => intro s h; cases s <;> rfl
  | succ f ih =>
    intro s h
    match s with
    | [] => rfl
    | c :: rest =>
      rw [findConstGo]
      cases hp : parseConstAt (c :: rest) with
      | some pr =>
        exact absurd (parseConstAt_missing _ _ x hx hp)
          (fun hm => h x hm rfl)
      | none =>
        exact ih rest (fun c2 hc2 => h c2 (List.mem_cons_of_mem c hc2))

theorem findConst_eq_nil (x : Char) (hx : x ∈ "private".toList)
    (s : List Char) (h : ∀ c ∈ s, c ≠ x) : findConst s = [] :=
  findConstGo_eq_nil x hx s.length s h

theorem hasRef_cons (c : Char) (t : List Char) :
    hasFailedErrorRef (c :: t) = (parseRefAt (c :: t) || hasFailedErrorRef t) := by
  unfold hasFailedErrorRef
  rw [List.tails_cons, List.any_cons]

theorem hasRef_eq_false (s : List Char) (h : ∀ c ∈ s, c ≠ 'B') :
    hasFailedErrorRef s = false := by
  induction s with
  | nil => rfl
  | cons c t ih =>
    rw [hasRef_cons]
    have h1 : parseRefAt (c :: t) = false := by
      cases hp : parseRefAt (c :: t) with
      | false => rfl
      | true => exact absurd (parseRefAt_head c t hp) (h c (List.mem_cons_self _ _))
    rw [h1, ih (fun c2 hc2 => h c2 (List.mem_cons_of_mem c hc2))]
    rfl

theorem hasRef_append (a X : List Char) (h : ∀ c ∈ a, c ≠ 'B') :
    hasFailedErrorRef (a ++ X) = hasFailedErrorRef X := by
  induction a with
  | nil => rfl
  | cons c a ih =>
    rw [List.cons_append, hasRef_cons]
    have h1 : parseRefAt (c :: (a ++ X)) = false := by
      cases hp : parseRefAt (c :: (a ++ X)) with
      | false => rfl
      | true => exact absurd (parseRefAt_head _ _ hp) (h c (List.mem_cons_self _ _))
    rw [h1, ih (fun c2 hc2 => h c2 (List.mem_cons_of_mem c hc2))]
    rfl

theorem findInline_append (a X : List Char) (h : ∀ c ∈ a, c ≠ 'B') :
    findInline (a ++ X) = findInline X := by
  induction a with
  | nil => rfl
  | cons c a ih =>
    rw [List.cons_append]
    show findInlineGo (c :: (a ++ X)).length (c :: (a ++ X)) = findInline X
    rw [List.length_cons, findInlineGo]
    cases hp : parseInlineAt (c :: (a ++ X)) with
    | some pr =>
      exact absurd (parseInlineAt_head _ _ _ hp) (h c (List.mem_cons_self _ _))
    | none =>
      exact ih (fun c2 hc2 => h c2 (List.mem_cons_of_mem c hc2))

theorem parseInlineAt_rest_lt (s : List Char) (code r : List Char)
    (h : parseInlineAt s = some (code, r)) : r.length < s.length := by
  obtain ⟨-, -, ws1, ws2, optL, ws3, -, -, -, -, hdec⟩ :=
    parseInlineAt_sound s code r h
  rw [hdec]
  simp [List.length_append]
  omega

theorem findInlineGo_fuel : ∀ fuel : Nat, ∀ s : List Char,
    s.length ≤ fuel → findInlineGo fuel s = findInline s := by
  intro fuel
  induction fuel using Nat.strong_induction_on with
  | _ fuel ih =>
    intro s h
    match fuel, s, h with
    | 0, s, h =>
      rw [List.length_eq_zero.mp (Nat.le_zero.mp h)]
      rfl
    | f + 1, [], h => cases f <;> rfl
    | f + 1, c :: rest, h =>
      show findInlineGo (f + 1) (c :: rest) =
        findInlineGo (rest.length + 1) (c :: rest)
      rw [findInlineGo, findInlineGo]
      cases hp : parseInlineAt (c :: rest) with
      | none =>
        simp only []
        have h1 : findInlineGo f rest = findInline rest :=
          ih f (by omega) rest (by simp at h; omega)
        have h2 : findInlineGo rest.length rest = findInline rest :=
          ih rest.length (by simp at h; omega) rest (Nat.le_refl _)
        rw [h1, h2]
      | some pr =>
        obtain ⟨code, r⟩ := pr
        simp only []
        have hlt : r.length < (c :: rest).length :=
          parseInlineAt_rest_lt _ _ _ hp
        have h1 : findInlineGo f r = findInline r :=
          ih f (by omega) r (by simp at h hlt; omega)
        have h2 : findInlineGo rest.length r = findInline r :=
          ih rest.length (by simp at h; omega) r (by simp at hlt; omega)
        rw [h1, h2]

theorem containsSub_append_mid (pat a b : List Char) :
    containsSub pat (a ++ (pat ++ b)) = true := by
  unfold containsSub
  refine List.any_eq_true.mpr ⟨pat ++ b, ?_, isPrefixOf_append_self pat b⟩
  exact (List.mem_tails _ _).mpr ⟨a, rfl⟩

theorem findInline_render (pre code post : List Char)
    (hpre : ∀ c ∈ pre, c ≠ 'B') (hne : code ≠ [])
    (hdig : ∀ c ∈ code, c.isDigit = true) (hpost : ∀ c ∈ post, c ≠ 'B') :
    findInline (pre ++ ("BizException.failed(".toList ++
      (code ++ ("L,".toList ++ post)))) = [code] := by
  rw [findInline_append pre _ hpre]
  rw [show "BizException.failed(".toList ++ (code ++ ("L,".toList ++ post)) =
    'B' :: ("izException.failed(".toList ++ (code ++ ('L' :: ',' :: post)))
    from rfl]
  show findInlineGo _ _ = [code]
  rw [List.length_cons, findInlineGo]
  rw [show ('B' :: ("izException.failed(".toList ++ (code ++ ('L' :: ',' :: post)))) =
    "BizException.failed(".toList ++ (code ++ ("L,".toList ++ post)) from rfl]
  rw [parseInlineAt_render code post hne hdig]
  simp only []
  rw [findInlineGo_fuel _ post (by simp [List.length_append]; omega)]
  rw [show findInline post = findInlineGo post.length post from rfl]
  rw [findInlineGo_eq_nil 'B' (by decide) post.length post hpost]

theorem hasRef_render_false (pre code post : List Char)
    (hpre : ∀ c ∈ pre, c ≠ 'B') (hne : code ≠ [])
    (hdig : ∀ c ∈ code, c.isDigit = true) (hpost : ∀ c ∈ post, c ≠ 'B') :
    hasFailedErrorRef (pre ++ ("BizException.failed(".toList ++
      (code ++ ("L,".toList ++ post)))) = false := by
  rw [hasRef_append pre _ hpre]
  rw [show "BizException.failed(".toList ++ (code ++ ("L,".toList ++ post)) =
    'B' :: ("izException.failed(".toList ++ (code ++ ('L' :: ',' :: post)))
    from rfl]
  rw [hasRef_cons]
  rw [show ('B' :: ("izException.failed(".toList ++ (code ++ ('L' :: ',' :: post)))) =
    "BizException.failed(".toList ++ ((code ++ ('L' :: ',' :: post))) from rfl]
  rw [parseRefAt_render_false code _ hne hdig]
  have hfree : ∀ c ∈ "izException.failed(".toList ++ (code ++ ('L' :: ',' :: post)),
      c ≠ 'B' := by
    intro c hc
    rcases List.mem_append.mp hc with hc | hc
    · intro he; subst he; revert hc; decide
    · rcases List.mem_append.mp hc with hc | hc
      · exact ne_of_isDigit c 'B' (hdig c hc) (by decide)
      · rcases List.mem_cons.mp hc with hc | hc
        · subst hc; decide
        · rcases List.mem_cons.mp hc with hc | hc
          · subst hc; decide
          · exact hpost c hc
  rw [hasRef_eq_false _ hfree]
  rfl

theorem findConstGo_nil : ∀ fuel : Nat, findConstGo fuel [] = [] := by
  intro fuel
  cases fuel <;> rfl

theorem scanLine (fp : List Char) (n : Nat) (sp : LineSpec)
    (h : lineOK sp = true) :
    lineOccurrences fp n (renderLine sp) = specOcc fp n sp := by
  cases sp with
  | inertL s =>
    simp only [lineOK, Bool.and_eq_true, beq_iff_eq] at h
    unfold lineOccurrences renderLine specOcc
    rw [h.1, h.2]
    simp only [List.map_nil, List.nil_append]
    split
    · split
      · rfl
      · simp
    · rfl
  | constL nm code =>
    simp only [lineOK, Bool.and_eq_true, Bool.not_eq_true',
      List.all_eq_true, beq_iff_eq] at h
    obtain ⟨⟨⟨hnm, hnmc⟩, hcode⟩, hdig⟩ := h
    have hword : ∀ c ∈ nm, wordChar c = true := fun c hc => (hnmc c hc).1.1
    have hnmdig : ∀ c ∈ nm, c.isDigit = false := fun c hc => (hnmc c hc).1.2
    have hnmdot : ∀ c ∈ nm, c ≠ '.' := fun c hc => by
      have := (hnmc c hc).2
      simp at this
      exact this
    have hnm2 : nm ≠ [] := by
      intro he
      rw [he] at hnm
      exact absurd hnm (by decide)
    have hcode2 : code ≠ [] := by
      intro he
      rw [he] at hcode
      exact absurd hcode (by decide)
    unfold lineOccurrences renderLine specOcc
    simp only [List.append_assoc]
    have hfc : findConst ("private static final long ERROR_".toList ++
        (nm ++ (" = ".toList ++ (code ++ "L;".toList)))) =
        [("ERROR_".toList ++ nm, code)] := by
      show findConstGo _ _ = _
      rw [show "private static final long ERROR_".toList ++
          (nm ++ (" = ".toList ++ (code ++ "L;".toList))) =
        'p' :: ("rivate static final long ERROR_".toList ++
          (nm ++ (" = ".toList ++ (code ++ "L;".toList)))) from rfl]
      rw [List.length_cons, findConstGo]
      rw [show ('p' :: ("rivate static final long ERROR_".toList ++
          (nm ++ (" = ".toList ++ (code ++ "L;".toList))))) =
        "private static final long ERROR_".toList ++
          (nm ++ (" = ".toList ++ (code ++ "L;".toList))) from rfl]
      rw [parseConstAt_render nm code hnm2 hword hcode2 hdig]
      simp only []
      rw [findConstGo_nil]
    have hdot : ∀ c ∈ "private static final long ERROR_".toList ++
        (nm ++ (" = ".toList ++ (code ++ "L;".toList))), c ≠ '.' := by
      intro c hc
      rcases List.mem_append.mp hc with hc | hc
      · intro he; subst he; revert hc; decide
      · rcases List.mem_append.mp hc with hc | hc
        · exact hnmdot c hc
        · rcases List.mem_append.mp hc with hc | hc
          · intro he; subst he; revert hc; decide
          · rcases List.mem_append.mp hc with hc | hc
            · exact ne_of_isDigit c '.' (hdig c hc) (by decide)
            · intro he; subst he; revert hc; decide
    have hfi : findInline ("private static final long ERROR_".toList ++
        (nm ++ (" = ".toList ++ (code ++ "L;".toList)))) = [] :=
      findInline_eq_nil '.' (by decide) _ hdot
    rw [hfc, hfi]
    simp only [List.map_cons, List.map_nil]
    split
    · split
      · simp [renderLine, List.append_assoc]
      · simp [renderLine, List.append_assoc]
    · simp [renderLine, List.append_assoc]
  | inlineL pre code post =>
    simp only [lineOK, Bool.and_eq_true, Bool.not_eq_true',
      List.all_eq_true, beq_iff_eq] at h
    obtain ⟨⟨⟨hcode, hdig⟩, hpre⟩, hpost⟩ := h
    have hcode2 : code ≠ [] := by
      intro he
      rw [he] at hcode
      exact absurd hcode (by decide)
    have hpreB : ∀ c ∈ pre, c ≠ 'B' := fun c hc => by
      have := (hpre c hc).1
      simp at this
      exact this
    have hpreV : ∀ c ∈ pre, c ≠ 'v' := fun c hc => by
      have := (hpre c hc).2
      simp at this
      exact this
    have hpostB : ∀ c ∈ post, c ≠ 'B' := fun c hc => by
      have := (hpost c hc).1
      simp at this
      exact this
    have hpostV : ∀ c ∈ post, c ≠ 'v' := fun c hc => by
      have := (hpost c hc).2
      simp at this
      exact this
    unfold lineOccurrences renderLine specOcc
    simp only [List.append_assoc]
    have hv : ∀ c ∈ pre ++ ("BizException.failed(".toList ++
        (code ++ ("L,".toList ++ post))), c ≠ 'v' := by
      intro c hc
      rcases List.mem_append.mp hc with hc | hc
      · exact hpreV c hc
      · rcases List.mem_append.mp hc with hc | hc
        · intro he; subst he; revert hc; decide
        · rcases List.mem_append.mp hc with hc | hc
          · exact ne_of_isDigit c 'v' (hdig c hc) (by decide)
          · rcases List.mem_append.mp hc with hc | hc
            · intro he; subst he; revert hc; decide
            · exact hpostV c hc
    have hfc : findConst (pre ++ ("BizException.failed(".toList ++
        (code ++ ("L,".toList ++ post)))) = [] :=
      findConst_eq_nil 'v' (by decide) _ hv
    have hcs : containsSub "BizException.failed(".toList
        (pre ++ ("BizException.failed(".toList ++
          (code ++ ("L,".toList ++ post)))) = true :=
      containsSub_append_mid _ pre _
    have href : hasFailedErrorRef (pre ++ ("BizException.failed(".toList ++
        (code ++ ("L,".toList ++ post)))) = false :=
      hasRef_render_false pre code post hpreB hcode2 hdig hpostB
    have hfi : findInline (pre ++ ("BizException.failed(".toList ++
        (code ++ ("L,".toList ++ post)))) = [code] :=
      findInline_render pre code post hpreB hcode2 hdig hpostB
    rw [hfc, hcs, href, hfi]
    simp [renderLine, List.append_assoc]

theorem isDigit_false_ne (d x : Char) (hd : d.isDigit = true)
    (hx : x.isDigit = false) : x ≠ d :=
  Ne.symm (ne_of_isDigit d x hd hx)

theorem pyReplaceFirst_head (c : Char) (pat' new P T : List Char)
    (hP : ∀ x ∈ P, x ≠ c) :
    pyReplaceFirst (c :: pat') new (P ++ ((c :: pat') ++ T)) =
      P ++ (new ++ T) := by
  induction P with
  | nil =>
    simp only [List.nil_append]
    show replaceFirstGo _ _ ((c :: pat') ++ T).length _ = _
    rw [show (c :: pat') ++ T = c :: (pat' ++ T) from rfl, List.length_cons,
      replaceFirstGo]
    rw [show (c :: (pat' ++ T)) = (c :: pat') ++ T from rfl]
    rw [isPrefixOf_append_self]
    simp only [if_true]
    rw [show (c :: pat').length - 1 = pat'.length from by simp]
    rw [List.drop_left]
  | cons x P ih =>
    rw [List.cons_append]
    show replaceFirstGo _ _ (x :: (P ++ ((c :: pat') ++ T))).length _ = _
    rw [List.length_cons, replaceFirstGo]
    have hpf : List.isPrefixOf (c :: pat') (x :: (P ++ ((c :: pat') ++ T))) = false := by
      rw [isPrefixOf_cons_cons]
      have : (c == x) = false :=
        beq_eq_false_iff_ne.mpr (Ne.symm (hP x (List.mem_cons_self _ _)))
      rw [this]
      rfl
    rw [hpf]
    simp only [Bool.false_eq_true, if_false]
    rw [List.cons_append]
    congr 1
    exact ih (fun y hy => hP y (List.mem_cons_of_mem x hy))

theorem patchConst (nm code nc : List Char)
    (hcode : code ≠ []) (hdig : ∀ c ∈ code, c.isDigit = true)
    (hnmdig : ∀ c ∈ nm, c.isDigit = false) :
    patchLine (renderLine (.constL nm code)) code nc
      (some ("ERROR_".toList ++ nm)) true = renderLine (.constL nm nc) := by
  cases code with
  | nil => exact absurd rfl hcode
  | cons d code' =>
  have hd : d.isDigit = true := hdig d (List.mem_cons_self _ _)
  unfold patchLine
  rw [if_pos (by rfl)]
  rw [show renderLine (.constL nm (d :: code')) =
    ("private static final long ERROR_".toList ++ (nm ++ " = ".toList)) ++
      (((d :: code') ++ ['L']) ++ [';']) from by
    simp [renderLine, List.append_assoc]]
  rw [show ((d :: code') ++ ['L']) = d :: (code' ++ ['L']) from rfl]
  rw [pyReplaceFirst_head d (code' ++ ['L']) (nc ++ ['L'])
    ("private static final long ERROR_".toList ++ (nm ++ " = ".toList)) [';'] ?hfree]
  case hfree =>
    have hA : ∀ x ∈ "private static final long ERROR_".toList, x.isDigit = false := by
      decide
    have hB : ∀ x ∈ " = ".toList, x.isDigit = false := by decide
    intro x hx
    rcases List.mem_append.mp hx with hx | hx
    · exact isDigit_false_ne d x hd (hA x hx)
    · rcases List.mem_append.mp hx with hx | hx
      · exact isDigit_false_ne d x hd (hnmdig x hx)
      · exact isDigit_false_ne d x hd (hB x hx)
  simp [renderLine, List.append_assoc]

theorem patchInline (pre code post nc : List Char)
    (hpre : ∀ c ∈ pre, c ≠ 'B') :
    patchLine (renderLine (.inlineL pre code post)) code nc none false =
      renderLine (.inlineL pre nc post) := by
  unfold patchLine
  rw [if_neg (by simp)]
  simp only []
  rw [show renderLine (.inlineL pre code post) =
    pre ++ (("BizException.failed(".toList ++ code ++ "L,".toList) ++ post)
    from by simp [renderLine, List.append_assoc]]
  rw [containsSub_append_mid]
  simp only [if_true]
  rw [show ("BizException.failed(".toList ++ code ++ "L,".toList) =
    'B' :: (("izException.failed(".toList ++ code) ++ "L,".toList) from by
      simp [List.append_assoc]]
  rw [pyReplaceFirst_head 'B' (("izException.failed(".toList ++ code) ++ "L,".toList)
    ("BizException.failed(".toList ++ nc ++ "L,".toList) pre post hpre]
  simp [renderLine, List.append_assoc]

def specCN : LineSpec → Option (List Char)
  | .inertL _ => none
  | .constL nm _ => some ("ERROR_".toList ++ nm)
  | .inlineL _ _ _ => none

def specIsConst : LineSpec → Bool
  | .constL _ _ => true
  | _ => false

def chFits (specs : List LineSpec) (ch : Change) : Prop :=
  1 ≤ ch.line_num ∧
  ∃ sp, specs.get? (ch.line_num - 1) = some sp ∧
    specCode sp = some ch.old_code ∧
    ch.constant_name = specCN sp ∧
    ch.is_constant_def = specIsConst sp

def updSpecs (specs : List LineSpec) (chs : List Change) : List LineSpec :=
  chs.foldl
    (fun sps ch =>
      sps.set (ch.line_num - 1)
        (withCode (sps.getD (ch.line_num - 1) (.inertL [])) ch.new_code))
    specs

theorem lineOK_withCode (sp : LineSpec) (nc : List Char) (h : lineOK sp = true)
    (hne : nc ≠ []) (hdig : ∀ c ∈ nc, c.isDigit = true) :
    lineOK (withCode sp nc) = true := by
  cases sp with
  | inertL s => exact h
  | constL nm code =>
    simp only [withCode, lineOK, Bool.and_eq_true] at h ⊢
    refine ⟨⟨⟨h.1.1.1, h.1.1.2⟩, ?_⟩, ?_⟩
    · simp [List.isEmpty_eq_false_iff_exists_mem]
      cases nc with
      | nil => exact absurd rfl hne
      | cons a l => simp
    · simp [List.all_eq_true]
      exact hdig
  | inlineL pre code post =>
    simp only [withCode, lineOK, Bool.and_eq_true] at h ⊢
    refine ⟨⟨⟨?_, ?_⟩, h.1.2⟩, h.2⟩
    · cases nc with
      | nil => exact absurd rfl hne
      | cons a l => simp
    · simp [List.all_eq_true]
      exact hdig

theorem lineCode_withCode (sp : LineSpec) (old nc : List Char)
    (h : specCode sp = some old) :
    lineCode sp = [old] ∧ lineCode (withCode sp nc) = [nc] := by
  cases sp with
  | inertL s => simp [specCode] at h
  | constL nm code =>
    simp only [specCode, Option.some.injEq] at h
    subst h
    constructor <;> rfl
  | inlineL pre code post =>
    simp only [specCode, Option.some.injEq] at h
    subst h
    constructor <;> rfl

theorem patchLine_spec (sp : LineSpec) (old nc : List Char)
    (hok : lineOK sp = true) (hcode : specCode sp = some old) :
    patchLine (renderLine sp) old nc (specCN sp) (specIsConst sp) =
      renderLine (withCode sp nc) := by
  cases sp with
  | inertL s => simp [specCode] at hcode
  | constL nm code =>
    simp only [specCode, Option.some.injEq] at hcode
    subst hcode
    simp only [lineOK, Bool.and_eq_true, Bool.not_eq_true',
      List.all_eq_true, beq_iff_eq] at hok
    obtain ⟨⟨⟨hnm, hnmc⟩, hcode⟩, hdig⟩ := hok
    have hcode2 : code ≠ [] := by
      intro he
      rw [he] at hcode
      exact absurd hcode (by decide)
    exact patchConst nm code nc hcode2 hdig (fun c hc => (hnmc c hc).1.2)
  | inlineL pre code post =>
    simp only [specCode, Option.some.injEq] at hcode
    subst hcode
    simp only [lineOK, Bool.and_eq_true, Bool.not_eq_true',
      List.all_eq_true, beq_iff_eq] at hok
    have hpreB : ∀ c ∈ pre, c ≠ 'B' := fun c hc => by
      have := (hok.1.2 c hc).1
      simp at this
      exact this
    exact patchInline pre code post nc hpreB

theorem eq_take_cons_drop {α : Type} :
    ∀ (l : List α) (i : Nat) (a : α), l.get? i = some a →
      l = l.take i ++ a :: l.drop (i + 1) := by
  intro l
  induction l with
  | nil => intro i a h; simp at h
  | cons x l ih =>
    intro i a h
    cases i with
    | zero =>
      simp only [List.get?] at h
      injection h with h
      subst h
      simp
    | succ i =>
      simp only [List.get?] at h
      rw [List.take_succ_cons, List.drop_succ_cons, List.cons_append]
      rw [← ih i a h]

theorem count_cons_split {α : Type} [BEq α] (x : α) (l : List α)
    (a : α) : (x :: l).count a = [x].count a + l.count a := by
  simp [List.count_cons]
  omega

theorem updSpecs_master :
    ∀ (chs : List Change) (specs : List LineSpec),
      (∀ sp ∈ specs, lineOK sp = true) →
      (∀ ch ∈ chs, chFits specs ch) →
      (chs.map (fun ch => ch.line_num)).Nodup →
      (∀ ch ∈ chs, ch.new_code ≠ [] ∧ ∀ c ∈ ch.new_code, c.isDigit = true) →
      applyChangesToLines (specs.map renderLine) chs =
        (updSpecs specs chs).map renderLine ∧
      (∀ sp ∈ updSpecs specs chs, lineOK sp = true) ∧
      ((updSpecs specs chs).flatMap lineCode).length =
        (specs.flatMap lineCode).length ∧
      (∀ c : List Char,
        ((updSpecs specs chs).flatMap lineCode).count c +
          (chs.map (fun ch => ch.old_code)).count c =
        (specs.flatMap lineCode).count c +
          (chs.map (fun ch => ch.new_code)).count c) := by
  intro chs
  induction chs with
  | nil =>
    intro specs hok hfits hnd hnc
    exact ⟨rfl, hok, rfl, fun c => rfl⟩
  | cons ch chs ih =>
    intro specs hok hfits hnd hnc
    obtain ⟨hln, sp, hget, hcode, hcn, hic⟩ := hfits ch (List.mem_cons_self _ _)
    have hsp_mem : sp ∈ specs := List.get?_mem hget
    have hspOK := hok sp hsp_mem
    obtain ⟨hnc1, hnc2⟩ := hnc ch (List.mem_cons_self _ _)
    have hilt : (ch.line_num - 1) < specs.length := by
      rcases List.get?_eq_some.mp hget with ⟨h, _⟩
      exact h
    have hgetD : (specs.map renderLine).getD (ch.line_num - 1) [] = renderLine sp := by
      show ((specs.map renderLine).get? (ch.line_num - 1)).getD [] = _
      rw [List.get?_map, hget]
      rfl
    have hgetDs : specs.getD (ch.line_num - 1) (.inertL []) = sp := by
      show (specs.get? (ch.line_num - 1)).getD _ = _
      rw [hget]
      rfl
    have happ1 : applyChangesToLines (specs.map renderLine) (ch :: chs) =
        applyChangesToLines
          ((specs.set (ch.line_num - 1) (withCode sp ch.new_code)).map renderLine)
          chs := by
      show List.foldl _ _ chs = _
      congr 1
      simp only []
      rw [hgetD, hcn, hic, patchLine_spec sp ch.old_code ch.new_code hspOK hcode]
      rw [← List.map_set]
    have hupd1 : updSpecs specs (ch :: chs) =
        updSpecs (specs.set (ch.line_num - 1) (withCode sp ch.new_code)) chs := by
      show List.foldl _ _ chs = _
      congr 1
      simp only []
      rw [hgetDs]
    have hok' : ∀ sp2 ∈ specs.set (ch.line_num - 1) (withCode sp ch.new_code),
        lineOK sp2 = true := by
      intro sp2 hm
      rcases List.mem_or_eq_of_mem_set hm with hm | hm
      · exact hok sp2 hm
      · rw [hm]
        exact lineOK_withCode sp ch.new_code hspOK hnc1 hnc2
    have hfits' : ∀ ch2 ∈ chs,
        chFits (specs.set (ch.line_num - 1) (withCode sp ch.new_code)) ch2 := by
      intro ch2 hm2
      obtain ⟨hln2, sp2, hget2, hrest⟩ := hfits ch2 (List.mem_cons_of_mem _ hm2)
      refine ⟨hln2, sp2, ?_, hrest⟩
      have hne2 : ch.line_num ≠ ch2.line_num := by
        have hh := (List.nodup_cons.mp hnd).1
        intro he
        apply hh
        simp only []
        rw [he]
        exact List.mem_map.mpr ⟨ch2, hm2, rfl⟩
      rw [List.get?_set_ne _ _ (by omega), hget2]
    obtain ⟨ih1, ih2, ih3, ih4⟩ :=
      ih (specs.set (ch.line_num - 1) (withCode sp ch.new_code)) hok' hfits'
        (List.nodup_cons.mp hnd).2
        (fun ch2 hm2 => hnc ch2 (List.mem_cons_of_mem _ hm2))
    have hdecomp := eq_take_cons_drop specs (ch.line_num - 1) sp hget
    have hset := List.set_eq_take_cons_drop (withCode sp ch.new_code) hilt
    obtain ⟨hlc_old, hlc_new⟩ := lineCode_withCode sp ch.old_code ch.new_code hcode
    refine ⟨?_, ?_, ?_, ?_⟩
    · rw [happ1, ih1, hupd1]
    · rw [hupd1]
      exact ih2
    · rw [hupd1, ih3, hset]
      conv_rhs => rw [hdecomp]
      simp [List.flatMap_append, hlc_old, hlc_new]
    · intro c
      have h4 := ih4 c
      have hB : (specs.flatMap lineCode).count c =
          ((specs.take (ch.line_num - 1)).flatMap lineCode).count c +
            ([ch.old_code].count c) +
            ((specs.drop (ch.line_num - 1 + 1)).flatMap lineCode).count c := by
        conv_lhs => rw [hdecomp]
        rw [List.flatMap_append, List.flatMap_cons, hlc_old]
        rw [List.count_append, List.count_append]
        rw [count_cons_split]
        omega
      have hC : ((specs.set (ch.line_num - 1) (withCode sp ch.new_code)).flatMap
            lineCode).count c =
          ((specs.take (ch.line_num - 1)).flatMap lineCode).count c +
            ([ch.new_code].count c) +
            ((specs.drop (ch.line_num - 1 + 1)).flatMap lineCode).count c := by
        rw [hset]
        rw [List.flatMap_append, List.flatMap_cons, hlc_new]
        rw [List.count_append, List.count_append]
        rw [count_cons_split]
        omega
      rw [hupd1]
      rw [List.map_cons, List.map_cons,
        count_cons_split ch.old_code (chs.map (fun ch => ch.old_code)) c,
        count_cons_split ch.new_code (chs.map (fun ch => ch.new_code)) c]
      rw [hC] at h4
      rw [hB]
      omega

def renderTree (T : List (List Char × List LineSpec)) :
    List (List Char × List (List Char)) :=
  T.map fun f => (f.1, f.2.map renderLine)

def specStream (T : List (List Char × List LineSpec)) :
    List (List Char × ErrorCodeLocation) :=
  T.flatMap fun f => (enumFrom 1 f.2).flatMap fun nl => specOcc f.1 nl.1 nl.2

def specCodes (T : List (List Char × List LineSpec)) : List (List Char) :=
  T.flatMap fun f => f.2.flatMap lineCode

def treeOK (T : List (List Char × List LineSpec)) : Prop :=
  (∀ f ∈ T, ∀ sp ∈ f.2, lineOK sp = true) ∧ (T.map (fun f => f.1)).Nodup

def treeApply (T : List (List Char × List LineSpec)) (chs : List Change) :
    List (List Char × List LineSpec) :=
  T.map fun f => (f.1, updSpecs f.2 (chs.filter (fun ch => ch.file_path == f.1)))

def sumLen (idx : Index) : Nat := (idx.map (fun p => p.2.length)).sum

theorem enumFrom_map {α β : Type} (g : α → β) :
    ∀ (k : Nat) (l : List α),
      enumFrom k (l.map g) = (enumFrom k l).map (fun nl => (nl.1, g nl.2)) := by
  intro k l
  induction l generalizing k with
  | nil => rfl
  | cons x l ih => simp [enumFrom, ih]

theorem enumFrom_mem {α : Type} :
    ∀ (l : List α) (k n : Nat) (x : α), (n, x) ∈ enumFrom k l →
      k ≤ n ∧ l.get? (n - k) = some x := by
  intro l
  induction l with
  | nil => intro k n x h; simp [enumFrom] at h
  | cons y l ih =>
    intro k n x h
    rw [show enumFrom k (y :: l) = (k, y) :: enumFrom (k + 1) l from rfl] at h
    rcases List.mem_cons.mp h with h | h
    · obtain ⟨h1, h2⟩ := Prod.mk.injEq .. ▸ h
      injection h with h1 h2
      subst h1
      subst h2
      simp
    · obtain ⟨h1, h2⟩ := ih (k + 1) n x h
      refine ⟨by omega, ?_⟩
      rw [show n - k = (n - (k + 1)) + 1 from by omega]
      simpa using h2

theorem enumFrom_flatMap_snd {α β : Type} (g : α → List β) :
    ∀ (k : Nat) (l : List α),
      (enumFrom k l).flatMap (fun nl => g nl.2) = l.flatMap g := by
  intro k l
  induction l generalizing k with
  | nil => rfl
  | cons x l ih =>
    rw [show enumFrom k (x :: l) = (k, x) :: enumFrom (k + 1) l from rfl]
    rw [List.flatMap_cons, List.flatMap_cons, ih]

theorem specOcc_fst (fp : List Char) (n : Nat) (sp : LineSpec) :
    (specOcc fp n sp).map (fun e => e.1) = lineCode sp := by
  cases sp <;> rfl

theorem specStream_fst (T : List (List Char × List LineSpec)) :
    (specStream T).map (fun e => e.1) = specCodes T := by
  unfold specStream specCodes
  rw [List.map_flatMap]
  apply List.flatMap_congr
  intro f _
  rw [List.map_flatMap]
  rw [show (fun nl => (specOcc f.1 nl.1 nl.2).map (fun e => e.1)) =
    (fun nl : Nat × LineSpec => lineCode nl.2) from ?_]
  · exact enumFrom_flatMap_snd lineCode 1 f.2
  · funext nl
    exact specOcc_fst f.1 nl.1 nl.2

theorem occList_renderTree (T : List (List Char × List LineSpec))
    (hok : ∀ f ∈ T, ∀ sp ∈ f.2, lineOK sp = true) :
    occList (renderTree T) = specStream T := by
  unfold occList renderTree specStream
  rw [List.flatMap_map]
  apply List.flatMap_congr
  intro f hf
  simp only []
  rw [enumFrom_map renderLine 1 f.2, List.flatMap_map]
  apply List.flatMap_congr
  intro nl hnl
  simp only []
  refine scanLine f.1 nl.1 nl.2 ?_
  refine hok f hf nl.2 ?_
  have := enumFrom_mem f.2 1 nl.1 nl.2 ?m
  · exact List.get?_mem this.2
  · exact hnl

theorem lookup_foldl_len (S : List (List Char × ErrorCodeLocation))
    (code : List Char) :
    (lookupOccs (S.foldl addOcc []) code).length =
      (S.map (fun e => e.1)).count code := by
  rw [lookupOccs_foldl code S [], lookupOccs_nil, List.nil_append]
  rw [List.length_map, ← List.countP_eq_length_filter]
  show _ = List.countP _ _
  rw [List.countP_map]
  rfl

theorem entry_eq_lookup :
    ∀ idx : Index, (get_all_existing_codes idx).Nodup →
      ∀ p ∈ idx, lookupOccs idx p.1 = p.2 := by
  intro idx
  induction idx with
  | nil => intro _ p hp; simp at hp
  | cons q idx ih =>
    intro hnd p hp
    have hnd2 := hnd
    unfold get_all_existing_codes at hnd2
    rw [List.map_cons, List.nodup_cons] at hnd2
    rcases List.mem_cons.mp hp with hp | hp
    · subst hp
      unfold lookupOccs
      rw [if_pos (by simp)]
    · unfold lookupOccs
      have hne : (q.1 == p.1) = false := by
        refine beq_eq_false_iff_ne.mpr ?_
        intro he
        exact hnd2.1 (he ▸ List.mem_map.mpr ⟨p, hp, rfl⟩)
      rw [hne]
      simp only [Bool.false_eq_true, if_false]
      exact ih hnd2.2 p hp

theorem entries_ne_nil :
    ∀ (S : List (List Char × ErrorCodeLocation)) (idx : Index),
      (∀ p ∈ idx, p.2 ≠ []) → ∀ p ∈ S.foldl addOcc idx, p.2 ≠ [] := by
  intro S
  induction S with
  | nil => intro idx h p hp; exact h p hp
  | cons e S ih =>
    intro idx h p hp
    refine ih (addOcc idx e) ?_ p hp
    intro p2 hp2
    unfold addOcc at hp2
    split at hp2
    · rcases List.mem_map.mp hp2 with ⟨q, hq, hqe⟩
      rw [← hqe]
      split
      · simp
      · exact h q hq
    · rcases List.mem_append.mp hp2 with hp2 | hp2
      · exact h p2 hp2
      · rcases List.mem_singleton.mp hp2 with rfl
        simp

theorem key_mem_foldl :
    ∀ (S : List (List Char × ErrorCodeLocation)) (idx : Index),
      ∀ p ∈ S.foldl addOcc idx,
        p.1 ∈ get_all_existing_codes idx ∨ p.1 ∈ S.map (fun e => e.1) := by
  intro S
  induction S with
  | nil =>
    intro idx p hp
    exact Or.inl (List.mem_map.mpr ⟨p, hp, rfl⟩)
  | cons e S ih =>
    intro idx p hp
    rcases ih (addOcc idx e) p hp with h | h
    · rw [keys_addOcc] at h
      split at h
      · exact Or.inl h
      · rcases List.mem_append.mp h with h | h
        · exact Or.inl h
        · rw [List.mem_singleton.mp h]
          refine Or.inr ?_
          rw [List.map_cons]
          exact List.mem_cons_self _ _
    · exact Or.inr (List.mem_cons_of_mem _ h)

theorem sumLen_bump (e : List Char × ErrorCodeLocation) :
    ∀ idx : Index, (get_all_existing_codes idx).Nodup →
      idx.any (fun p => p.1 == e.1) = true →
      sumLen (idx.map (fun p => if p.1 == e.1 then (p.1, p.2 ++ [e.2]) else p)) =
        sumLen idx + 1 := by
  intro idx
  induction idx with
  | nil => intro _ h; simp at h
  | cons q idx ih =>
    intro hnd hany
    have hnd2 := hnd
    unfold get_all_existing_codes at hnd2
    rw [List.map_cons, List.nodup_cons] at hnd2
    rw [List.map_cons]
    by_cases hq : (q.1 == e.1) = true
    · rw [if_pos hq]
      have hrest : idx.map (fun p => if p.1 == e.1 then (p.1, p.2 ++ [e.2]) else p) =
          idx := by
        conv_rhs => rw [← List.map_id idx]
        apply List.map_congr_left
        intro p hp
        have hne : (p.1 == e.1) = false := by
          refine beq_eq_false_iff_ne.mpr ?_
          intro he
          refine hnd2.1 ?_
          rw [show q.1 = p.1 from by rw [beq_iff_eq.mp hq, he]]
          exact List.mem_map.mpr ⟨p, hp, rfl⟩
        rw [hne]
        simp
      rw [hrest]
      simp [sumLen]
      omega
    · rw [if_neg (by simpa using hq)]
      have hany2 : idx.any (fun p => p.1 == e.1) = true := by
        rw [List.any_cons] at hany
        rcases Bool.or_eq_true_iff.mp hany with h | h
        · exact absurd h hq
        · exact h
      have := ih hnd2.2 hany2
      simp only [sumLen, List.map_cons, List.sum_cons] at this ⊢
      omega

theorem sumLen_addOcc (idx : Index) (e : List Char × ErrorCodeLocation)
    (hnd : (get_all_existing_codes idx).Nodup) :
    sumLen (addOcc idx e) = sumLen idx + 1 := by
  unfold addOcc
  by_cases hany : idx.any (fun p => p.1 == e.1) = true
  · rw [if_pos hany]
    exact sumLen_bump e idx hnd hany
  · rw [if_neg hany]
    simp [sumLen]

theorem sumLen_foldl :
    ∀ (S : List (List Char × ErrorCodeLocation)) (idx : Index),
      (get_all_existing_codes idx).Nodup →
      sumLen (S.foldl addOcc idx) = sumLen idx + S.length := by
  intro S
  induction S with
  | nil => intro idx _; rfl
  | cons e S ih =>
    intro idx hnd
    show sumLen (S.foldl addOcc (addOcc idx e)) = _
    rw [ih (addOcc idx e) (keys_nodup_addOcc idx e hnd)]
    rw [sumLen_addOcc idx e hnd]
    simp
    omega

theorem natDigits_ne_nil (n : Nat) : natDigits n ≠ [] := by
  unfold natDigits natDigitsGo
  split <;> simp

theorem pad4_isDigit (n : Nat) : ∀ c ∈ pad4 n, c.isDigit = true := by
  intro c hc
  unfold pad4 at hc
  rcases List.mem_append.mp hc with hc | hc
  · rw [List.eq_of_mem_replicate hc]
    decide
  · exact natDigitsGo_isDigit _ n c hc

theorem pad6_isDigit (n : Nat) : ∀ c ∈ pad6 n, c.isDigit = true := by
  intro c hc
  unfold pad6 at hc
  rcases List.mem_append.mp hc with hc | hc
  · rw [List.eq_of_mem_replicate hc]
    decide
  · exact natDigitsGo_isDigit _ n c hc

theorem generate_digits (existing : List (List Char)) (rdp : List Char)
    (hrdp : ∀ c ∈ rdp, c.isDigit = true) :
    ∀ fuel ctr c, generate_new_code existing rdp fuel ctr = some c →
      c ≠ [] ∧ ∀ x ∈ c, x.isDigit = true := by
  intro fuel
  induction fuel with
  | zero => intro ctr c h; simp [generate_new_code] at h
  | succ f ih =>
    intro ctr c h
    unfold generate_new_code at h
    simp only [] at h
    split at h
    · split at h
      · split at h
        · exact ih _ c h
        · injection h with h
          subst h
          refine ⟨by simp [pad6, List.append_eq_nil, natDigits_ne_nil], ?_⟩
          intro x hx
          rcases List.mem_append.mp hx with hx | hx
          · exact hrdp x hx
          · exact pad6_isDigit _ x hx
      · exact ih _ c h
    · injection h with h
      subst h
      refine ⟨by simp [pad4, List.append_eq_nil, natDigits_ne_nil], ?_⟩
      intro x hx
      rcases List.mem_append.mp hx with hx | hx
      · exact hrdp x hx
      · exact pad4_isDigit _ x hx

theorem fixGroup_digits (rdp : List Char) (fuel : Nat) (code : List Char)
    (hrdp : ∀ c ∈ rdp, c.isDigit = true) :
    ∀ locs all chs all2, fixGroup rdp fuel code locs all = some (chs, all2) →
      ∀ ch ∈ chs, ch.new_code ≠ [] ∧ ∀ x ∈ ch.new_code, x.isDigit = true := by
  intro locs
  induction locs with
  | nil =>
    intro all chs all2 h ch hch
    simp only [fixGroup, Option.some.injEq, Prod.mk.injEq] at h
    rw [← h.1] at hch
    simp at hch
  | cons loc rest ih =>
    intro all chs all2 h ch hch
    unfold fixGroup at h
    cases hg : generate_new_code all rdp fuel 1 with
    | none => rw [hg] at h; simp at h
    | some nc =>
      rw [hg] at h
      simp only [] at h
      cases hf : fixGroup rdp fuel code rest (all ++ [nc]) with
      | none => rw [hf] at h; simp at h
      | some r =>
        obtain ⟨chs1, all1⟩ := r
        rw [hf] at h
        simp only [Option.some.injEq, Prod.mk.injEq] at h
        rw [← h.1] at hch
        rcases List.mem_cons.mp hch with hch | hch
        · rw [hch]
          show nc ≠ [] ∧ _
          exact generate_digits all rdp hrdp fuel 1 nc hg
        · exact ih (all ++ [nc]) chs1 all1 hf ch hch

theorem fixAll_digits (rdp : List Char) (fuel : Nat)
    (hrdp : ∀ c ∈ rdp, c.isDigit = true) :
    ∀ groups all chs all2, fixAll rdp fuel groups all = some (chs, all2) →
      ∀ ch ∈ chs, ch.new_code ≠ [] ∧ ∀ x ∈ ch.new_code, x.isDigit = true := by
  intro groups
  induction groups with
  | nil =>
    intro all chs all2 h ch hch
    simp only [fixAll, Option.some.injEq, Prod.mk.injEq] at h
    rw [← h.1] at hch
    simp at hch
  | cons g groups ih =>
    intro all chs all2 h ch hch
    obtain ⟨code, locs⟩ := g
    unfold fixAll at h
    cases hg : fixGroup rdp fuel code (pySorted keyLe locs).tail all with
    | none => rw [hg] at h; simp at h
    | some r1 =>
      obtain ⟨chs1, all1⟩ := r1
      rw [hg] at h
      simp only [] at h
      cases hrest : fixAll rdp fuel groups all1 with
      | none => rw [hrest] at h; simp at h
      | some r2 =>
        obtain ⟨chs2, all3⟩ := r2
        rw [hrest] at h
        simp only [Option.some.injEq, Prod.mk.injEq] at h
        rw [← h.1] at hch
        rcases List.mem_append.mp hch with hch | hch
        · exact fixGroup_digits rdp fuel code hrdp _ all chs1 all1 hg ch hch
        · exact ih all1 chs2 all3 hrest ch hch

def locKey (l : ErrorCodeLocation) : List Char × Nat := (l.file_path, l.line_num)

theorem specOcc_key (fp : List Char) (n : Nat) (sp : LineSpec) :
    ∀ e ∈ specOcc fp n sp, locKey e.2 = (fp, n) := by
  cases sp with
  | inertL s => intro e he; simp [specOcc] at he
  | constL nm code =>
    intro e he
    rcases List.mem_singleton.mp he with rfl
    rfl
  | inlineL pre code post =>
    intro e he
    rcases List.mem_singleton.mp he with rfl
    rfl

def fileKeys (fp : List Char) (n0 : Nat) (specs : List LineSpec) :
    List (List Char × Nat) :=
  (enumFrom n0 specs).flatMap fun nl =>
    (specOcc fp nl.1 nl.2).map (fun e => locKey e.2)

theorem fileKeys_ge (fp : List Char) :
    ∀ (specs : List LineSpec) (n0 : Nat), ∀ k ∈ fileKeys fp n0 specs,
      n0 ≤ k.2 := by
  intro specs
  induction specs with
  | nil => intro n0 k hk; simp [fileKeys, enumFrom] at hk
  | cons sp specs ih =>
    intro n0 k hk
    unfold fileKeys at hk
    rw [show enumFrom n0 (sp :: specs) = (n0, sp) :: enumFrom (n0 + 1) specs
      from rfl, List.flatMap_cons] at hk
    rcases List.mem_append.mp hk with hk | hk
    · rcases List.mem_map.mp hk with ⟨e, he, hek⟩
      rw [← hek, specOcc_key fp n0 sp e he]
    · exact Nat.le_of_succ_le (ih (n0 + 1) k hk)

theorem fileKeys_fst (fp : List Char) :
    ∀ (specs : List LineSpec) (n0 : Nat), ∀ k ∈ fileKeys fp n0 specs,
      k.1 = fp := by
  intro specs
  induction specs with
  | nil => intro n0 k hk; simp [fileKeys, enumFrom] at hk
  | cons sp specs ih =>
    intro n0 k hk
    unfold fileKeys at hk
    rw [show enumFrom n0 (sp :: specs) = (n0, sp) :: enumFrom (n0 + 1) specs
      from rfl, List.flatMap_cons] at hk
    rcases List.mem_append.mp hk with hk | hk
    · rcases List.mem_map.mp hk with ⟨e, he, hek⟩
      rw [← hek, specOcc_key fp n0 sp e he]
    · exact ih (n0 + 1) k hk

theorem fileKeys_pairwise (fp : List Char) :
    ∀ (specs : List LineSpec) (n0 : Nat),
      List.Pairwise (fun a b => a.2 < b.2) (fileKeys fp n0 specs) := by
  intro specs
  induction specs with
  | nil => intro n0; simp [fileKeys, enumFrom]
  | cons sp specs ih =>
    intro n0
    unfold fileKeys
    rw [show enumFrom n0 (sp :: specs) = (n0, sp) :: enumFrom (n0 + 1) specs
      from rfl, List.flatMap_cons]
    rw [List.pairwise_append]
    refine ⟨?_, ih (n0 + 1), ?_⟩
    · cases sp <;> simp [specOcc]
    · intro a ha b hb
      rcases List.mem_map.mp ha with ⟨e, he, hek⟩
      have ha2 : a.2 = n0 := by rw [← hek, specOcc_key fp n0 sp e he]
      have hb2 := fileKeys_ge fp specs (n0 + 1) b hb
      omega

theorem fileKeys_nodup (fp : List Char) (specs : List LineSpec) :
    (fileKeys fp 1 specs).Nodup := by
  refine List.Pairwise.imp ?_ (fileKeys_pairwise fp specs 1)
  intro a b hab he
  rw [he] at hab
  exact Nat.lt_irrefl _ hab

theorem streamKeys_eq (T : List (List Char × List LineSpec)) :
    (specStream T).map (fun e => locKey e.2) =
      T.flatMap (fun f => fileKeys f.1 1 f.2) := by
  unfold specStream
  rw [List.map_flatMap]
  apply List.flatMap_congr
  intro f _
  rw [List.map_flatMap]
  rfl

theorem streamKeys_nodup (T : List (List Char × List LineSpec))
    (hpaths : (T.map (fun f => f.1)).Nodup) :
    ((specStream T).map (fun e => locKey e.2)).Nodup := by
  rw [streamKeys_eq]
  induction T with
  | nil => simp
  | cons f T ih =>
    rw [List.flatMap_cons, List.nodup_append]
    rw [List.map_cons, List.nodup_cons] at hpaths
    refine ⟨fileKeys_nodup f.1 f.2, ih hpaths.2, ?_⟩
    intro k hk1 hk2
    rcases List.mem_flatMap.mp hk2 with ⟨g, hg, hkg⟩
    have h1 := fileKeys_fst f.1 f.2 1 k hk1
    have h2 := fileKeys_fst g.1 g.2 1 k hkg
    refine hpaths.1 ?_
    rw [show f.1 = g.1 from by rw [← h1, h2]]
    exact List.mem_map.mpr ⟨g, hg, rfl⟩

theorem mem_sorted_tail_keys (g2 : List ErrorCodeLocation)
    (k : List Char × Nat)
    (hk : k ∈ ((pySorted keyLe g2).tail).map locKey) :
    k ∈ g2.map locKey := by
  rcases List.mem_map.mp hk with ⟨loc, hloc, hlk⟩
  have h1 : loc ∈ pySorted keyLe g2 := (List.tail_sublist _).subset hloc
  have h2 : loc ∈ g2 := (pySorted_perm keyLe g2).subset h1
  exact List.mem_map.mpr ⟨loc, h2, hlk⟩

theorem group_keys_nodup (S : List (List Char × ErrorCodeLocation))
    (hSK : (S.map (fun e => locKey e.2)).Nodup)
    (g : List Char × List ErrorCodeLocation)
    (hg : g.2 = (S.filter (fun q => q.1 == g.1)).map (fun q => q.2)) :
    (g.2.map locKey).Nodup := by
  rw [hg, List.map_map]
  refine List.Sublist.nodup ?_ hSK
  exact List.Sublist.map _ (List.filter_sublist S)

theorem group_key_entry (S : List (List Char × ErrorCodeLocation))
    (g : List Char × List ErrorCodeLocation)
    (hg : g.2 = (S.filter (fun q => q.1 == g.1)).map (fun q => q.2))
    (k : List Char × Nat) (hk : k ∈ g.2.map locKey) :
    ∃ e ∈ S, e.1 = g.1 ∧ locKey e.2 = k := by
  rw [hg, List.map_map] at hk
  rcases List.mem_map.mp hk with ⟨e, he, hek⟩
  exact ⟨e, List.mem_of_mem_filter he,
    beq_iff_eq.mp (List.mem_filter.mp he).2, hek⟩

theorem groups_tail_keys_nodup (S : List (List Char × ErrorCodeLocation))
    (hSK : (S.map (fun e => locKey e.2)).Nodup) :
    ∀ groups : Index, (get_all_existing_codes groups).Nodup →
      (∀ g ∈ groups, g.2 = (S.filter (fun q => q.1 == g.1)).map (fun q => q.2)) →
      (groups.flatMap (fun g =>
        ((pySorted keyLe g.2).tail).map locKey)).Nodup := by
  intro groups
  induction groups with
  | nil => intro _ _; simp
  | cons g groups ih =>
    intro hnd hsub
    unfold get_all_existing_codes at hnd
    rw [List.map_cons, List.nodup_cons] at hnd
    rw [List.flatMap_cons, List.nodup_append]
    refine ⟨?_, ih hnd.2 (fun g2 hg2 => hsub g2 (List.mem_cons_of_mem _ hg2)), ?_⟩
    · have h1 := group_keys_nodup S hSK g (hsub g (List.mem_cons_self _ _))
      have h2 : ((pySorted keyLe g.2).map locKey).Nodup :=
        (((pySorted_perm keyLe g.2).map locKey).symm).nodup h1
      exact List.Sublist.nodup (List.Sublist.map _ (List.tail_sublist _)) h2
    · intro k hk1 hk2
      rcases List.mem_flatMap.mp hk2 with ⟨g2, hg2, hkg2⟩
      have m1 := mem_sorted_tail_keys g.2 k hk1
      have m2 := mem_sorted_tail_keys g2.2 k hkg2
      obtain ⟨e, heS, he1, hek⟩ :=
        group_key_entry S g (hsub g (List.mem_cons_self _ _)) k m1
      obtain ⟨f, hfS, hf1, hfk⟩ :=
        group_key_entry S g2 (hsub g2 (List.mem_cons_of_mem _ hg2)) k m2
      have hef : e = f :=
        List.inj_on_of_nodup_map hSK heS hfS (by rw [hek, hfk])
      refine hnd.1 ?_
      rw [show g.1 = g2.1 from by rw [← he1, hef, hf1]]
      exact List.mem_map.mpr ⟨g2, hg2, rfl⟩

theorem filter_ln_nodup (chs : List Change)
    (hK : (chs.map (fun ch => (ch.file_path, ch.line_num))).Nodup)
    (fp : List Char) :
    ((chs.filter (fun ch => ch.file_path == fp)).map
      (fun ch => ch.line_num)).Nodup := by
  induction chs with
  | nil => simp
  | cons ch chs ih =>
    rw [List.map_cons, List.nodup_cons] at hK
    rw [List.filter_cons]
    split
    · rename_i hpath
      rw [List.map_cons, List.nodup_cons]
      refine ⟨?_, ih hK.2⟩
      intro hmem
      rcases List.mem_map.mp hmem with ⟨ch2, hch2f, hln⟩
      have hch2 : ch2 ∈ chs := List.mem_of_mem_filter hch2f
      have hpath2 : ch2.file_path = fp :=
        beq_iff_eq.mp (List.mem_filter.mp hch2f).2
      refine hK.1 ?_
      rw [show (ch.file_path, ch.line_num) = (ch2.file_path, ch2.line_num) from by
        rw [beq_iff_eq.mp hpath, hpath2, hln]]
      exact List.mem_map.mpr ⟨ch2, hch2, rfl⟩
    · exact ih hK.2

theorem count_map_const {β : Type} :
    ∀ (l : List β) (a c : List Char),
      ((l.map (fun _ => a)).count c) = if a = c then l.length else 0 := by
  intro l a c
  induction l with
  | nil => simp
  | cons x l ih =>
    rw [List.map_cons, count_cons_split, ih]
    by_cases h : a = c
    · subst h
      simp [List.count_cons]
      omega
    · simp [h, List.count_cons]

theorem count_flat_zero (c : List Char) :
    ∀ groups : Index, (∀ g ∈ groups, g.1 ≠ c) →
      (groups.flatMap (fun g =>
        ((pySorted keyLe g.2).tail).map (fun _ => g.1))).count c = 0 := by
  intro groups
  induction groups with
  | nil => simp
  | cons g groups ih =>
    intro h
    rw [List.flatMap_cons, List.count_append]
    rw [count_map_const, if_neg (h g (List.mem_cons_self _ _))]
    rw [ih (fun g2 hg2 => h g2 (List.mem_cons_of_mem _ hg2))]

theorem count_flat_of_mem (c : List Char) (locs : List ErrorCodeLocation) :
    ∀ groups : Index, (get_all_existing_codes groups).Nodup →
      (c, locs) ∈ groups →
      (groups.flatMap (fun g =>
        ((pySorted keyLe g.2).tail).map (fun _ => g.1))).count c =
        (pySorted keyLe locs).tail.length := by
  intro groups
  induction groups with
  | nil => intro _ h; simp at h
  | cons g groups ih =>
    intro hnd hm
    unfold get_all_existing_codes at hnd
    rw [List.map_cons, List.nodup_cons] at hnd
    rw [List.flatMap_cons, List.count_append]
    rcases List.mem_cons.mp hm with hm | hm
    · have hz : ∀ g2 ∈ groups, g2.1 ≠ c := by
        intro g2 hg2 he
        refine hnd.1 ?_
        rw [show g.1 = c from by rw [← hm]]
        rw [← he]
        exact List.mem_map.mpr ⟨g2, hg2, rfl⟩
      rw [count_flat_zero c groups hz, ← hm]
      simp only []
      rw [count_map_const, if_pos rfl]
      omega
    · have hgc : g.1 ≠ c := by
        intro he
        refine hnd.1 ?_
        rw [he]
        exact List.mem_map.mpr ⟨(c, locs), hm, rfl⟩
      rw [count_map_const, if_neg hgc, ih hnd.2 hm]
      omega

theorem flatMap_filter_perm {α : Type} (key : α → List Char) :
    ∀ (paths : List (List Char)) (l : List α), paths.Nodup →
      (∀ x ∈ l, key x ∈ paths) →
      List.Perm (paths.flatMap (fun p => l.filter (fun x => key x == p))) l := by
  intro paths
  induction paths with
  | nil =>
    intro l _ hall
    cases l with
    | nil => simp
    | cons x l => exact absurd (hall x (List.mem_cons_self _ _)) (by simp)
  | cons p paths ih =>
    intro l hnd hall
    rw [List.nodup_cons] at hnd
    rw [List.flatMap_cons]
    have hstep : paths.flatMap (fun q => l.filter (fun x => key x == q)) =
        paths.flatMap (fun q =>
          (l.filter (fun x => !(key x == p))).filter (fun x => key x == q)) := by
      apply List.flatMap_congr
      intro q hq
      rw [List.filter_filter]
      apply List.filter_congr
      intro x hx
      by_cases hkx : (key x == q) = true
      · have hxp : (key x == p) = false := by
          refine beq_eq_false_iff_ne.mpr ?_
          intro he
          refine hnd.1 ?_
          rw [show p = q from by rw [← he, beq_iff_eq.mp hkx]]
          exact hq
        rw [hkx, hxp]
        rfl
      · rw [Bool.eq_false_iff.mpr hkx]
        simp
    rw [hstep]
    have hall2 : ∀ x ∈ l.filter (fun x => !(key x == p)), key x ∈ paths := by
      intro x hx
      have hxl := List.mem_of_mem_filter hx
      have hxne := (List.mem_filter.mp hx).2
      rcases List.mem_cons.mp (hall x hxl) with h | h
      · rw [h] at hxne
        simp at hxne
      · exact h
    have ih2 := ih (l.filter (fun x => !(key x == p))) hnd.2 hall2
    exact List.Perm.trans (List.Perm.append_left _ ih2)
      (List.filter_append_perm _ l)

theorem treeApply_master (chs : List Change)
    (hnc : ∀ ch ∈ chs, ch.new_code ≠ [] ∧ ∀ c ∈ ch.new_code, c.isDigit = true) :
    ∀ T : List (List Char × List LineSpec),
      (∀ f ∈ T, ∀ sp ∈ f.2, lineOK sp = true) →
      (∀ f ∈ T, ∀ ch ∈ chs.filter (fun ch => ch.file_path == f.1), chFits f.2 ch) →
      (∀ f ∈ T, ((chs.filter (fun ch => ch.file_path == f.1)).map
        (fun ch => ch.line_num)).Nodup) →
      fix_duplicates_apply (renderTree T) chs = renderTree (treeApply T chs) ∧
      (∀ f ∈ treeApply T chs, ∀ sp ∈ f.2, lineOK sp = true) ∧
      (specCodes (treeApply T chs)).length = (specCodes T).length ∧
      (∀ c : List Char,
        (specCodes (treeApply T chs)).count c +
          ((T.flatMap (fun f => (chs.filter (fun ch => ch.file_path == f.1)).map
            (fun ch => ch.old_code))).count c) =
        (specCodes T).count c +
          ((T.flatMap (fun f => (chs.filter (fun ch => ch.file_path == f.1)).map
            (fun ch => ch.new_code))).count c)) := by
  intro T
  induction T with
  | nil =>
    intro _ _ _
    exact ⟨rfl, by simp [treeApply], rfl, fun c => rfl⟩
  | cons f T ih =>
    intro hok hfits hnd
    obtain ⟨m1, m2, m3, m4⟩ :=
      updSpecs_master (chs.filter (fun ch => ch.file_path == f.1)) f.2
        (hok f (List.mem_cons_self _ _)) (hfits f (List.mem_cons_self _ _))
        (hnd f (List.mem_cons_self _ _))
        (fun ch hch => hnc ch (List.mem_of_mem_filter hch))
    obtain ⟨i1, i2, i3, i4⟩ := ih
      (fun g hg => hok g (List.mem_cons_of_mem _ hg))
      (fun g hg => hfits g (List.mem_cons_of_mem _ hg))
      (fun g hg => hnd g (List.mem_cons_of_mem _ hg))
    refine ⟨?_, ?_, ?_, ?_⟩
    · show ((f.1, f.2.map renderLine) :: renderTree T).map _ =
        ((f.1, (updSpecs f.2 (chs.filter (fun ch => ch.file_path == f.1))).map
          renderLine) :: renderTree (treeApply T chs))
      rw [List.map_cons]
      simp only []
      rw [m1]
      exact congrArg _ i1
    · intro g hg
      rcases List.mem_cons.mp hg with hg | hg
      · intro sp hsp
        rw [hg] at hsp
        exact m2 sp hsp
      · exact i2 g hg
    · show ((updSpecs f.2 _).flatMap lineCode ++
        (treeApply T chs).flatMap (fun g => g.2.flatMap lineCode)).length =
        (f.2.flatMap lineCode ++ T.flatMap (fun g => g.2.flatMap lineCode)).length
      rw [List.length_append, List.length_append, m3]
      show _ = _ + (specCodes T).length
      rw [← i3]
      rfl
    · intro c
      have h4 := m4 c
      have h5 := i4 c
      show ((updSpecs f.2 _).flatMap lineCode ++
          (treeApply T chs).flatMap (fun g => g.2.flatMap lineCode)).count c + _ = _
      rw [List.count_append]
      show _ + ((chs.filter (fun ch => ch.file_path == f.1)).map
          (fun ch => ch.old_code) ++
        T.flatMap (fun g => (chs.filter (fun ch => ch.file_path == g.1)).map
          (fun ch => ch.old_code))).count c = _
      rw [List.count_append]
      show _ = (f.2.flatMap lineCode ++
          T.flatMap (fun g => g.2.flatMap lineCode)).count c +
        ((chs.filter (fun ch => ch.file_path == f.1)).map (fun ch => ch.new_code) ++
          T.flatMap (fun g => (chs.filter (fun ch => ch.file_path == g.1)).map
            (fun ch => ch.new_code))).count c
      rw [List.count_append, List.count_append]
      have e4 : ((treeApply T chs).flatMap (fun g => g.2.flatMap lineCode)).count c =
          (specCodes (treeApply T chs)).count c := rfl
      have e5 : (T.flatMap (fun g => g.2.flatMap lineCode)).count c =
          (specCodes T).count c := rfl
      rw [e4, e5]
      omega

theorem stream_path_mem (T : List (List Char × List LineSpec)) :
    ∀ e ∈ specStream T, e.2.file_path ∈ T.map (fun f => f.1) := by
  intro e he
  rcases List.mem_flatMap.mp he with ⟨f, hf, he2⟩
  rcases List.mem_flatMap.mp he2 with ⟨nl, _, he3⟩
  have := specOcc_key f.1 nl.1 nl.2 e he3
  refine List.mem_map.mpr ⟨f, hf, ?_⟩
  rw [show e.2.file_path = (locKey e.2).1 from rfl, this]

theorem stream_entry_fits (T : List (List Char × List LineSpec))
    (hpaths : (T.map (fun f => f.1)).Nodup) :
    ∀ e ∈ specStream T, ∀ f ∈ T, e.2.file_path = f.1 →
      1 ≤ e.2.line_num ∧ ∃ sp, f.2.get? (e.2.line_num - 1) = some sp ∧
        specCode sp = some e.1 ∧ e.2.constant_name = specCN sp ∧
        e.2.is_constant_def = specIsConst sp := by
  intro e he f hf hfp
  rcases List.mem_flatMap.mp he with ⟨g, hg, he2⟩
  rcases List.mem_flatMap.mp he2 with ⟨nl, hnl, he3⟩
  have hkey := specOcc_key g.1 nl.1 nl.2 e he3
  have hgp : e.2.file_path = g.1 := by
    rw [show e.2.file_path = (locKey e.2).1 from rfl, hkey]
  have hgf : g = f :=
    List.inj_on_of_nodup_map hpaths hg hf (by rw [← hgp, hfp])
  subst hgf
  have hln : e.2.line_num = nl.1 := by
    rw [show e.2.line_num = (locKey e.2).2 from rfl, hkey]
  obtain ⟨h1, h2⟩ := enumFrom_mem g.2 1 nl.1 nl.2 hnl
  refine ⟨by omega, nl.2, by rw [hln]; exact h2, ?_⟩
  cases hsp : nl.2 with
  | inertL s => rw [hsp] at he3; simp [specOcc] at he3
  | constL nm code =>
    rw [hsp] at he3
    rcases List.mem_singleton.mp he3 with rfl
    exact ⟨rfl, rfl, rfl⟩
  | inlineL pre code post =>
    rw [hsp] at he3
    rcases List.mem_singleton.mp he3 with rfl
    exact ⟨rfl, rfl, rfl⟩

theorem mem_keys_foldl :
    ∀ (S : List (List Char × ErrorCodeLocation)) (idx : Index) (c : List Char),
      (c ∈ S.map (fun e => e.1) ∨ c ∈ get_all_existing_codes idx) →
      c ∈ get_all_existing_codes (S.foldl addOcc idx) := by
  intro S
  induction S with
  | nil =>
    intro idx c h
    rcases h with h | h
    · simp at h
    · exact h
  | cons e S ih =>
    intro idx c h
    show c ∈ get_all_existing_codes (S.foldl addOcc (addOcc idx e))
    have hsub : c ∈ get_all_existing_codes idx ∨ c = e.1 →
        c ∈ get_all_existing_codes (addOcc idx e) := by
      intro hc
      rw [keys_addOcc]
      split
      · rename_i hany
        rcases hc with hc | hc
        · exact hc
        · rcases List.any_eq_true.mp hany with ⟨p, hp, hpe⟩
          rw [hc, ← beq_iff_eq.mp hpe]
          exact List.mem_map.mpr ⟨p, hp, rfl⟩
      · rcases hc with hc | hc
        · exact List.mem_append.mpr (Or.inl hc)
        · exact List.mem_append.mpr (Or.inr (by simp [hc]))
    rcases h with h | h
    · rw [List.map_cons] at h
      rcases List.mem_cons.mp h with h | h
      · exact ih (addOcc idx e) c (Or.inr (hsub (Or.inr h)))
      · exact ih (addOcc idx e) c (Or.inl h)
    · exact ih (addOcc idx e) c (Or.inr (hsub (Or.inl h)))

theorem chs_entry_mem (S : List (List Char × ErrorCodeLocation))
    (chs : List Change) (dups : Index)
    (hgsub : ∀ g ∈ dups, g.2 = (S.filter (fun q => q.1 == g.1)).map (fun q => q.2))
    (heq : chs.map (fun ch => (ch.old_code, chLoc ch)) =
      dups.flatMap (fun g => ((pySorted keyLe g.2).tail).map (fun l => (g.1, l)))) :
    ∀ ch ∈ chs, (ch.old_code, chLoc ch) ∈ S := by
  intro ch hch
  have h1 : (ch.old_code, chLoc ch) ∈ chs.map (fun ch => (ch.old_code, chLoc ch)) :=
    List.mem_map.mpr ⟨ch, hch, rfl⟩
  rw [heq] at h1
  rcases List.mem_flatMap.mp h1 with ⟨g, hg, hm⟩
  rcases List.mem_map.mp hm with ⟨loc, hloc, hpair⟩
  injection hpair with hp1 hp2
  have h2 : loc ∈ g.2 :=
    (pySorted_perm keyLe g.2).subset ((List.tail_sublist _).subset hloc)
  rw [hgsub g hg] at h2
  rcases List.mem_map.mp h2 with ⟨e, he, he2⟩
  have he1 : e.1 = g.1 := beq_iff_eq.mp (List.mem_filter.mp he).2
  have hee : e = (ch.old_code, chLoc ch) := by
    have : e = (e.1, e.2) := rfl
    rw [this, he1, hp1, he2, hp2]
  rw [← hee]
  exact List.mem_of_mem_filter he

theorem treeApply_paths (T : List (List Char × List LineSpec)) (chs : List Change) :
    (treeApply T chs).map (fun f => f.1) = T.map (fun f => f.1) := by
  unfold treeApply
  rw [List.map_map]
  rfl

theorem perm_count {α : Type} [BEq α] (l1 l2 : List α)
    (h : List.Perm l1 l2) (a : α) : l1.count a = l2.count a := by
  show l1.countP (fun x => x == a) = l2.countP (fun x => x == a)
  exact List.Perm.countP_congr h (fun x _ => rfl)

theorem nodup_count_le_one {α : Type} [BEq α] [LawfulBEq α] :
    ∀ l : List α, l.Nodup → ∀ a : α, l.count a ≤ 1 := by
  intro l
  induction l with
  | nil => intro _ a; simp
  | cons x l ih =>
    intro h a
    rw [List.nodup_cons] at h
    rw [List.count_cons]
    by_cases hxa : (x == a) = true
    · have hx : x = a := eq_of_beq hxa
      subst hx
      rw [List.count_eq_zero.mpr h.1]
      simp [hxa]
    · rw [Bool.eq_false_iff.mpr hxa]
      simp only [Bool.false_eq_true, if_false]
      have := ih h.2 a
      omega

/-- Claim C1 (amended): on canonical trees — whose lines are inert,
exact constant definitions, or exact inline calls, with distinct file
paths — fix mode is complete: after the run every code in the re-built
index has occurrence count exactly 1, and the total occurrence count is
unchanged (occurrences are rewritten, never deleted). -/
theorem claim_C1_amended
    (T : List (List Char × List LineSpec)) (rdp : List Char) (fuel : Nat)
    (chs : List Change) (files2 : List (List Char × List (List Char)))
    (hOK : treeOK T) (hrdp : ∀ c ∈ rdp, c.isDigit = true)
    (hrun : resolver_fix_run (renderTree T) rdp fuel = some (chs, files2)) :
    (∀ p ∈ find_all_error_codes files2, p.2.length = 1) ∧
    sumLen (find_all_error_codes files2) =
      sumLen (find_all_error_codes (renderTree T)) := by
  obtain ⟨hok, hpaths⟩ := hOK
  unfold resolver_fix_run at hrun
  simp only [] at hrun
  unfold fix_duplicates_changes at hrun
  cases hfa : fixAll rdp fuel
      (find_duplicates (find_all_error_codes (renderTree T)))
      (get_all_existing_codes (find_all_error_codes (renderTree T))) with
  | none => rw [hfa] at hrun; simp at hrun
  | some r =>
    obtain ⟨chs0, all2⟩ := r
    rw [hfa] at hrun
    simp only [Option.map_map, Option.map_some', Option.some.injEq,
      Prod.mk.injEq, Function.comp] at hrun
    obtain ⟨hc0, hf2a⟩ := hrun
    have hf2 : files2 = fix_duplicates_apply (renderTree T) chs := by
      rw [← hf2a, hc0]
    rw [hc0] at hfa
    have hS : occList (renderTree T) = specStream T := occList_renderTree T hok
    have hidx : find_all_error_codes (renderTree T) =
        (specStream T).foldl addOcc [] := by
      unfold find_all_error_codes
      rw [hS]
    have hKnd := find_all_keys_nodup (renderTree T)
    obtain ⟨g1, g2, g3, g4⟩ := fixAll_spec rdp fuel _ _ chs all2 hfa
    have hdig := fixAll_digits rdp fuel hrdp _ _ chs all2 hfa
    have hdupnd := find_duplicates_keys_nodup _ hKnd
    have hgsub : ∀ g ∈ find_duplicates (find_all_error_codes (renderTree T)),
        g.2 = ((specStream T).filter (fun q => q.1 == g.1)).map (fun q => q.2) := by
      intro g hg
      have hgidx : g ∈ find_all_error_codes (renderTree T) :=
        List.mem_of_mem_filter hg
      have h1 := entry_eq_lookup _ hKnd g hgidx
      rw [hidx] at h1
      rw [lookupOccs_foldl g.1 (specStream T) [], lookupOccs_nil,
        List.nil_append] at h1
      exact h1.symm
    have hSK := streamKeys_nodup T hpaths
    have hmemS := chs_entry_mem (specStream T) chs _ hgsub g4
    have hchsK : (chs.map (fun ch => (ch.file_path, ch.line_num))).Nodup := by
      have h1 : chs.map (fun ch => (ch.file_path, ch.line_num)) =
          (chs.map (fun ch => (ch.old_code, chLoc ch))).map (fun q => locKey q.2) := by
        rw [List.map_map]
        rfl
      rw [h1, g4, List.map_flatMap]
      have h2 : (fun g : List Char × List ErrorCodeLocation =>
          (((pySorted keyLe g.2).tail).map (fun l => (g.1, l))).map
            (fun q => locKey q.2)) =
          (fun g => ((pySorted keyLe g.2).tail).map locKey) := by
        funext g
        rw [List.map_map]
        rfl
      rw [h2]
      exact groups_tail_keys_nodup _ hSK _ hdupnd hgsub
    have hallpaths : ∀ ch ∈ chs, ch.file_path ∈ T.map (fun f => f.1) := by
      intro ch hch
      exact stream_path_mem T _ (hmemS ch hch)
    have hfits : ∀ f ∈ T, ∀ ch ∈ chs.filter (fun ch => ch.file_path == f.1),
        chFits f.2 ch := by
      intro f hf ch hchf
      have hch : ch ∈ chs := List.mem_of_mem_filter hchf
      have hfp : ch.file_path = f.1 := beq_iff_eq.mp (List.mem_filter.mp hchf).2
      obtain ⟨h1, sp, h2, h3, h4, h5⟩ :=
        stream_entry_fits T hpaths _ (hmemS ch hch) f hf hfp
      exact ⟨h1, sp, h2, h3, h4, h5⟩
    obtain ⟨happ, hok2, hlen, hcount⟩ :=
      treeApply_master chs hdig T hok hfits
        (fun f _ => filter_ln_nodup chs hchsK f.1)
    have hfiles2 : files2 = renderTree (treeApply T chs) := by rw [hf2, happ]
    have hpaths2 : ((treeApply T chs).map (fun f => f.1)).Nodup := by
      rw [treeApply_paths]
      exact hpaths
    have hS2 : occList (renderTree (treeApply T chs)) =
        specStream (treeApply T chs) := occList_renderTree _ hok2
    have hidx2 : find_all_error_codes files2 =
        (specStream (treeApply T chs)).foldl addOcc [] := by
      rw [hfiles2]
      unfold find_all_error_codes
      rw [hS2]
    have hK2nd := find_all_keys_nodup files2
    have hpermfiles : List.Perm
        (T.flatMap (fun f => chs.filter (fun ch => ch.file_path == f.1))) chs := by
      have h1 : T.flatMap (fun f => chs.filter (fun ch => ch.file_path == f.1)) =
          (T.map (fun f => f.1)).flatMap
            (fun p => chs.filter (fun ch => ch.file_path == p)) := by
        rw [List.flatMap_map]
      rw [h1]
      exact flatMap_filter_perm (fun ch => ch.file_path) (T.map (fun f => f.1))
        chs hpaths hallpaths
    have holds : ∀ c : List Char,
        ((T.flatMap (fun f => (chs.filter (fun ch => ch.file_path == f.1)).map
          (fun ch => ch.old_code))).count c) =
        ((chs.map (fun ch => ch.old_code)).count c) := by
      intro c
      have h1 : T.flatMap (fun f => (chs.filter (fun ch => ch.file_path == f.1)).map
          (fun ch => ch.old_code)) =
          (T.flatMap (fun f => chs.filter (fun ch => ch.file_path == f.1))).map
            (fun ch => ch.old_code) := by
        rw [List.map_flatMap]
      rw [h1]
      exact perm_count _ _ (hpermfiles.map (fun ch => ch.old_code)) c
    have hnews : ∀ c : List Char,
        ((T.flatMap (fun f => (chs.filter (fun ch => ch.file_path == f.1)).map
          (fun ch => ch.new_code))).count c) =
        ((chs.map (fun ch => ch.new_code)).count c) := by
      intro c
      have h1 : T.flatMap (fun f => (chs.filter (fun ch => ch.file_path == f.1)).map
          (fun ch => ch.new_code)) =
          (T.flatMap (fun f => chs.filter (fun ch => ch.file_path == f.1))).map
            (fun ch => ch.new_code) := by
        rw [List.map_flatMap]
      rw [h1]
      exact perm_count _ _ (hpermfiles.map (fun ch => ch.new_code)) c
    have hEq : ∀ c : List Char,
        (specCodes (treeApply T chs)).count c +
          (chs.map (fun ch => ch.old_code)).count c =
        (specCodes T).count c + (chs.map (fun ch => ch.new_code)).count c := by
      intro c
      have h0 := hcount c
      rw [holds c, hnews c] at h0
      exact h0
    have holdsflat : chs.map (fun ch => ch.old_code) =
        (find_duplicates (find_all_error_codes (renderTree T))).flatMap
          (fun g => ((pySorted keyLe g.2).tail).map (fun _ => g.1)) := by
      have h1 : chs.map (fun ch => ch.old_code) =
          (chs.map (fun ch => (ch.old_code, chLoc ch))).map (fun q => q.1) := by
        rw [List.map_map]
        rfl
      rw [h1, g4, List.map_flatMap]
      apply List.flatMap_congr
      intro g _
      rw [List.map_map]
      rfl
    constructor
    · intro p hp
      have hlook := entry_eq_lookup _ hK2nd p hp
      have hplen : p.2.length = (specCodes (treeApply T chs)).count p.1 := by
        calc p.2.length
            = (lookupOccs ((specStream (treeApply T chs)).foldl addOcc [])
                p.1).length := by rw [← hidx2, hlook]
          _ = ((specStream (treeApply T chs)).map (fun e => e.1)).count p.1 :=
              lookup_foldl_len _ _
          _ = (specCodes (treeApply T chs)).count p.1 := by rw [specStream_fst]
      have hpmem : p.1 ∈ specCodes (treeApply T chs) := by
        rw [hidx2] at hp
        rcases key_mem_foldl _ [] p hp with h | h
        · simp [get_all_existing_codes] at h
        · rw [← specStream_fst]
          exact h
      have hpos : 0 < (specCodes (treeApply T chs)).count p.1 :=
        List.count_pos_iff_mem.mpr hpmem
      by_cases hck : p.1 ∈ get_all_existing_codes (find_all_error_codes (renderTree T))
      · obtain ⟨q, hq, hq1⟩ := List.mem_map.mp hck
        have hcnt : (specCodes T).count p.1 = q.2.length := by
          have h1 := entry_eq_lookup _ hKnd q hq
          calc (specCodes T).count p.1
              = ((specStream T).map (fun e => e.1)).count p.1 := by
                rw [specStream_fst]
            _ = (lookupOccs ((specStream T).foldl addOcc []) p.1).length :=
                (lookup_foldl_len _ _).symm
            _ = (lookupOccs (find_all_error_codes (renderTree T)) p.1).length := by
                rw [← hidx]
            _ = q.2.length := by rw [← hq1, h1]
        have hnews0 : (chs.map (fun ch => ch.new_code)).count p.1 = 0 := by
          rw [List.count_eq_zero]
          intro hmem
          exact contains_false_not_mem _ _ (g2 p.1 hmem) hck
        have hq2ne : q.2 ≠ [] := by
          have hall : ∀ p2 ∈ find_all_error_codes (renderTree T), p2.2 ≠ [] := by
            rw [hidx]
            refine entries_ne_nil _ [] ?_
            intro x hx
            simp at hx
          exact hall q hq
        have hq2pos : 0 < q.2.length := List.length_pos.mpr hq2ne
        by_cases hdup : 1 < q.2.length
        · have hqd : q ∈ find_duplicates (find_all_error_codes (renderTree T)) := by
            unfold find_duplicates
            exact List.mem_filter.mpr ⟨hq, by simpa using hdup⟩
          have hqc : (p.1, q.2) = q := by rw [← hq1]
          have holdscnt : (chs.map (fun ch => ch.old_code)).count p.1 =
              (pySorted keyLe q.2).tail.length := by
            rw [holdsflat]
            exact count_flat_of_mem p.1 q.2 _ hdupnd (by rw [hqc]; exact hqd)
          have htl : (pySorted keyLe q.2).tail.length = q.2.length - 1 := by
            rw [List.length_tail, (pySorted_perm keyLe q.2).length_eq]
          have h0 := hEq p.1
          omega
        · have holdscnt : (chs.map (fun ch => ch.old_code)).count p.1 = 0 := by
            rw [holdsflat]
            refine count_flat_zero p.1 _ ?_
            intro g hg he
            have hgidx := List.mem_of_mem_filter hg
            have h1 := entry_eq_lookup _ hKnd g hgidx
            have h2 := entry_eq_lookup _ hKnd q hq
            have hg2q : g.2 = q.2 := by rw [← h1, ← h2, he, hq1]
            have h3 := (List.mem_filter.mp hg).2
            rw [hg2q] at h3
            have h4 : 1 < q.2.length := by simpa using h3
            omega
          have h0 := hEq p.1
          omega
      · have hcnt0 : (specCodes T).count p.1 = 0 := by
          rw [List.count_eq_zero]
          intro hmem
          refine hck ?_
          rw [hidx]
          refine mem_keys_foldl _ [] p.1 (Or.inl ?_)
          rw [specStream_fst]
          exact hmem
        have holds0 : (chs.map (fun ch => ch.old_code)).count p.1 = 0 := by
          rw [holdsflat]
          refine count_flat_zero p.1 _ ?_
          intro g hg he
          refine hck ?_
          rw [← he]
          exact List.mem_map.mpr ⟨g, List.mem_of_mem_filter hg, rfl⟩
        have hnle : (chs.map (fun ch => ch.new_code)).count p.1 ≤ 1 :=
          nodup_count_le_one _ g3 p.1
        have h0 := hEq p.1
        omega
    · have hsum2 : sumLen (find_all_error_codes files2) =
          (specStream (treeApply T chs)).length := by
        rw [hidx2, sumLen_foldl _ [] (by simp [get_all_existing_codes])]
        simp [sumLen]
      have hsum1 : sumLen (find_all_error_codes (renderTree T)) =
          (specStream T).length := by
        rw [hidx, sumLen_foldl _ [] (by simp [get_all_existing_codes])]
        simp [sumLen]
      have hl2 : (specStream (treeApply T chs)).length =
          (specCodes (treeApply T chs)).length := by
        rw [← specStream_fst, List.length_map]
      have hl1 : (specStream T).length = (specCodes T).length := by
        rw [← specStream_fst, List.length_map]
      rw [hsum2, hsum1, hl2, hl1, hlen]

def c1T : List (List Char × List LineSpec) :=
  [("A.java".toList, [.constL "X".toList "7".toList]),
   ("B.java".toList, [.inlineL "  throw ".toList "7".toList " m);".toList])]

def c1chs : List Change :=
  [⟨"B.java".toList, 1, "7".toList, "202512180001".toList, none, false,
    ("throw BizException.failed(7L, m);").toList⟩]

def c1files2 : List (List Char × List (List Char)) :=
  [("A.java".toList, [("private static final long ERROR_X = 7L;").toList]),
   ("B.java".toList,
    [("  throw BizException.failed(202512180001L, m);").toList])]

/-- Instantiation of `claim_C1_amended` on a concrete canonical tree
with one code duplicated between a constant definition and an inline
call. -/
theorem claim_C1_witness :
    resolver_fix_run (renderTree c1T) "20251218".toList 30 =
      some (c1chs, c1files2) ∧
    (∀ p ∈ find_all_error_codes c1files2, p.2.length = 1) ∧
    sumLen (find_all_error_codes c1files2) =
      sumLen (find_all_error_codes (renderTree c1T)) :=
  ⟨by decide,
   (claim_C1_amended c1T "20251218".toList 30 c1chs c1files2
     ⟨by decide, by decide⟩ (by decide) (by decide)).1,
   (claim_C1_amended c1T "20251218".toList 30 c1chs c1files2
     ⟨by decide, by decide⟩ (by decide) (by decide)).2⟩
